import Mathlib

/-!
# Bolt: the managed heap, the hash table and the mark-compact collector

A shallow embedding of `src/memory.c`, `src/object.c` and `src/table.c`.

* Addresses are natural numbers, `0` is `NULL`.  `reallocate` adds them
  exactly; `Raw.reallocate` takes the two pointer sums of the source at the
  width of a pointer, and the two agree on every call whose sums stay below
  `2^64`.
* Memory is seen at the granularity of objects: `Mem` maps the address of an
  object header to the object stored there.  Reading an address that holds no
  object is undefined in C; every function of the model that would do so
  returns `none` (or `Outcome.stuck`).
* Raw arrays (the entry array of a table, the constant array of a chunk, the
  upvalue array and the characters that trail a closure or a string) are held
  by value inside the structure that points to them.  Their footprint in the
  arena is modelled by the bump of `next` that allocating them causes.
* For a String and a Closure the array held by value is the one that lies in
  the block of the object, after the struct, which is where `allocateString`
  and `newClosure` point `chars` and `upvalues`.  The two pointers themselves
  are no part of `Obj`; `Raw.Heap` carries them next to the memory, and
  `Raw.compactHeap` is the slide with them.
* `sizeof` constants, `ALLOCATE`, `FREE_ARRAY`, `GROW_CAPACITY`, `push`, `pop`
  and `markCompilerRoots` live in headers and files outside `src/`; they are
  parameters (`Sizes`) or are modelled from the specification.
-/

namespace Bolt

/-- The tag of the object header (`ObjType`). -/
inductive ObjType
  | OBJ_BOUND_METHOD
  | OBJ_CLASS
  | OBJ_CLOSURE
  | OBJ_FUNCTION
  | OBJ_INSTANCE
  | OBJ_NATIVE
  | OBJ_STRING
  | OBJ_UPVALUE
  deriving DecidableEq, Repr

/-- A runtime value.  A number carries the bits of its double, which the heap
never inspects. -/
inductive Value
  | nil
  | bool (b : Bool)
  | number (bits : Nat)
  | obj (p : Nat)
  deriving DecidableEq, Repr

/-- The `IS_NIL` test of `value.h`. -/
def Value.isNil : Value → Bool
  | .nil => true
  | _ => false

/-- One slot of a table: `key == NULL` with a nil value is empty, `key == NULL`
with any other value is a tombstone. -/
structure Entry where
  key : Nat
  value : Value
  deriving DecidableEq, Repr

/-- The `Table` of `table.h`.  The entry array is held by value; it has
`capacityMask + 1` slots, so `capacityMask` is read off its length. -/
structure Table where
  count : Int
  entries : List Entry
  deriving DecidableEq, Repr

/-- The field `capacityMask`: `-1` for the table without entry array. -/
def Table.capacityMask (t : Table) : Int := (t.entries.length : Int) - 1

/-- The fields of an object after its header, by kind. -/
inductive ObjBody
  | boundMethod (receiver : Value) (method : Nat)
  | klass (name : Nat) (methods : Table)
  | closure (function : Nat) (upvalues : List Nat)
  | function (arity : Int) (upvalueCount : Nat) (name : Nat) (constants : List Value)
  | inst (klass : Nat) (fields : Table)
  | native (function : Nat)
  | string (hash : Nat) (chars : List Nat)
  | upvalue (location : Nat) (closed : Value) (next : Nat)
  deriving DecidableEq, Repr

/-- A heap object: the forwarding slot of the header and the body.  The tag of
the header is the constructor of the body. -/
structure Obj where
  forwardingAddress : Nat
  body : ObjBody
  deriving DecidableEq, Repr

/-- The header field `type`. -/
def Obj.type (o : Obj) : ObjType :=
  match o.body with
  | .boundMethod _ _ => .OBJ_BOUND_METHOD
  | .klass _ _ => .OBJ_CLASS
  | .closure _ _ => .OBJ_CLOSURE
  | .function _ _ _ _ => .OBJ_FUNCTION
  | .inst _ _ => .OBJ_INSTANCE
  | .native _ => .OBJ_NATIVE
  | .string _ _ => .OBJ_STRING
  | .upvalue _ _ _ => .OBJ_UPVALUE

/-- The `sizeof` constants of the headers, which are not part of `src/`. -/
structure Sizes where
  objBoundMethod : Nat
  objClass : Nat
  objClosure : Nat
  objFunction : Nat
  objInstance : Nat
  objNative : Nat
  objString : Nat
  objUpvalue : Nat
  upvaluePtr : Nat
  entry : Nat
  deriving DecidableEq, Repr

/-- Every structure has at least one byte. -/
def Sizes.Pos (sz : Sizes) : Prop :=
  0 < sz.objBoundMethod ∧ 0 < sz.objClass ∧ 0 < sz.objClosure ∧ 0 < sz.objFunction ∧
  0 < sz.objInstance ∧ 0 < sz.objNative ∧ 0 < sz.objString ∧ 0 < sz.objUpvalue

instance (sz : Sizes) : Decidable sz.Pos := by
  unfold Sizes.Pos; infer_instance

/-- A sample LP64 layout, used for the concrete evaluations. -/
def sizes64 : Sizes :=
  { objBoundMethod := 40, objClass := 40, objClosure := 40, objFunction := 80,
    objInstance := 40, objNative := 24, objString := 40, objUpvalue := 56,
    upvaluePtr := 8, entry := 24 }

/-- The function `sizeOfObject` of `memory.c`. -/
def sizeOfObject (sz : Sizes) (o : Obj) : Nat :=
  match o.body with
  | .boundMethod _ _ => sz.objBoundMethod
  | .klass _ _ => sz.objClass
  | .closure _ upvalues => sz.objClosure + sz.upvaluePtr * upvalues.length
  | .function _ _ _ _ => sz.objFunction
  | .inst _ _ => sz.objInstance
  | .native _ => sz.objNative
  | .string _ chars => sz.objString + chars.length + 1
  | .upvalue _ _ _ => sz.objUpvalue

/-- Memory, as the objects found at the addresses that hold an object header. -/
abbrev Mem := Nat → Option Obj

/-- Dereference a pointer: nothing lives at `NULL`. -/
def Mem.read (m : Mem) (p : Nat) : Option Obj := if p = 0 then none else m p

/-- Store an object at an address. -/
def Mem.write (m : Mem) (p : Nat) (o : Obj) : Mem := fun a => if a = p then some o else m a

/-- The memory that holds no object. -/
def Mem.empty : Mem := fun _ => none

/-- The state `vm` of the virtual machine, as far as the heap is concerned.
`stack` is the range `[stack, stackTop)`, `frames` the closure of each of the
`frameCount` active frames. -/
structure VM where
  heap : Nat
  heapCapacity : Nat
  next : Nat
  bytesAllocated : Nat
  nextGC : Nat
  stack : List Value
  frames : List Nat
  openUpvalues : Nat
  globals : Table
  strings : Table
  initString : Nat
  compilerRoots : List Nat
  mem : Mem

/-! ## Marking (`memory.c`, `table.c`) -/

/-- The function `markObject`: a null or already marked pointer is left alone,
otherwise the object is marked by pointing its forwarding slot at itself. -/
def markObject (m : Mem) (object : Nat) : Option Mem :=
  if object = 0 then some m
  else
    match m.read object with
    | none => none
    | some o =>
      if o.forwardingAddress ≠ 0 then some m
      else some (m.write object { o with forwardingAddress := object })

/-- The function `markValue`. -/
def markValue (m : Mem) (value : Value) : Option Mem :=
  match value with
  | .obj p => markObject m p
  | _ => some m

/-- The function `markArray`, over the `count` values of the array. -/
def markArray (m : Mem) : List Value → Option Mem
  | [] => some m
  | v :: rest =>
    match markValue m v with
    | none => none
    | some m1 => markArray m1 rest

/-- The loop of `markObject` over an array of pointers (the upvalues of a
closure, the closures of the frames, the compiler roots). -/
def markObjects (m : Mem) : List Nat → Option Mem
  | [] => some m
  | p :: rest =>
    match markObject m p with
    | none => none
    | some m1 => markObjects m1 rest

/-- The loop of `markTable` over the slots `0 .. capacityMask`. -/
def markEntries (m : Mem) : List Entry → Option Mem
  | [] => some m
  | e :: rest =>
    match markObject m e.key with
    | none => none
    | some m1 =>
      match markValue m1 e.value with
      | none => none
      | some m2 => markEntries m2 rest

/-- The function `markTable` of `table.c`. -/
def markTable (m : Mem) (table : Table) : Option Mem := markEntries m table.entries

/-- The function `traceObject`: mark everything the object points to. -/
def traceObject (m : Mem) (object : Nat) : Option Mem :=
  match m.read object with
  | none => none
  | some o =>
    match o.body with
    | .boundMethod receiver method =>
      match markValue m receiver with
      | none => none
      | some m1 => markObject m1 method
    | .klass name methods =>
      match markObject m name with
      | none => none
      | some m1 => markTable m1 methods
    | .closure function upvalues =>
      match markObject m function with
      | none => none
      | some m1 => markObjects m1 upvalues
    | .function _ _ name constants =>
      match markObject m name with
      | none => none
      | some m1 => markArray m1 constants
    | .inst klass fields =>
      match markObject m klass with
      | none => none
      | some m1 => markTable m1 fields
    | .upvalue _ closed _ => markValue m closed
    | .native _ => some m
    | .string _ _ => some m

/-- The loop of `markRoots` over the list of open upvalues: mark the node,
then follow its `next` field.  A cyclic list never ends; `none` also stands
for that. -/
def markOpenUpvalues : Nat → Mem → Nat → Option Mem
  | 0, _, _ => none
  | fuel + 1, m, upvalue =>
    if upvalue = 0 then some m
    else
      match markObject m upvalue with
      | none => none
      | some m1 =>
        match m1.read upvalue with
        | some { forwardingAddress := _, body := .upvalue _ _ next } =>
          markOpenUpvalues fuel m1 next
        | _ => none

/-- Modelled from the spec: `markCompilerRoots` is defined in the compiler,
outside `src/`; the specification describes it as a callback that marks the
functions under construction.  They are the field `compilerRoots` of the
state. -/
def markCompilerRoots (vm : VM) (m : Mem) : Option Mem := markObjects m vm.compilerRoots

/-- The function `markRoots`. -/
def markRoots (fuel : Nat) (vm : VM) : Option VM :=
  match markArray vm.mem vm.stack with
  | none => none
  | some m1 =>
    match markObjects m1 vm.frames with
    | none => none
    | some m2 =>
      match markOpenUpvalues fuel m2 vm.openUpvalues with
      | none => none
      | some m3 =>
        match markTable m3 vm.globals with
        | none => none
        | some m4 =>
          match markCompilerRoots vm m4 with
          | none => none
          | some m5 =>
            match markObject m5 vm.initString with
            | none => none
            | some m6 => some { vm with mem := m6 }

/-- One pass of the inner loop of `collectGarbage` from the cursor `p`: every
object whose forwarding slot points at itself is unmarked, marked again and
traced, and `changed` is raised. -/
def markPass (sz : Sizes) : Nat → Nat → Mem → Nat → Bool → Option (Mem × Bool)
  | 0, _, _, _, _ => none
  | fuel + 1, next, m, p, changed =>
    if p < next then
      match m.read p with
      | none => none
      | some o =>
        if o.forwardingAddress = p then
          match markObject (m.write p { o with forwardingAddress := 0 }) p with
          | none => none
          | some m2 =>
            match traceObject m2 p with
            | none => none
            | some m3 =>
              match m3.read p with
              | none => none
              | some o3 => markPass sz fuel next m3 (p + sizeOfObject sz o3) true
        else markPass sz fuel next m (p + sizeOfObject sz o) changed
    else some (m, changed)

/-- The number of iterations that a walk of `[heap, next)` can take when every
object has at least one byte, plus the final test of the cursor. -/
def walkFuel (vm : VM) : Nat := vm.next - vm.heap + 1

/-- The loop `while (changed)` of `collectGarbage`; `fuel` bounds the number
of passes. -/
def markLoop (sz : Sizes) : Nat → VM → Option VM
  | 0, _ => none
  | fuel + 1, vm =>
    match markPass sz (walkFuel vm) vm.next vm.mem vm.heap false with
    | none => none
    | some (m, changed) =>
      if changed then markLoop sz fuel { vm with mem := m }
      else some { vm with mem := m }

/-! ## The hash table (`table.c`) -/

/-- The function `initTable`. -/
def initTable : Table := { count := 0, entries := [] }

/-- The conversion of the `int` mask to the `uint32_t` it is combined with. -/
def maskU32 (capacityMask : Int) : Nat := (capacityMask % 4294967296).toNat

/-- The probe loop of `findEntry`.  The result is the index of the slot that
the C function returns a pointer to.  A probe that comes back to a state it
has been in goes on for ever; it is cut after `fuel` steps. -/
def findEntryLoop (entries : List Entry) (mask : Nat) (key : Nat) :
    Nat → Nat → Option Nat → Option Nat
  | 0, _, _ => none
  | fuel + 1, index, tombstone =>
    match entries[index]? with
    | none => none
    | some entry =>
      if entry.key = 0 then
        if entry.value.isNil then
          some (match tombstone with
            | some t => t
            | none => index)
        else
          findEntryLoop entries mask key fuel (((index + 1) % 4294967296) &&& mask)
            (match tombstone with
              | some t => some t
              | none => some index)
      else if entry.key = key then some index
      else findEntryLoop entries mask key fuel (((index + 1) % 4294967296) &&& mask) tombstone

/-- The function `findEntry`; `key->hash` is read from the string the key
points to. -/
def findEntry (m : Mem) (entries : List Entry) (capacityMask : Int) (key : Nat) : Option Nat :=
  match m.read key with
  | some { forwardingAddress := _, body := .string hash _ } =>
    findEntryLoop entries (maskU32 capacityMask) key (2 * entries.length + 2)
      (hash &&& maskU32 capacityMask) none
  | _ => none

/-- The function `tableGet`: `some none` is the result `false`, `some (some v)`
the result `true` with `*value = v`. -/
def tableGet (m : Mem) (table : Table) (key : Nat) : Option (Option Value) :=
  if table.count = 0 then some none
  else
    match findEntry m table.entries table.capacityMask key with
    | none => none
    | some i =>
      match table.entries[i]? with
      | none => none
      | some entry => if entry.key = 0 then some none else some (some entry.value)

/-- The function `tableDelete`, with the table after the call. -/
def tableDelete (m : Mem) (table : Table) (key : Nat) : Option (Table × Bool) :=
  if table.count = 0 then some (table, false)
  else
    match findEntry m table.entries table.capacityMask key with
    | none => none
    | some i =>
      match table.entries[i]? with
      | none => none
      | some entry =>
        if entry.key = 0 then some (table, false)
        else
          some ({ table with entries := table.entries.set i { key := 0, value := .bool true } },
            true)

/-- The loop of `tableRemoveWhite` from slot `i`, with `n` slots to go. -/
def tableRemoveWhiteLoop (m : Mem) : Nat → Nat → Table → Option Table
  | 0, _, table => some table
  | n + 1, i, table =>
    match table.entries[i]? with
    | none => none
    | some entry =>
      if entry.key ≠ 0 then
        match m.read entry.key with
        | none => none
        | some k =>
          if k.forwardingAddress = 0 then
            match tableDelete m table entry.key with
            | none => none
            | some (table1, _) => tableRemoveWhiteLoop m n (i + 1) table1
          else tableRemoveWhiteLoop m n (i + 1) table
      else tableRemoveWhiteLoop m n (i + 1) table

/-- The function `tableRemoveWhite`. -/
def tableRemoveWhite (m : Mem) (table : Table) : Option Table :=
  tableRemoveWhiteLoop m table.entries.length 0 table

/-- The function `updatePtr` of `memory.c`, as the new content of `*p`. -/
def updatePtr (m : Mem) (p : Nat) : Option Nat :=
  if p ≠ 0 then
    match m.read p with
    | none => none
    | some o => some o.forwardingAddress
  else some p

/-- The statement `if (IS_OBJ(v)) v = OBJ_VAL(AS_OBJ(v)->forwardingAddress);`
that `memory.c` and `table.c` apply to a value slot. -/
def updateValue (m : Mem) (v : Value) : Option Value :=
  match v with
  | .obj p =>
    match m.read p with
    | none => none
    | some o => some (.obj o.forwardingAddress)
  | .nil => some .nil
  | .bool b => some (.bool b)
  | .number n => some (.number n)

/-- The loop of `tableUpdatePointers` over the slots `0 .. capacityMask`. -/
def updateEntries (m : Mem) : List Entry → Option (List Entry)
  | [] => some []
  | e :: rest =>
    if e.key ≠ 0 then
      match m.read e.key with
      | none => none
      | some k =>
        match updateValue m e.value with
        | none => none
        | some v =>
          match updateEntries m rest with
          | none => none
          | some rest1 => some ({ key := k.forwardingAddress, value := v } :: rest1)
    else
      match updateEntries m rest with
      | none => none
      | some rest1 => some (e :: rest1)

/-- The function `tableUpdatePointers`. -/
def tableUpdatePointers (m : Mem) (table : Table) : Option Table :=
  match updateEntries m table.entries with
  | none => none
  | some es => some { table with entries := es }

/-! ## Address computation, pointer rewriting and sliding (`memory.c`) -/

/-- The loop of `calculateNewLocations`, with the cursors `to` and `from`. -/
def calculateNewLocationsLoop (sz : Sizes) : Nat → Nat → Mem → Nat → Nat → Option (Mem × Nat)
  | 0, _, _, _, _ => none
  | fuel + 1, next, m, dest, frm =>
    if frm < next then
      match m.read frm with
      | none => none
      | some o =>
        if o.forwardingAddress ≠ 0 then
          calculateNewLocationsLoop sz fuel next (m.write frm { o with forwardingAddress := dest })
            (dest + sizeOfObject sz o) (frm + sizeOfObject sz o)
        else calculateNewLocationsLoop sz fuel next m dest (frm + sizeOfObject sz o)
    else some (m, dest)

/-- The function `calculateNewLocations`: the state with the forwarding
addresses assigned, and the size of the live objects. -/
def calculateNewLocations (sz : Sizes) (vm : VM) : Option (VM × Nat) :=
  match calculateNewLocationsLoop sz (walkFuel vm) vm.next vm.mem vm.heap vm.heap with
  | none => none
  | some (m, dest) => some ({ vm with mem := m }, dest - vm.heap)

/-- The loop of `updatePtr` over an array of pointers. -/
def updatePtrs (m : Mem) : List Nat → Option (List Nat)
  | [] => some []
  | p :: rest =>
    match updatePtr m p with
    | none => none
    | some p1 =>
      match updatePtrs m rest with
      | none => none
      | some rest1 => some (p1 :: rest1)

/-- The loop of `updatePointers` over the slots of the value stack. -/
def updateValues (m : Mem) : List Value → Option (List Value)
  | [] => some []
  | v :: rest =>
    match updateValue m v with
    | none => none
    | some v1 =>
      match updateValues m rest with
      | none => none
      | some rest1 => some (v1 :: rest1)

/-- The loop of `updatePointers` over the open upvalues.  `updatePtr` is
applied to the address of the loop variable, so only that variable is
rewritten; the loop then reads `next` through the rewritten variable.  Nothing
of the state changes; the result tells whether the loop comes to an end. -/
def updateOpenUpvalues : Nat → Mem → Nat → Option Unit
  | 0, _, _ => none
  | fuel + 1, m, upvalue =>
    if upvalue = 0 then some ()
    else
      match updatePtr m upvalue with
      | none => none
      | some u =>
        match m.read u with
        | some { forwardingAddress := _, body := .upvalue _ _ next } =>
          updateOpenUpvalues fuel m next
        | _ => none

/-- The function `updateObjectPointers`. -/
def updateObjectPointers (m : Mem) (object : Nat) : Option Mem :=
  match m.read object with
  | none => none
  | some o =>
    match o.body with
    | .boundMethod receiver method =>
      match updateValue m receiver with
      | none => none
      | some receiver1 =>
        match updatePtr m method with
        | none => none
        | some method1 =>
          some (m.write object { o with body := .boundMethod receiver1 method1 })
    | .klass name methods =>
      match updatePtr m name with
      | none => none
      | some name1 =>
        match tableUpdatePointers m methods with
        | none => none
        | some methods1 => some (m.write object { o with body := .klass name1 methods1 })
    | .closure function upvalues =>
      match updatePtr m function with
      | none => none
      | some function1 =>
        match updatePtrs m upvalues with
        | none => none
        | some upvalues1 =>
          some (m.write object { o with body := .closure function1 upvalues1 })
    | .function arity upvalueCount name constants =>
      match updatePtr m name with
      | none => none
      | some name1 =>
        some (m.write object { o with body := .function arity upvalueCount name1 constants })
    | .inst klass fields =>
      match updatePtr m klass with
      | none => none
      | some klass1 =>
        match tableUpdatePointers m fields with
        | none => none
        | some fields1 => some (m.write object { o with body := .inst klass1 fields1 })
    | .native _ => some m
    | .string _ _ => some m
    | .upvalue _ _ _ => some m

/-- The second loop of `updatePointers`: rewrite the pointers of every live
object of the heap. -/
def updateHeapLoop (sz : Sizes) : Nat → Nat → Mem → Nat → Option Mem
  | 0, _, _, _ => none
  | fuel + 1, next, m, frm =>
    if frm < next then
      match m.read frm with
      | none => none
      | some o =>
        if o.forwardingAddress ≠ 0 then
          match updateObjectPointers m frm with
          | none => none
          | some m1 =>
            match m1.read frm with
            | none => none
            | some o1 => updateHeapLoop sz fuel next m1 (frm + sizeOfObject sz o1)
        else updateHeapLoop sz fuel next m (frm + sizeOfObject sz o)
    else some m

/-- The function `updatePointers`.  The compiler roots are not rewritten (the
call is commented out in the source), nor is the table `vm.strings`. -/
def updatePointers (sz : Sizes) (fuel : Nat) (vm : VM) : Option VM :=
  match updateValues vm.mem vm.stack with
  | none => none
  | some stack1 =>
    match updatePtrs vm.mem vm.frames with
    | none => none
    | some frames1 =>
      match updateOpenUpvalues fuel vm.mem vm.openUpvalues with
      | none => none
      | some _ =>
        match tableUpdatePointers vm.mem vm.globals with
        | none => none
        | some globals1 =>
          match updatePtr vm.mem vm.initString with
          | none => none
          | some initString1 =>
            match updateHeapLoop sz (walkFuel vm) vm.next vm.mem vm.heap with
            | none => none
            | some m1 =>
              some { vm with
                stack := stack1, frames := frames1, globals := globals1,
                initString := initString1, mem := m1 }

/-- The call `memmove(to, from, size)` on the block of the object at `from`:
the block (the struct, and the array that trails it, which the object holds
by value) is found at `to` afterwards, and every other object of which a
byte lies in `[to, to + size)` is overwritten.  The pointers `chars` and
`upvalues` inside the struct are copied as they are; `Raw.memmove` keeps
track of them. -/
def memmove (sz : Sizes) (m : Mem) (dest frm size : Nat) : Mem := fun a =>
  if a = dest then m frm
  else
    match m a with
    | none => none
    | some o => if a < dest + size ∧ dest < a + sizeOfObject sz o then none else some o

/-- The loop of `compactHeap`. -/
def compactHeapLoop (sz : Sizes) : Nat → Nat → Mem → Nat → Option Mem
  | 0, _, _, _ => none
  | fuel + 1, next, m, frm =>
    if frm < next then
      match m.read frm with
      | none => none
      | some o =>
        if o.forwardingAddress ≠ 0 then
          match (if o.forwardingAddress ≠ frm
              then memmove sz m o.forwardingAddress frm (sizeOfObject sz o)
              else m).read o.forwardingAddress with
          | none => none
          | some moved =>
            compactHeapLoop sz fuel next
              ((if o.forwardingAddress ≠ frm
                  then memmove sz m o.forwardingAddress frm (sizeOfObject sz o)
                  else m).write o.forwardingAddress { moved with forwardingAddress := 0 })
              (frm + sizeOfObject sz o)
        else compactHeapLoop sz fuel next m (frm + sizeOfObject sz o)
    else some m

/-- The function `compactHeap`, on the blocks of the objects.  What the
pointers `chars` and `upvalues` of a moved object hold is not seen here, see
`Raw.compactHeap`. -/
def compactHeap (sz : Sizes) (vm : VM) : Option VM :=
  match compactHeapLoop sz (walkFuel vm) vm.next vm.mem vm.heap with
  | none => none
  | some m => some { vm with mem := m }

/-- The part of `collectGarbage` that follows the mark loop: prune the intern
set, compute the new locations, rewrite the pointers, slide, and set `next`,
`bytesAllocated` and `nextGC` (a `size_t`, with `GC_HEAP_GROW_FACTOR` 2). -/
def collectAfterMark (sz : Sizes) (fuel : Nat) (vm : VM) : Option VM :=
  match tableRemoveWhite vm.mem vm.strings with
  | none => none
  | some strings1 =>
    match calculateNewLocations sz { vm with strings := strings1 } with
    | none => none
    | some (vm1, liveSize) =>
      match updatePointers sz fuel vm1 with
      | none => none
      | some vm2 =>
        match compactHeap sz vm2 with
        | none => none
        | some vm3 =>
          some { vm3 with
            next := vm3.heap + liveSize,
            bytesAllocated := liveSize,
            nextGC := (liveSize * 2) % 18446744073709551616 }

/-- The function `collectGarbage`; `fuel` bounds the passes of the mark loop
and the length of the walks over the list of open upvalues. -/
def collectGarbage (sz : Sizes) (fuel : Nat) (vm : VM) : Option VM :=
  match markRoots fuel vm with
  | none => none
  | some vm1 =>
    match markLoop sz fuel vm1 with
    | none => none
    | some vm2 => collectAfterMark sz fuel vm2

/-! ## The state at boot -/

/-- Modelled from the spec: `initVM` is part of `vm.c`, outside `src/`.  The
state at boot has an empty arena (`next == heap`), no root and empty tables. -/
def initVM (heap heapCapacity nextGC : Nat) : VM :=
  { heap := heap, heapCapacity := heapCapacity, next := heap, bytesAllocated := 0,
    nextGC := nextGC, stack := [], frames := [], openUpvalues := 0, globals := initTable,
    strings := initTable, initString := 0, compilerRoots := [], mem := Mem.empty }

/-! ## The bump allocator (`memory.c`) -/

/-- The result of a call that may end the process: `outOfMemory` is the exit
with "Error: Out of memory.", `stuck` a call that does not return (a loop
that does not end, or a read through a pointer that holds no object). -/
inductive Outcome (α : Type)
  | ok (a : α)
  | outOfMemory
  | stuck

/-- The number of values of a `size_t`. -/
def sizeT : Nat := 18446744073709551616

/-- The raw bytes written over `[lo, hi)` leave no object header there. -/
def Mem.clear (m : Mem) (lo hi : Nat) : Mem := fun a => if lo ≤ a ∧ a < hi then none else m a

/-- The collections that `reallocate` runs when `newSize > oldSize`: one when
the build has `DEBUG_STRESS_GC`, and one when `bytesAllocated` exceeds
`nextGC`. -/
def reallocateCollect (sz : Sizes) (stress : Bool) (fuel : Nat) (vm : VM) : Option VM :=
  match (if stress then collectGarbage sz fuel vm else some vm) with
  | none => none
  | some vm1 => if vm1.bytesAllocated > vm1.nextGC then collectGarbage sz fuel vm1 else some vm1

/-- The statement `vm.bytesAllocated += newSize - oldSize;` on `size_t`
operands: the new value of `bytesAllocated`. -/
def accountBytes (bytesAllocated oldSize newSize : Nat) : Nat :=
  (bytesAllocated + (newSize + (sizeT - oldSize % sizeT)) % sizeT) % sizeT

/-- The function `reallocate`, with the state after the call and the pointer
returned.  The `memcpy` of the old block writes raw bytes at the start of the
new one.  The pointer sums `(char *)vm.next + newSize` and
`(char *)vm.heap + vm.heapCapacity` are exact sums of naturals here: this is
the function on the calls whose sums stay in the address space, and
`Raw.reallocate` is the function with the sums at the width of a pointer. -/
def reallocate (sz : Sizes) (stress : Bool) (fuel : Nat) (vm : VM)
    (pointer oldSize newSize : Nat) : Outcome (VM × Nat) :=
  match (if newSize > oldSize
      then reallocateCollect sz stress fuel
        { vm with bytesAllocated := accountBytes vm.bytesAllocated oldSize newSize }
      else some { vm with bytesAllocated := accountBytes vm.bytesAllocated oldSize newSize }) with
  | none => .stuck
  | some vm1 =>
    if newSize = 0 then .ok (vm1, 0)
    else if vm1.next + newSize > vm1.heap + vm1.heapCapacity then .outOfMemory
    else
      .ok ({ vm1 with
              next := vm1.next + newSize,
              mem := if pointer ≠ 0 then vm1.mem.clear vm1.next (vm1.next + oldSize)
                else vm1.mem },
           vm1.next)

/-- A call of `reallocate` runs a collection: the request grows the block and
either the build has `DEBUG_STRESS_GC` or the threshold `nextGC` is passed. -/
def triggersCollection (stress : Bool) (vm : VM) (oldSize newSize : Nat) : Bool :=
  decide (newSize > oldSize) &&
    (stress || decide (accountBytes vm.bytesAllocated oldSize newSize > vm.nextGC))

/-- Modelled from the spec: the macro `ALLOCATE(type, count)` of `memory.h`,
outside `src/`, is `reallocate(NULL, 0, sizeof(type) * count)`: the allocator
is "the universal reallocation primitive; also used for raw array growth". -/
def ALLOCATE (sz : Sizes) (stress : Bool) (fuel : Nat) (vm : VM) (size count : Nat) :
    Outcome (VM × Nat) :=
  reallocate sz stress fuel vm 0 0 (size * count)

/-- Modelled from the spec: the macro `FREE_ARRAY(type, pointer, oldCount)` of
`memory.h`, outside `src/`, is `reallocate(pointer, sizeof(type) * oldCount, 0)`. -/
def FREE_ARRAY (sz : Sizes) (stress : Bool) (fuel : Nat) (vm : VM) (size pointer oldCount : Nat) :
    Outcome (VM × Nat) :=
  reallocate sz stress fuel vm pointer (size * oldCount) 0

/-- Modelled from the spec: the macro `GROW_CAPACITY` of `memory.h`, outside
`src/`: "grow by doubling", from a first capacity of 8. -/
def GROW_CAPACITY (capacity : Int) : Int := if capacity < 8 then 8 else capacity * 2

/-! ## Growing tables (`table.c`) -/

/-- A table of the machine, named by where it lives: `&vm.globals`,
`&vm.strings`, `&klass->methods` or `&instance->fields`. -/
inductive TableRef
  | globals
  | strings
  | methods (klass : Nat)
  | fields (inst : Nat)
  deriving DecidableEq, Repr

/-- Read the table that a reference names. -/
def getTable (vm : VM) : TableRef → Option Table
  | .globals => some vm.globals
  | .strings => some vm.strings
  | .methods klass =>
    match vm.mem.read klass with
    | some { forwardingAddress := _, body := .klass _ methods } => some methods
    | _ => none
  | .fields inst =>
    match vm.mem.read inst with
    | some { forwardingAddress := _, body := .inst _ fields } => some fields
    | _ => none

/-- Store a table where a reference names it. -/
def setTable (vm : VM) (ref : TableRef) (table : Table) : Option VM :=
  match ref with
  | .globals => some { vm with globals := table }
  | .strings => some { vm with strings := table }
  | .methods klass =>
    match vm.mem.read klass with
    | some { forwardingAddress := f, body := .klass name _ } =>
      some { vm with mem := vm.mem.write klass { forwardingAddress := f, body := .klass name table } }
    | _ => none
  | .fields inst =>
    match vm.mem.read inst with
    | some { forwardingAddress := f, body := .inst klass _ } =>
      some { vm with mem := vm.mem.write inst { forwardingAddress := f, body := .inst klass table } }
    | _ => none

/-- The second loop of `adjustCapacity`: insert every live entry of the old
array into the new one, counting them. -/
def rehash (m : Mem) (capacity : Int) : List Entry → List Entry → Int → Option (List Entry × Int)
  | [], entries, count => some (entries, count)
  | entry :: rest, entries, count =>
    if entry.key = 0 then rehash m capacity rest entries count
    else
      match findEntry m entries (capacity - 1) entry.key with
      | none => none
      | some dest =>
        rehash m capacity rest (entries.set dest { key := entry.key, value := entry.value })
          (count + 1)

/-- The function `adjustCapacity`.  The new array comes from `ALLOCATE`, which
bumps `next` and may collect; its slots are then written, the live entries of
the table (read after the allocation) are inserted, and the old array is
released with `FREE_ARRAY`, which only lowers `bytesAllocated` (it does not
look at the address of the old array, which the model does not keep). -/
def adjustCapacity (sz : Sizes) (stress : Bool) (fuel : Nat) (vm : VM) (ref : TableRef)
    (capacity : Int) : Outcome VM :=
  match ALLOCATE sz stress fuel vm sz.entry capacity.toNat with
  | .stuck => .stuck
  | .outOfMemory => .outOfMemory
  | .ok (vm1, entries) =>
    if entries = 0 ∧ 0 < capacity then .stuck
    else
      match getTable
          { vm1 with mem := vm1.mem.clear entries (entries + sz.entry * capacity.toNat) } ref with
      | none => .stuck
      | some table =>
        match rehash (vm1.mem.clear entries (entries + sz.entry * capacity.toNat)) capacity
            table.entries (List.replicate capacity.toNat { key := 0, value := .nil }) 0 with
        | none => .stuck
        | some (entries1, count) =>
          match FREE_ARRAY sz stress fuel
              { vm1 with mem := vm1.mem.clear entries (entries + sz.entry * capacity.toNat) }
              sz.entry 0 (table.capacityMask + 1).toNat with
          | .stuck => .stuck
          | .outOfMemory => .outOfMemory
          | .ok (vm2, _) =>
            match setTable vm2 ref { count := count, entries := entries1 } with
            | none => .stuck
            | some vm3 => .ok vm3

/-- The function `tableSet`, with the state after the call and the result
`isNewKey`.  The test `count + 1 > (capacityMask + 1) * 0.75` on doubles is
the test `4 * (count + 1) > 3 * (capacityMask + 1)` on integers. -/
def tableSet (sz : Sizes) (stress : Bool) (fuel : Nat) (vm : VM) (ref : TableRef)
    (key : Nat) (value : Value) : Outcome (VM × Bool) :=
  match getTable vm ref with
  | none => .stuck
  | some table0 =>
    match (if 4 * (table0.count + 1) > 3 * (table0.capacityMask + 1)
        then adjustCapacity sz stress fuel vm ref (GROW_CAPACITY (table0.capacityMask + 1))
        else .ok vm) with
    | .stuck => .stuck
    | .outOfMemory => .outOfMemory
    | .ok vm1 =>
      match getTable vm1 ref with
      | none => .stuck
      | some table =>
        match findEntry vm1.mem table.entries table.capacityMask key with
        | none => .stuck
        | some i =>
          match table.entries[i]? with
          | none => .stuck
          | some entry =>
            match setTable vm1 ref
                { count := if entry.key = 0 ∧ entry.value.isNil then table.count + 1
                    else table.count,
                  entries := table.entries.set i { key := key, value := value } } with
            | none => .stuck
            | some vm2 => .ok (vm2, decide (entry.key = 0))

/-- The loop of `tableAddAll` from slot `i` of the table `src`, with `n` slots
to go; the slot is read in the state that the insertions so far have left. -/
def tableAddAllLoop (sz : Sizes) (stress : Bool) (fuel : Nat) (src dst : TableRef) :
    Nat → Nat → VM → Outcome VM
  | 0, _, vm => .ok vm
  | n + 1, i, vm =>
    match getTable vm src with
    | none => .stuck
    | some table =>
      match table.entries[i]? with
      | none => .stuck
      | some entry =>
        if entry.key ≠ 0 then
          match tableSet sz stress fuel vm dst entry.key entry.value with
          | .stuck => .stuck
          | .outOfMemory => .outOfMemory
          | .ok (vm1, _) => tableAddAllLoop sz stress fuel src dst n (i + 1) vm1
        else tableAddAllLoop sz stress fuel src dst n (i + 1) vm

/-- The function `tableAddAll(from, to)`. -/
def tableAddAll (sz : Sizes) (stress : Bool) (fuel : Nat) (vm : VM) (src dst : TableRef) :
    Outcome VM :=
  match getTable vm src with
  | none => .stuck
  | some table => tableAddAllLoop sz stress fuel src dst table.entries.length 0 vm

/-- The function `freeTable`: the entry array is released and the table is
initialised again. -/
def freeTable (sz : Sizes) (stress : Bool) (fuel : Nat) (vm : VM) (ref : TableRef) : Outcome VM :=
  match getTable vm ref with
  | none => .stuck
  | some table =>
    match FREE_ARRAY sz stress fuel vm sz.entry 0 (table.capacityMask + 1).toNat with
    | .stuck => .stuck
    | .outOfMemory => .outOfMemory
    | .ok (vm1, _) =>
      match setTable vm1 ref initTable with
      | none => .stuck
      | some vm2 => .ok vm2

/-- The probe loop of `tableFindString`: the key found, or `NULL`. -/
def tableFindStringLoop (m : Mem) (entries : List Entry) (mask : Nat) (chars : List Nat)
    (hash : Nat) : Nat → Nat → Option Nat
  | 0, _ => none
  | fuel + 1, index =>
    match entries[index]? with
    | none => none
    | some entry =>
      if entry.key = 0 then
        if entry.value.isNil then some 0
        else tableFindStringLoop m entries mask chars hash fuel
          (((index + 1) % 4294967296) &&& mask)
      else
        match m.read entry.key with
        | some { forwardingAddress := _, body := .string keyHash keyChars } =>
          if keyChars.length = chars.length ∧ keyHash = hash ∧ keyChars = chars then
            some entry.key
          else tableFindStringLoop m entries mask chars hash fuel
            (((index + 1) % 4294967296) &&& mask)
        | _ => none

/-- The function `tableFindString`; `length` is the length of `chars`. -/
def tableFindString (m : Mem) (table : Table) (chars : List Nat) (hash : Nat) : Option Nat :=
  if table.count = 0 then some 0
  else
    tableFindStringLoop m table.entries (maskU32 table.capacityMask) chars hash
      (table.entries.length + 1) (hash &&& maskU32 table.capacityMask)

/-! ## Objects and strings (`object.c`) -/

/-- The body of an object whose fields the constructor has not written yet. -/
def ObjBody.blank : ObjType → ObjBody
  | .OBJ_BOUND_METHOD => .boundMethod .nil 0
  | .OBJ_CLASS => .klass 0 initTable
  | .OBJ_CLOSURE => .closure 0 []
  | .OBJ_FUNCTION => .function 0 0 0 []
  | .OBJ_INSTANCE => .inst 0 initTable
  | .OBJ_NATIVE => .native 0
  | .OBJ_STRING => .string 0 []
  | .OBJ_UPVALUE => .upvalue 0 .nil 0

/-- The function `allocateObject`: a block from `reallocate`, with the header
written (`type`, and a null `forwardingAddress`). -/
def allocateObject (sz : Sizes) (stress : Bool) (fuel : Nat) (vm : VM) (size : Nat)
    (type : ObjType) : Outcome (VM × Nat) :=
  match reallocate sz stress fuel vm 0 0 size with
  | .stuck => .stuck
  | .outOfMemory => .outOfMemory
  | .ok (vm1, object) =>
    if object = 0 then .stuck
    else
      .ok ({ vm1 with
              mem := vm1.mem.write object { forwardingAddress := 0, body := .blank type } },
           object)

/-- The stores of a constructor into the fields of the object it allocated. -/
def setBody (vm : VM) (object : Nat) (body : ObjBody) : Outcome (VM × Nat) :=
  match vm.mem.read object with
  | none => .stuck
  | some o => .ok ({ vm with mem := vm.mem.write object { o with body := body } }, object)

/-- The function `newBoundMethod`. -/
def newBoundMethod (sz : Sizes) (stress : Bool) (fuel : Nat) (vm : VM) (receiver : Value)
    (method : Nat) : Outcome (VM × Nat) :=
  match allocateObject sz stress fuel vm sz.objBoundMethod .OBJ_BOUND_METHOD with
  | .stuck => .stuck
  | .outOfMemory => .outOfMemory
  | .ok (vm1, bound) => setBody vm1 bound (.boundMethod receiver method)

/-- The function `newClass`. -/
def newClass (sz : Sizes) (stress : Bool) (fuel : Nat) (vm : VM) (name : Nat) :
    Outcome (VM × Nat) :=
  match allocateObject sz stress fuel vm sz.objClass .OBJ_CLASS with
  | .stuck => .stuck
  | .outOfMemory => .outOfMemory
  | .ok (vm1, klass) => setBody vm1 klass (.klass name initTable)

/-- The function `newClosure`: `function->upvalueCount` is read for the size
before the allocation and for the field and the loop after it. -/
def newClosure (sz : Sizes) (stress : Bool) (fuel : Nat) (vm : VM) (function : Nat) :
    Outcome (VM × Nat) :=
  match vm.mem.read function with
  | some { forwardingAddress := _, body := .function _ upvalueCount _ _ } =>
    match allocateObject sz stress fuel vm (sz.objClosure + sz.upvaluePtr * upvalueCount)
        .OBJ_CLOSURE with
    | .stuck => .stuck
    | .outOfMemory => .outOfMemory
    | .ok (vm1, closure) =>
      match vm1.mem.read function with
      | some { forwardingAddress := _, body := .function _ upvalueCount1 _ _ } =>
        setBody vm1 closure (.closure function (List.replicate upvalueCount1 0))
      | _ => .stuck
  | _ => .stuck

/-- The function `newFunction`; `initChunk` leaves an empty constant array. -/
def newFunction (sz : Sizes) (stress : Bool) (fuel : Nat) (vm : VM) : Outcome (VM × Nat) :=
  match allocateObject sz stress fuel vm sz.objFunction .OBJ_FUNCTION with
  | .stuck => .stuck
  | .outOfMemory => .outOfMemory
  | .ok (vm1, function) => setBody vm1 function (.function 0 0 0 [])

/-- The function `newInstance`. -/
def newInstance (sz : Sizes) (stress : Bool) (fuel : Nat) (vm : VM) (klass : Nat) :
    Outcome (VM × Nat) :=
  match allocateObject sz stress fuel vm sz.objInstance .OBJ_INSTANCE with
  | .stuck => .stuck
  | .outOfMemory => .outOfMemory
  | .ok (vm1, inst) => setBody vm1 inst (.inst klass initTable)

/-- The function `newNative`. -/
def newNative (sz : Sizes) (stress : Bool) (fuel : Nat) (vm : VM) (function : Nat) :
    Outcome (VM × Nat) :=
  match allocateObject sz stress fuel vm sz.objNative .OBJ_NATIVE with
  | .stuck => .stuck
  | .outOfMemory => .outOfMemory
  | .ok (vm1, native) => setBody vm1 native (.native function)

/-- The function `newUpvalue`. -/
def newUpvalue (sz : Sizes) (stress : Bool) (fuel : Nat) (vm : VM) (slot : Nat) :
    Outcome (VM × Nat) :=
  match allocateObject sz stress fuel vm sz.objUpvalue .OBJ_UPVALUE with
  | .stuck => .stuck
  | .outOfMemory => .outOfMemory
  | .ok (vm1, upvalue) => setBody vm1 upvalue (.upvalue slot .nil 0)

/-- The function `hashString`: FNV-1a on 32 bits, over the `length` bytes of
`key`. -/
def hashString (key : List Nat) : Nat :=
  key.foldl (fun hash c => ((hash ^^^ (c % 256)) * 16777619) % 4294967296) 2166136261

/-- Modelled from the spec: `push` is part of `vm.c`, outside `src/`; it
stores a value in the slot at `stackTop` and advances `stackTop`. -/
def push (vm : VM) (value : Value) : VM := { vm with stack := vm.stack ++ [value] }

/-- Modelled from the spec: `pop` is part of `vm.c`, outside `src/`; it takes
`stackTop` one slot back. -/
def pop (vm : VM) : VM := { vm with stack := vm.stack.dropLast }

/-- The function `allocateString`; `length` is the length of `chars`. -/
def allocateString (sz : Sizes) (stress : Bool) (fuel : Nat) (vm : VM) (chars : List Nat)
    (hash : Nat) : Outcome (VM × Nat) :=
  match tableFindString vm.mem vm.strings chars hash with
  | none => .stuck
  | some interned =>
    if interned ≠ 0 then .ok (vm, interned)
    else
      match allocateObject sz stress fuel vm (sz.objString + chars.length + 1) .OBJ_STRING with
      | .stuck => .stuck
      | .outOfMemory => .outOfMemory
      | .ok (vm1, string) =>
        match setBody vm1 string (.string hash chars) with
        | .stuck => .stuck
        | .outOfMemory => .outOfMemory
        | .ok (vm2, _) =>
          match tableSet sz stress fuel (push vm2 (.obj string)) .strings string .nil with
          | .stuck => .stuck
          | .outOfMemory => .outOfMemory
          | .ok (vm3, _) => .ok (pop vm3, string)

/-- The function `copyString`. -/
def copyString (sz : Sizes) (stress : Bool) (fuel : Nat) (vm : VM) (chars : List Nat) :
    Outcome (VM × Nat) :=
  allocateString sz stress fuel vm chars (hashString chars)

/-- The function `takeString`; `buffer` is the address of the caller's array
of `length + 1` characters, which is released after the copy. -/
def takeString (sz : Sizes) (stress : Bool) (fuel : Nat) (vm : VM) (buffer : Nat)
    (chars : List Nat) : Outcome (VM × Nat) :=
  match allocateString sz stress fuel vm chars (hashString chars) with
  | .stuck => .stuck
  | .outOfMemory => .outOfMemory
  | .ok (vm1, result) =>
    match FREE_ARRAY sz stress fuel vm1 1 buffer (chars.length + 1) with
    | .stuck => .stuck
    | .outOfMemory => .outOfMemory
    | .ok (vm2, _) => .ok (vm2, result)

/-! ## Pointer sums at the width of a pointer (`memory.c`) -/

/-- The sum `(char *)p + n` of a pointer and a `size_t`, at the width of a
pointer: the machine keeps the low 64 bits. -/
def Raw.ptrAdd (p n : Nat) : Nat := (p + n) % sizeT

/-- The function `reallocate` with the two pointer sums of the source taken at
the width of a pointer: the test `(char *)vm.next + newSize >
(char *)vm.heap + vm.heapCapacity` and the bump `vm.next = (char *)vm.next +
newSize`.  Everything else is as in `reallocate`. -/
def Raw.reallocate (sz : Sizes) (stress : Bool) (fuel : Nat) (vm : VM)
    (pointer oldSize newSize : Nat) : Outcome (VM × Nat) :=
  match (if newSize > oldSize
      then reallocateCollect sz stress fuel
        { vm with bytesAllocated := accountBytes vm.bytesAllocated oldSize newSize }
      else some { vm with bytesAllocated := accountBytes vm.bytesAllocated oldSize newSize }) with
  | none => .stuck
  | some vm1 =>
    if newSize = 0 then .ok (vm1, 0)
    else if Raw.ptrAdd vm1.next newSize > Raw.ptrAdd vm1.heap vm1.heapCapacity then .outOfMemory
    else
      .ok ({ vm1 with
              next := Raw.ptrAdd vm1.next newSize,
              mem := if pointer ≠ 0 then vm1.mem.clear vm1.next (vm1.next + oldSize)
                else vm1.mem },
           vm1.next)

/-! ## The interior pointers of strings and closures (`object.c`, `memory.c`) -/

/-- The arena with the interior pointers.  `mem` holds the block of each
object: the struct and the array that trails it (the characters of a String,
the upvalue array of a Closure).  `interior` holds, by the address of the
object, the field that points at that array: `chars` of an `ObjString`,
`upvalues` of an `ObjClosure`. -/
structure Raw.Heap where
  mem : Mem
  interior : Nat → Nat

/-- The call `memmove(to, from, size)` on the block of the object at `from`.
The block arrives at `to` as `memmove` of the memory has it; the struct is
copied byte for byte, so the interior pointer of the object at `to` is the
one that the object at `from` holds. -/
def Raw.memmove (sz : Sizes) (h : Raw.Heap) (dest frm size : Nat) : Raw.Heap :=
  { mem := Bolt.memmove sz h.mem dest frm size,
    interior := fun a => if a = dest then h.interior frm else h.interior a }

/-- The loop of `compactHeap` on the arena with the interior pointers.  The
statement `((Obj *)to)->forwardingAddress = NULL` writes the header only. -/
def Raw.compactHeapLoop (sz : Sizes) : Nat → Nat → Raw.Heap → Nat → Option Raw.Heap
  | 0, _, _, _ => none
  | fuel + 1, next, h, frm =>
    if frm < next then
      match h.mem.read frm with
      | none => none
      | some o =>
        if o.forwardingAddress ≠ 0 then
          match (if o.forwardingAddress ≠ frm
              then Raw.memmove sz h o.forwardingAddress frm (sizeOfObject sz o)
              else h).mem.read o.forwardingAddress with
          | none => none
          | some moved =>
            Raw.compactHeapLoop sz fuel next
              { mem := (if o.forwardingAddress ≠ frm
                    then Raw.memmove sz h o.forwardingAddress frm (sizeOfObject sz o)
                    else h).mem.write o.forwardingAddress { moved with forwardingAddress := 0 },
                interior := (if o.forwardingAddress ≠ frm
                    then Raw.memmove sz h o.forwardingAddress frm (sizeOfObject sz o)
                    else h).interior }
              (frm + sizeOfObject sz o)
        else Raw.compactHeapLoop sz fuel next h (frm + sizeOfObject sz o)
    else some h

/-- The function `compactHeap` on the arena with the interior pointers: the
state and the interior pointers after the slide. -/
def Raw.compactHeap (sz : Sizes) (vm : VM) (interior : Nat → Nat) : Option (VM × (Nat → Nat)) :=
  match Raw.compactHeapLoop sz (walkFuel vm) vm.next { mem := vm.mem, interior := interior }
      vm.heap with
  | none => none
  | some h => some ({ vm with mem := h.mem }, h.interior)

/-- The part of `collectGarbage` that follows the mark loop, on the arena with
the interior pointers.  `tableRemoveWhite`, `calculateNewLocations` and
`updatePointers` assign neither `chars` nor `upvalues`. -/
def Raw.collectAfterMark (sz : Sizes) (fuel : Nat) (vm : VM) (interior : Nat → Nat) :
    Option (VM × (Nat → Nat)) :=
  match tableRemoveWhite vm.mem vm.strings with
  | none => none
  | some strings1 =>
    match calculateNewLocations sz { vm with strings := strings1 } with
    | none => none
    | some (vm1, liveSize) =>
      match updatePointers sz fuel vm1 with
      | none => none
      | some vm2 =>
        match Raw.compactHeap sz vm2 interior with
        | none => none
        | some (vm3, interior3) =>
          some ({ vm3 with
              next := vm3.heap + liveSize,
              bytesAllocated := liveSize,
              nextGC := (liveSize * 2) % 18446744073709551616 },
            interior3)

/-- The object at `a` is marked and not traced: its forwarding slot points at
itself. -/
def SelfMarked (m : Mem) (a : Nat) : Prop :=
  ∃ o, m.read a = some o ∧ o.forwardingAddress = a

/-- A property of the memory that no call of `markObject` destroys. -/
def MarkStable (P : Mem → Prop) : Prop :=
  ∀ m q m1, markObject m q = some m1 → P m → P m1

/-- A heap of one String `"a"`, which the value stack refers to. -/
def rootedStringVM : VM :=
  { initVM 4096 1048576 1048576 with
    next := 4138, bytesAllocated := 42, stack := [.obj 4096],
    mem := Mem.empty.write 4096 { forwardingAddress := 0, body := .string (hashString [97]) [97] } }

/-- The memory that holds the listed objects at the listed addresses. -/
def Mem.ofList (cells : List (Nat × Obj)) : Mem :=
  cells.foldl (fun m c => m.write c.1 c.2) Mem.empty

/-- The forwarding address of the object that `p` refers to, and `NULL` for
`NULL`: what a rewritten pointer has to hold. -/
def forwardPtr (m : Mem) (p : Nat) : Nat :=
  if p = 0 then 0
  else
    match m.read p with
    | some o => o.forwardingAddress
    | none => 0

/-- A value with its object pointer forwarded; other values are unchanged. -/
def forwardValue (m : Mem) : Value → Value
  | .obj p => .obj (forwardPtr m p)
  | .nil => .nil
  | .bool b => .bool b
  | .number n => .number n

/-- A slot of a table with its key and its value forwarded. -/
def forwardEntry (m : Mem) (e : Entry) : Entry :=
  { key := forwardPtr m e.key, value := forwardValue m e.value }

/-- An object-typed value refers to an object of the memory. -/
def validValue (m : Mem) : Value → Bool
  | .obj p => (m.read p).isSome
  | _ => true

/-- A pointer is null or refers to an object of the memory. -/
def validPtr (m : Mem) (p : Nat) : Bool := p = 0 || (m.read p).isSome

/-- A slot of a table is empty or a tombstone (null key, value not an object),
or its key and its value refer to objects of the memory. -/
def validEntry (m : Mem) (e : Entry) : Bool :=
  if e.key = 0 then
    match e.value with
    | .obj _ => false
    | _ => true
  else (m.read e.key).isSome && validValue m e.value

/-- A marked heap, as the mark phase leaves it: a dead String `"aa"` at 4096,
then a live Function at 4139 whose constant array holds the string `"b"`, the
live String `"b"` at 4219, and a live closed Upvalue at 4261 whose closed
value is the string `"b"`.  The stack refers to the function and the
upvalue. -/
def constantsVM : VM :=
  { initVM 4096 1048576 1048576 with
    next := 4317, bytesAllocated := 221, stack := [.obj 4139, .obj 4261],
    mem := Mem.ofList
      [(4096, { forwardingAddress := 0, body := .string (hashString [97, 97]) [97, 97] }),
       (4139, { forwardingAddress := 4139, body := .function 0 0 0 [.obj 4219] }),
       (4219, { forwardingAddress := 4219, body := .string (hashString [98]) [98] }),
       (4261, { forwardingAddress := 4261, body := .upvalue 0 (.obj 4219) 0 })] }

/-- A marked heap, as the mark loop leaves it, with an interned live string: a
dead String `"a"` at 4096 and a live String `"b"` at 4138 that the stack
refers to; both are keys of the intern set `vm.strings` (8 slots, `"a"` in
slot 4 and `"b"` in slot 5, where their hashes send them). -/
def internedVM : VM :=
  { initVM 4096 1048576 1048576 with
    next := 4180, bytesAllocated := 84, stack := [.obj 4138],
    strings :=
      { count := 2,
        entries :=
          [⟨0, .nil⟩, ⟨0, .nil⟩, ⟨0, .nil⟩, ⟨0, .nil⟩, ⟨4096, .nil⟩, ⟨4138, .nil⟩, ⟨0, .nil⟩,
           ⟨0, .nil⟩] },
    mem := Mem.ofList
      [(4096, { forwardingAddress := 0, body := .string (hashString [97]) [97] }),
       (4138, { forwardingAddress := 4138, body := .string (hashString [98]) [98] })] }

/-- A marked heap, as the mark phase leaves it, with one open upvalue: a dead
Upvalue at 4096 and a live Upvalue at 4152, which is the head (and only node)
of the list `vm.openUpvalues`. -/
def openUpvalueVM : VM :=
  { initVM 4096 1048576 1048576 with
    next := 4208, bytesAllocated := 112, openUpvalues := 4152,
    mem := Mem.ofList
      [(4096, { forwardingAddress := 0, body := .upvalue 8 .nil 0 }),
       (4152, { forwardingAddress := 4152, body := .upvalue 16 .nil 0 })] }

/-- A heap with the forwarding addresses assigned and roots of every kind but
open upvalues: a dead String `"a"` at 4096, a live Function at 4138, a live
Closure of it at 4218, the live String `"init"` at 4258 and the live String
`"g"` at 4303, which is the key of the global whose value is the closure. -/
def rootsVM : VM :=
  { initVM 4096 1048576 1048576 with
    next := 4345, bytesAllocated := 249,
    stack := [.nil, .obj 4218, .number 7, .bool true],
    frames := [4218],
    initString := 4258,
    globals :=
      { count := 1,
        entries :=
          [⟨0, .nil⟩, ⟨0, .nil⟩, ⟨0, .nil⟩, ⟨0, .nil⟩, ⟨0, .bool true⟩, ⟨0, .nil⟩,
           ⟨4303, .obj 4218⟩, ⟨0, .nil⟩] },
    mem := Mem.ofList
      [(4096, { forwardingAddress := 0, body := .string (hashString [97]) [97] }),
       (4138, { forwardingAddress := 4096, body := .function 0 0 0 [] }),
       (4218, { forwardingAddress := 4176, body := .closure 4138 [] }),
       (4258, { forwardingAddress := 4216,
                body := .string (hashString [105, 110, 105, 116]) [105, 110, 105, 116] }),
       (4303, { forwardingAddress := 4261, body := .string (hashString [103]) [103] })] }

/-- The walk that every phase of the collector makes over the heap,
`while (from < vm.next) from += sizeOfObject(from)`: the address at which it
ends, if it finds an object at every step. -/
def heapWalkEnd (sz : Sizes) : Nat → Nat → Mem → Nat → Option Nat
  | 0, _, _, _ => none
  | fuel + 1, next, m, frm =>
    if frm < next then
      match m.read frm with
      | none => none
      | some o => heapWalkEnd sz fuel next m (frm + sizeOfObject sz o)
    else some frm

/-- The objects that a walk of the heap steps over, in address order:
`while (from < next) from += sizeOfObject(from)`. -/
def heapObjects (sz : Sizes) : Nat → Nat → Mem → Nat → Option (List Obj)
  | 0, _, _, _ => none
  | fuel + 1, next, m, frm =>
    if frm < next then
      match m.read frm with
      | none => none
      | some o =>
        match heapObjects sz fuel next m (frm + sizeOfObject sz o) with
        | none => none
        | some os => some (o :: os)
    else some []

/-- The sum of `sizeOfObject` over a list of objects. -/
def sizeSum (sz : Sizes) : List Obj → Nat
  | [] => 0
  | o :: rest => sizeOfObject sz o + sizeSum sz rest

/-- The sum of `sizeOfObject` over the marked objects of a list, those with a
forwarding address that is not null. -/
def liveSizeSum (sz : Sizes) : List Obj → Nat
  | [] => 0
  | o :: rest =>
    if o.forwardingAddress ≠ 0 then sizeOfObject sz o + liveSizeSum sz rest
    else liveSizeSum sz rest

/-- The forwarding address and the size of an object: what the walks of the
collector read of an object they step over. -/
def Obj.hdr (sz : Sizes) (o : Obj) : Nat × Nat := (o.forwardingAddress, sizeOfObject sz o)

/-- The forwarding addresses of the objects of a list are those that an
address computation starting at `dest` assigns, and it ends at `stop`: a dead
object has a null forwarding address, a live one has the sum of `dest` and of
the sizes of the live objects before it. -/
def AssignedTo (sz : Sizes) : Nat → List Obj → Nat → Prop
  | dest, [], stop => stop = dest
  | dest, o :: rest, stop =>
    (o.forwardingAddress = 0 ∧ AssignedTo sz dest rest stop) ∨
    (o.forwardingAddress ≠ 0 ∧ o.forwardingAddress = dest ∧
      AssignedTo sz (dest + sizeOfObject sz o) rest stop)

/-- The objects of a list lie one after the other in memory from address `a`. -/
def WalkFrom (sz : Sizes) (m : Mem) : Nat → List Obj → Prop
  | _, [] => True
  | a, o :: rest => m.read a = some o ∧ WalkFrom sz m (a + sizeOfObject sz o) rest

/-- The heap of a state is walkable and clean: the walk from `heap` steps
over objects only, lands on `next`, and every object it steps over has a null
forwarding address. -/
def HeapClean (sz : Sizes) (vm : VM) : Prop :=
  ∃ os, heapObjects sz (walkFuel vm) vm.next vm.mem vm.heap = some os ∧
    vm.heap + sizeSum sz os = vm.next ∧ ∀ o ∈ os, o.forwardingAddress = 0

/-- The object at `p` has a null forwarding address. -/
def FreshAt (vm : VM) (p : Nat) : Prop :=
  ∃ o, vm.mem.read p = some o ∧ o.forwardingAddress = 0

/-- The walk of `[frm, next)` steps on the object at address `a`. -/
inductive Reaches (sz : Sizes) (m : Mem) (next : Nat) : Nat → Nat → Prop
  | here (a : Nat) : a < next → Reaches sz m next a a
  | step (frm a : Nat) (o : Obj) : frm < next → m.read frm = some o →
      Reaches sz m next (frm + sizeOfObject sz o) a → Reaches sz m next frm a

/-- A heap that no root refers to, before a collection: the Strings `"a"` at
4096 and `"b"` at 4138, with null forwarding addresses, both keys of the
intern set `vm.strings`. -/
def unrootedVM : VM :=
  { initVM 4096 1048576 1048576 with
    next := 4180, bytesAllocated := 84,
    strings :=
      { count := 2,
        entries :=
          [⟨0, .nil⟩, ⟨0, .nil⟩, ⟨0, .nil⟩, ⟨0, .nil⟩, ⟨4096, .nil⟩, ⟨4138, .nil⟩, ⟨0, .nil⟩,
           ⟨0, .nil⟩] },
    mem := Mem.ofList
      [(4096, { forwardingAddress := 0, body := .string (hashString [97]) [97] }),
       (4138, { forwardingAddress := 0, body := .string (hashString [98]) [98] })] }

/-- The hash stored in the string that a key points to (`key->hash`). -/
def hashAt (m : Mem) (key : Nat) : Option Nat :=
  match m.read key with
  | some { forwardingAddress := _, body := .string hash _ } => some hash
  | _ => none

/-- A slot is empty: a null key with a nil value. -/
def Entry.isEmpty (e : Entry) : Bool := decide (e.key = 0) && e.value.isNil

/-- The slot that a linear probe reaches `d` steps after slot `s`, in an array
of `n` slots. -/
def probe (n s d : Nat) : Nat := (s + d) % n

/-- The value that a table maps a key to: the value of the slot that holds
the key. -/
def Table.lookup (t : Table) (key : Nat) : Option Value :=
  match t.entries.find? (fun e => decide (e.key = key)) with
  | some e => some e.value
  | none => none

/-- A well-formed table, for keys whose stored hash is given by `H`: the
capacity is zero or a power of two from 8 to 2^30 (it is an `int`), `count` is
the number of slots that are not empty (live entries and tombstones), the load
is at most 0.75, no key is in two slots, and every key is found by the probe
that starts at its hash, before any empty slot. -/
structure TableWF (H : Nat → Option Nat) (t : Table) : Prop where
  cap : t.entries.length = 0 ∨ ∃ k, 3 ≤ k ∧ k ≤ 30 ∧ t.entries.length = 2 ^ k
  count_eq : t.count = ((t.entries.countP (fun e => !e.isEmpty) : Nat) : Int)
  load : 4 * t.count ≤ 3 * (t.entries.length : Int)
  distinct : ∀ (i j : Nat) (ei ej : Entry), t.entries[i]? = some ei → t.entries[j]? = some ej →
    ei.key ≠ 0 → ei.key = ej.key → i = j
  reach : ∀ (i : Nat) (e : Entry), t.entries[i]? = some e → e.key ≠ 0 →
    ∃ h d, H e.key = some h ∧ d < t.entries.length ∧
      i = probe t.entries.length (h % t.entries.length) d ∧
      ∀ d1, d1 < d →
        ∃ e1, t.entries[probe t.entries.length (h % t.entries.length) d1]? = some e1 ∧
          e1.isEmpty = false

/-- The statements of `tableSet` that follow the growth, on a table held by
value: find the slot of the key and store the entry.  The table after the
store and the result `isNewKey`. -/
def tableInsert (m : Mem) (table : Table) (key : Nat) (value : Value) : Option (Table × Bool) :=
  match findEntry m table.entries table.capacityMask key with
  | none => none
  | some i =>
    match table.entries[i]? with
    | none => none
    | some entry =>
      some ({ count := if entry.key = 0 ∧ entry.value.isNil then table.count + 1
                else table.count,
              entries := table.entries.set i { key := key, value := value } },
        decide (entry.key = 0))

/-- The table that `adjustCapacity` builds for `GROW_CAPACITY` of the current
capacity, on a table held by value: the loop `rehash` inserts the live entries
into an array of empty slots. -/
def tableGrow (m : Mem) (table : Table) : Option Table :=
  match rehash m (GROW_CAPACITY (table.capacityMask + 1)) table.entries
      (List.replicate (GROW_CAPACITY (table.capacityMask + 1)).toNat { key := 0, value := .nil })
      0 with
  | none => none
  | some (entries, count) => some { count := count, entries := entries }

/-- What `tableSet` does to a table held by value, apart from the allocation
of the new array: grow when `count + 1` exceeds 0.75 of the capacity, then
insert.  The theorem `tableSet_forward` shows that a call of `tableSet` that
runs no collection leaves this table. -/
def tableSetCore (m : Mem) (table : Table) (key : Nat) (value : Value) :
    Option (Table × Bool) :=
  if 4 * (table.count + 1) > 3 * (table.capacityMask + 1) then
    match tableGrow m table with
    | none => none
    | some table1 => tableInsert m table1 key value
  else tableInsert m table key value

/-- A table without tombstone: every slot with a null key is empty. -/
def NoTombstone (E : List Entry) : Prop := ∀ e, e ∈ E → e.key = 0 → e.isEmpty = true

/-- The number of slots of an array that hold a key. -/
def liveCount (E : List Entry) : Nat := E.countP (fun e => !decide (e.key = 0))

/-- The object that holds the table lies below the address `n`; the tables of
the machine itself are not in the arena. -/
def TableRef.Below : TableRef → Nat → Prop
  | .globals, _ => True
  | .strings, _ => True
  | .methods klass, n => klass < n
  | .fields inst, n => inst < n

/-- Every key of the table lies below the address `n`. -/
def KeysBelow (t : Table) (n : Nat) : Prop := ∀ e, e ∈ t.entries → e.key ≠ 0 → e.key < n

/-- The arena cannot hold an array of 2^31 entries, so that the capacity of a
table that has been allocated fits the `int` that `tableSet` computes it in. -/
def ArenaSmall (sz : Sizes) (vm : VM) : Prop :=
  vm.heap + vm.heapCapacity < sz.entry * 2147483648

/-- The allocation of an array of `capacity` entries runs no collection and
finds room in the arena. -/
def GrowRuns (sz : Sizes) (stress : Bool) (vm : VM) (capacity : Int) : Prop :=
  triggersCollection stress vm 0 (sz.entry * capacity.toNat) = false ∧
    vm.next + sz.entry * capacity.toNat ≤ vm.heap + vm.heapCapacity ∧ 0 < vm.next

/-- A call of `tableSet` on the table runs no collection and finds room in
the arena: it does not grow the table, or the allocation of the new array
does so. -/
def SetRuns (sz : Sizes) (stress : Bool) (vm : VM) (t : Table) : Prop :=
  4 * (t.count + 1) > 3 * (t.capacityMask + 1) →
    GrowRuns sz stress vm (GROW_CAPACITY (t.capacityMask + 1))

/-- What a call of `tableSet` leaves alone: the bounds of the arena and the
hash of every string below the old `next`, which does not go down. -/
structure SetFrame (vm vm1 : VM) : Prop where
  heap : vm1.heap = vm.heap
  heapCapacity : vm1.heapCapacity = vm.heapCapacity
  next_le : vm.next ≤ vm1.next
  hash : ∀ a, a < vm.next → hashAt vm1.mem a = hashAt vm.mem a

/-- The probe for the key, which the table does not hold, stops on a
tombstone: `findEntry` returns a slot with a null key and a value that is not
nil. -/
def TombFirst (m : Mem) (t : Table) (key : Nat) : Prop :=
  ∃ (r : Nat) (e : Entry), findEntry m t.entries t.capacityMask key = some r ∧
    t.entries[r]? = some e ∧ e.key = 0 ∧ e.value.isNil = false

/-- A caller that runs `tableSet(table, key, value); tableDelete(table, key);`
on a table of the machine. -/
def setDelete (sz : Sizes) (stress : Bool) (fuel : Nat) (vm : VM) (ref : TableRef) (key : Nat)
    (value : Value) : Outcome VM :=
  match tableSet sz stress fuel vm ref key value with
  | .stuck => .stuck
  | .outOfMemory => .outOfMemory
  | .ok (vm1, _) =>
    match getTable vm1 ref with
    | none => .stuck
    | some table =>
      match tableDelete vm1.mem table key with
      | none => .stuck
      | some (table1, _) =>
        match setTable vm1 ref table1 with
        | none => .stuck
        | some vm2 => .ok vm2

/-- A caller that repeats `tableSet(table, key, value); tableDelete(table, key);`
`n` times. -/
def setDeleteTimes (sz : Sizes) (stress : Bool) (fuel : Nat) (ref : TableRef) (key : Nat)
    (value : Value) : Nat → VM → Outcome VM
  | 0, vm => .ok vm
  | n + 1, vm =>
    match setDelete sz stress fuel vm ref key value with
    | .stuck => .stuck
    | .outOfMemory => .outOfMemory
    | .ok vm1 => setDeleteTimes sz stress fuel ref key value n vm1

/-- What the repetitions of `tableSet` and `tableDelete` of an absent key keep
true of the state `vm1` and its table `t1`, with respect to the state `vm` and
the table `t` they started from: the table is well formed and maps every key
to what `t` did; and either nothing has been allocated yet, or the probe for
the key stops on a tombstone and the table has room for a further entry. -/
structure SetDeleteInv (ref : TableRef) (key : Nat) (vm : VM) (t : Table) (vm1 : VM)
    (t1 : Table) : Prop where
  get : getTable vm1 ref = some t1
  wf : TableWF (hashAt vm1.mem) t1
  keys : KeysBelow t1 vm.next
  frame : SetFrame vm vm1
  look : ∀ k, k ≠ 0 → t1.lookup k = t.lookup k
  len : t.entries.length ≤ t1.entries.length
  phase : (vm1.next = vm.next ∧ vm1.bytesAllocated = vm.bytesAllocated ∧
      vm1.nextGC = vm.nextGC ∧ t1.entries.length = t.entries.length) ∨
    (TombFirst vm1.mem t1 key ∧ 4 * (t1.count + 1) ≤ 3 * (t1.entries.length : Int))

/-- The hash and the characters stored in the string that a key points to
(`key->hash`, and `key->chars` over `key->length`). -/
def stringAt (m : Mem) (key : Nat) : Option (Nat × List Nat) :=
  match m.read key with
  | some { forwardingAddress := _, body := .string hash chars } => some (hash, chars)
  | _ => none

/-- The object that a key points to is marked: its forwarding address is not
null. -/
def Marked (m : Mem) (key : Nat) : Prop :=
  ∃ o, m.read key = some o ∧ o.forwardingAddress ≠ 0

/-- The number of tombstones of an array: slots with a null key and a value
that is not nil. -/
def tombstoneCount (E : List Entry) : Nat :=
  E.countP (fun e => decide (e.key = 0) && !e.value.isNil)

/-- The keys of the table `src` are strings below `next`. -/
def ValidKeys (vm : VM) (src : Table) : Prop :=
  ∀ e, e ∈ src.entries → e.key ≠ 0 → e.key < vm.next ∧ ∃ h, hashAt vm.mem e.key = some h

/-- The states that calls of `tableSet`, `tableDelete`, `tableAddAll` (with the
table as destination) and `tableRemoveWhite` on the table `ref` lead to from
the state `vm0`.  The keys are strings of the heap; no call runs a collection
or runs out of memory (the calls that allocate return with no fuel for the
collector).  Between the calls the rest of the machine may run (`other`), as
long as it leaves the table, the bounds of the arena and the strings below
`next` alone: allocations and calls on other tables do. -/
inductive TableRun (sz : Sizes) (stress : Bool) (ref : TableRef) (vm0 : VM) : VM → Prop
  | start : TableRun sz stress ref vm0 vm0
  | set (vm vm1 : VM) (key h : Nat) (value : Value) (b : Bool) :
      TableRun sz stress ref vm0 vm → hashAt vm.mem key = some h → key < vm.next →
      tableSet sz stress 0 vm ref key value = .ok (vm1, b) → TableRun sz stress ref vm0 vm1
  | delete (vm vm1 : VM) (t t1 : Table) (key h : Nat) (b : Bool) :
      TableRun sz stress ref vm0 vm → hashAt vm.mem key = some h →
      getTable vm ref = some t → tableDelete vm.mem t key = some (t1, b) →
      setTable vm ref t1 = some vm1 → TableRun sz stress ref vm0 vm1
  | addAll (vm vm1 : VM) (src : TableRef) (ts : Table) :
      TableRun sz stress ref vm0 vm → src ≠ ref → src.Below vm.next →
      getTable vm src = some ts → ValidKeys vm ts →
      tableAddAll sz stress 0 vm src ref = .ok vm1 → TableRun sz stress ref vm0 vm1
  | removeWhite (vm vm1 : VM) (t t1 : Table) :
      TableRun sz stress ref vm0 vm → getTable vm ref = some t →
      tableRemoveWhite vm.mem t = some t1 → setTable vm ref t1 = some vm1 →
      TableRun sz stress ref vm0 vm1
  | other (vm vm1 : VM) :
      TableRun sz stress ref vm0 vm → getTable vm1 ref = getTable vm ref →
      SetFrame vm vm1 → TableRun sz stress ref vm0 vm1

/-- What the calls on a table keep true: the table is well formed, and its
keys and its holder lie below `next` in an arena that cannot hold 2^31
entries. -/
structure TableInv (sz : Sizes) (ref : TableRef) (vm : VM) (t : Table) : Prop where
  get : getTable vm ref = some t
  wf : TableWF (hashAt vm.mem) t
  keys : KeysBelow t vm.next
  below : ref.Below vm.next
  arena : ArenaSmall sz vm

/-- The objects that the slide leaves, in address order: the live objects of
the list, each with its forwarding address cleared. -/
def slidObjects : List Obj → List Obj
  | [] => []
  | o :: rest =>
    if o.forwardingAddress ≠ 0 then { o with forwardingAddress := 0 } :: slidObjects rest
    else slidObjects rest

/-- The address computation in the words of the specification, on the list of
the objects of a walk, from the cursor `dest` ("to"): "if the object is live
(forwarding is non-null), set its forwarding to the current to and advance to
by size"; a dead object is left alone. -/
def specAssignForwarding (sz : Sizes) : Nat → List Obj → List Obj
  | _, [] => []
  | dest, o :: rest =>
    if o.forwardingAddress ≠ 0 then
      { o with forwardingAddress := dest } ::
        specAssignForwarding sz (dest + sizeOfObject sz o) rest
    else o :: specAssignForwarding sz dest rest

instance (ref : TableRef) (n : Nat) : Decidable (ref.Below n) := by
  cases ref <;> unfold TableRef.Below <;> infer_instance

instance (t : Table) (n : Nat) : Decidable (KeysBelow t n) := by
  unfold KeysBelow; infer_instance

instance (sz : Sizes) (vm : VM) : Decidable (ArenaSmall sz vm) := by
  unfold ArenaSmall; infer_instance

instance (sz : Sizes) (stress : Bool) (vm : VM) (capacity : Int) :
    Decidable (GrowRuns sz stress vm capacity) := by
  unfold GrowRuns; infer_instance

instance (sz : Sizes) (stress : Bool) (vm : VM) (t : Table) :
    Decidable (SetRuns sz stress vm t) := by
  unfold SetRuns; infer_instance

/-- The intern set of `internedVM` before the string `"b"` was interned. -/
def internedFirst : Table :=
  { count := 1,
    entries :=
      [⟨0, .nil⟩, ⟨0, .nil⟩, ⟨0, .nil⟩, ⟨0, .nil⟩, ⟨4096, .nil⟩, ⟨0, .nil⟩, ⟨0, .nil⟩,
       ⟨0, .nil⟩] }

/-- A heap of two Strings whose hashes send them to the same slot of an 8-slot
table: `"a"` at 4096 and `"i"` at 4138. -/
def collidingMem : Mem :=
  Mem.ofList
    [(4096, { forwardingAddress := 0, body := .string (hashString [97]) [97] }),
     (4138, { forwardingAddress := 0, body := .string (hashString [105]) [105] })]

/-- The table that holds `"a"` and `"i"` of `collidingMem`: `"a"` in slot 4,
where both hashes point, and `"i"` in slot 5. -/
def collidingTable : Table :=
  { count := 2,
    entries :=
      [⟨0, .nil⟩, ⟨0, .nil⟩, ⟨0, .nil⟩, ⟨0, .nil⟩, ⟨4096, .number 1⟩, ⟨4138, .number 2⟩,
       ⟨0, .nil⟩, ⟨0, .nil⟩] }

/-- The table `collidingTable` after `"a"` has been deleted: a tombstone lies
in slot 4, on the probe path of `"i"`. -/
def tombstoneTable : Table :=
  { count := 2,
    entries :=
      [⟨0, .nil⟩, ⟨0, .nil⟩, ⟨0, .nil⟩, ⟨0, .nil⟩, ⟨0, .bool true⟩, ⟨4138, .number 2⟩,
       ⟨0, .nil⟩, ⟨0, .nil⟩] }

/-- Whether the forwarding addresses of a list of objects are those assigned
from `dest`, ending at `stop`. -/
def AssignedTo.dec (sz : Sizes) :
    (dest : Nat) → (os : List Obj) → (stop : Nat) → Decidable (AssignedTo sz dest os stop)
  | dest, [], stop => inferInstanceAs (Decidable (stop = dest))
  | dest, o :: rest, stop =>
    let _ := AssignedTo.dec sz dest rest stop
    let _ := AssignedTo.dec sz (dest + sizeOfObject sz o) rest stop
    inferInstanceAs (Decidable
      ((o.forwardingAddress = 0 ∧ AssignedTo sz dest rest stop) ∨
        (o.forwardingAddress ≠ 0 ∧ o.forwardingAddress = dest ∧
          AssignedTo sz (dest + sizeOfObject sz o) rest stop)))

instance (sz : Sizes) (dest : Nat) (os : List Obj) (stop : Nat) :
    Decidable (AssignedTo sz dest os stop) := AssignedTo.dec sz dest os stop

/-! # Properties -/

/-! ## Memory and marking -/

theorem Mem.read_write_same (m : Mem) (p : Nat) (o : Obj) (hp : p ≠ 0) :
    (m.write p o).read p = some o := by
  simp [Mem.read, Mem.write, hp]

theorem Mem.read_write_ne (m : Mem) (p a : Nat) (o : Obj) (h : a ≠ p) :
    (m.write p o).read a = m.read a := by
  simp [Mem.read, Mem.write, h]

theorem Mem.read_ne_zero {m : Mem} {p : Nat} {o : Obj} (h : m.read p = some o) : p ≠ 0 := by
  intro hp; simp [Mem.read, hp] at h

theorem markObject_selfMarked {m m1 : Mem} {q a : Nat} (h : markObject m q = some m1)
    (ha : SelfMarked m a) : SelfMarked m1 a := by
  unfold markObject at h
  split at h
  · cases h; exact ha
  · split at h
    · cases h
    · rename_i o ho
      split at h
      · cases h; exact ha
      · rename_i hfw
        cases h
        obtain ⟨oa, hoa, hfa⟩ := ha
        by_cases haq : a = q
        · exfalso
          rw [haq, ho] at hoa
          have h1 : oa = o := (Option.some.inj hoa).symm
          have h2 := Mem.read_ne_zero ho
          have h3 : o.forwardingAddress = 0 := by simpa using hfw
          rw [h1, h3] at hfa
          omega
        · exact ⟨oa, by rw [Mem.read_write_ne _ _ _ _ haq]; exact hoa, hfa⟩

theorem selfMarked_markStable (a : Nat) : MarkStable (fun m => SelfMarked m a) :=
  fun _ _ _ h ha => markObject_selfMarked h ha

theorem markValue_stable {P : Mem → Prop} (hP : MarkStable P) {m m1 : Mem} {v : Value}
    (h : markValue m v = some m1) (hm : P m) : P m1 := by
  cases v with
  | obj p => exact hP _ _ _ h hm
  | nil => simp [markValue] at h; exact h ▸ hm
  | bool b => simp [markValue] at h; exact h ▸ hm
  | number n => simp [markValue] at h; exact h ▸ hm

theorem markArray_stable {P : Mem → Prop} (hP : MarkStable P) {vs : List Value} :
    ∀ {m m1 : Mem}, markArray m vs = some m1 → P m → P m1 := by
  induction vs with
  | nil => intro m m1 h hm; simp [markArray] at h; exact h ▸ hm
  | cons v rest ih =>
    intro m m1 h hm
    simp only [markArray] at h
    split at h
    · cases h
    · rename_i m2 h2
      exact ih h (markValue_stable hP h2 hm)

theorem markObjects_stable {P : Mem → Prop} (hP : MarkStable P) {ps : List Nat} :
    ∀ {m m1 : Mem}, markObjects m ps = some m1 → P m → P m1 := by
  induction ps with
  | nil => intro m m1 h hm; simp [markObjects] at h; exact h ▸ hm
  | cons p rest ih =>
    intro m m1 h hm
    simp only [markObjects] at h
    split at h
    · cases h
    · rename_i m2 h2
      exact ih h (hP _ _ _ h2 hm)

theorem markEntries_stable {P : Mem → Prop} (hP : MarkStable P) {es : List Entry} :
    ∀ {m m1 : Mem}, markEntries m es = some m1 → P m → P m1 := by
  induction es with
  | nil => intro m m1 h hm; simp [markEntries] at h; exact h ▸ hm
  | cons e rest ih =>
    intro m m1 h hm
    simp only [markEntries] at h
    split at h
    · cases h
    · rename_i m2 h2
      split at h
      · cases h
      · rename_i m3 h3
        exact ih h (markValue_stable hP h3 (hP _ _ _ h2 hm))

theorem markTable_stable {P : Mem → Prop} (hP : MarkStable P) {m m1 : Mem} {t : Table}
    (h : markTable m t = some m1) (hm : P m) : P m1 :=
  markEntries_stable hP h hm

theorem traceObject_stable {P : Mem → Prop} (hP : MarkStable P) {m m1 : Mem} {p : Nat}
    (h : traceObject m p = some m1) (hm : P m) : P m1 := by
  unfold traceObject at h
  split at h
  · cases h
  · split at h
    · split at h
      · cases h
      · rename_i m2 h2
        exact hP _ _ _ h (markValue_stable hP h2 hm)
    · split at h
      · cases h
      · rename_i m2 h2
        exact markTable_stable hP h (hP _ _ _ h2 hm)
    · split at h
      · cases h
      · rename_i m2 h2
        exact markObjects_stable hP h (hP _ _ _ h2 hm)
    · split at h
      · cases h
      · rename_i m2 h2
        exact markArray_stable hP h (hP _ _ _ h2 hm)
    · split at h
      · cases h
      · rename_i m2 h2
        exact markTable_stable hP h (hP _ _ _ h2 hm)
    · exact markValue_stable hP h hm
    · cases h; exact hm
    · cases h; exact hm

theorem markOpenUpvalues_stable {P : Mem → Prop} (hP : MarkStable P) :
    ∀ (fuel : Nat) {m m1 : Mem} {p : Nat}, markOpenUpvalues fuel m p = some m1 → P m → P m1 := by
  intro fuel
  induction fuel with
  | zero => intro m m1 p h; simp [markOpenUpvalues] at h
  | succ n ih =>
    intro m m1 p h hm
    simp only [markOpenUpvalues] at h
    split at h
    · cases h; exact hm
    · split at h
      · cases h
      · rename_i m2 h2
        split at h
        · exact ih h (hP _ _ _ h2 hm)
        · cases h

theorem markRoots_stable {P : Mem → Prop} (hP : MarkStable P) {fuel : Nat} {vm vm1 : VM}
    (h : markRoots fuel vm = some vm1) (hm : P vm.mem) : P vm1.mem := by
  unfold markRoots at h
  split at h
  · cases h
  · rename_i m1 h1
    split at h
    · cases h
    · rename_i m2 h2
      split at h
      · cases h
      · rename_i m3 h3
        split at h
        · cases h
        · rename_i m4 h4
          split at h
          · cases h
          · rename_i m5 h5
            split at h
            · cases h
            · rename_i m6 h6
              cases h
              exact hP _ _ _ h6 (markObjects_stable hP h5 (markTable_stable hP h4
                (markOpenUpvalues_stable hP _ h3 (markObjects_stable hP h2
                  (markArray_stable hP h1 hm)))))

/-- Unmarking a self-marked object and marking it again restores the memory. -/
theorem unmark_mark {m : Mem} {p : Nat} {o : Obj} (ho : m.read p = some o)
    (hf : o.forwardingAddress = p) :
    markObject (m.write p { o with forwardingAddress := 0 }) p = some m := by
  have hp := Mem.read_ne_zero ho
  unfold markObject
  rw [if_neg hp, Mem.read_write_same _ _ _ hp]
  simp only [ne_eq, not_true_eq_false, if_false]
  congr 1
  funext a
  by_cases ha : a = p
  · subst ha
    simp only [Mem.write, if_true]
    have hm : m a = some o := by simpa [Mem.read, hp] using ho
    rw [hm]
    cases o
    simp_all
  · simp [Mem.write, ha]

theorem markPass_stable {P : Mem → Prop} (hP : MarkStable P) (sz : Sizes) (next : Nat) :
    ∀ (fuel : Nat) {m m1 : Mem} {p : Nat} {c c1 : Bool},
      markPass sz fuel next m p c = some (m1, c1) → P m → P m1 := by
  intro fuel
  induction fuel with
  | zero => intro m m1 p c c1 h; simp [markPass] at h
  | succ n ih =>
    intro m m1 p c c1 h hm
    simp only [markPass] at h
    split at h
    · split at h
      · cases h
      · rename_i o ho
        split at h
        · rename_i hf
          rw [unmark_mark ho hf] at h
          simp only at h
          split at h
          · cases h
          · rename_i m3 h3
            split at h
            · cases h
            · exact ih h (traceObject_stable hP h3 hm)
        · exact ih h hm
    · cases h; exact hm

theorem markPass_changed (sz : Sizes) (next : Nat) :
    ∀ (fuel : Nat) {m m1 : Mem} {p : Nat} {c1 : Bool},
      markPass sz fuel next m p true = some (m1, c1) → c1 = true := by
  intro fuel
  induction fuel with
  | zero => intro m m1 p c1 h; simp [markPass] at h
  | succ n ih =>
    intro m m1 p c1 h
    simp only [markPass] at h
    split at h
    · split at h
      · cases h
      · split at h
        · split at h
          · cases h
          · split at h
            · cases h
            · split at h
              · cases h
              · exact ih h
        · exact ih h
    · cases h; rfl

theorem markPass_selfMarked (sz : Sizes) {next fuel : Nat} {m m1 : Mem} {p : Nat} {c c1 : Bool}
    (hp : p < next) (hs : SelfMarked m p) (h : markPass sz fuel next m p c = some (m1, c1)) :
    c1 = true := by
  obtain ⟨o, ho, hf⟩ := hs
  cases fuel with
  | zero => simp [markPass] at h
  | succ n =>
    simp only [markPass, if_pos hp, ho, if_pos hf] at h
    split at h
    · cases h
    · split at h
      · cases h
      · split at h
        · cases h
        · exact markPass_changed sz next n h

/-- The mark loop never ends once the first object of the heap is marked: the
pass unmarks it, marks it again and reports a change, every time. -/
theorem markLoop_diverges (sz : Sizes) :
    ∀ (fuel : Nat) (vm : VM), vm.heap < vm.next → SelfMarked vm.mem vm.heap →
      markLoop sz fuel vm = none := by
  intro fuel
  induction fuel with
  | zero => intro vm _ _; rfl
  | succ n ih =>
    intro vm hlt hs
    simp only [markLoop]
    split
    · rfl
    · rename_i m c hpass
      have hc := markPass_selfMarked sz hlt hs hpass
      have hs1 := markPass_stable (selfMarked_markStable vm.heap) sz vm.next _ hpass hs
      subst hc
      simp only [if_true]
      exact ih { vm with mem := m } hlt hs1

/-- C1 (fails on the code): on the heap of one String that the stack refers
to, `collectGarbage` does not return whatever the number of passes allowed:
the mark loop reports a change in every pass. -/
theorem collectGarbage_mark_loop_diverges :
    ∀ fuel : Nat, collectGarbage sizes64 fuel rootedStringVM = none := by
  intro fuel
  cases fuel with
  | zero => rfl
  | succ n =>
    have hroots : markRoots (n + 1) rootedStringVM =
        some { rootedStringVM with
          mem := rootedStringVM.mem.write 4096
            { forwardingAddress := 4096, body := .string (hashString [97]) [97] } } := rfl
    simp only [collectGarbage, hroots]
    rw [markLoop_diverges sizes64 (n + 1) _ (by decide)
      ⟨_, Mem.read_write_same _ _ _ (by decide), rfl⟩]

/-! ## The pointer-rewrite phase -/

theorem updateValue_eq {m : Mem} {v : Value} (h : validValue m v = true) :
    updateValue m v = some (forwardValue m v) := by
  cases v with
  | obj p =>
    simp only [validValue] at h
    cases hr : m.read p with
    | none => simp [hr] at h
    | some o =>
      have hp := Mem.read_ne_zero hr
      simp [updateValue, forwardValue, forwardPtr, hr, hp]
  | nil => rfl
  | bool b => rfl
  | number n => rfl

theorem updateValues_eq {m : Mem} {vs : List Value} (h : ∀ v ∈ vs, validValue m v = true) :
    updateValues m vs = some (vs.map (forwardValue m)) := by
  induction vs with
  | nil => rfl
  | cons v rest ih =>
    simp only [updateValues, List.map_cons]
    rw [updateValue_eq (h v (List.mem_cons_self _ _)),
      ih (fun w hw => h w (List.mem_cons_of_mem _ hw))]

theorem updatePtr_eq {m : Mem} {p : Nat} (h : validPtr m p = true) :
    updatePtr m p = some (forwardPtr m p) := by
  by_cases hp : p = 0
  · simp [updatePtr, forwardPtr, hp]
  · cases hr : m.read p with
    | none => simp [validPtr, hp, hr] at h
    | some o => simp [updatePtr, forwardPtr, hp, hr]

theorem updatePtrs_eq {m : Mem} {ps : List Nat} (h : ∀ p ∈ ps, validPtr m p = true) :
    updatePtrs m ps = some (ps.map (forwardPtr m)) := by
  induction ps with
  | nil => rfl
  | cons p rest ih =>
    simp only [updatePtrs, List.map_cons]
    rw [updatePtr_eq (h p (List.mem_cons_self _ _)),
      ih (fun w hw => h w (List.mem_cons_of_mem _ hw))]

theorem updateEntries_eq {m : Mem} {es : List Entry} (h : ∀ e ∈ es, validEntry m e = true) :
    updateEntries m es = some (es.map (forwardEntry m)) := by
  induction es with
  | nil => rfl
  | cons e rest ih =>
    have he := h e (List.mem_cons_self _ _)
    have ihr := ih (fun w hw => h w (List.mem_cons_of_mem _ hw))
    simp only [updateEntries, List.map_cons, ihr]
    by_cases hk : e.key = 0
    · simp only [validEntry, hk, if_true] at he
      have hv : forwardValue m e.value = e.value := by
        cases hval : e.value with
        | obj p => simp [hval] at he
        | nil => rfl
        | bool b => rfl
        | number n => rfl
      have hfe : forwardEntry m e = e := by
        cases e
        simp only [forwardEntry, forwardPtr] at *
        simp [hk, hv]
      simp [hk, hfe]
    · simp only [validEntry, hk, if_false, Bool.and_eq_true] at he
      cases hr : m.read e.key with
      | none => simp [hr] at he
      | some k =>
        simp [hk, hr, updateValue_eq he.2, forwardEntry, forwardPtr]

/-- C4: on a state whose roots refer to objects (the object-typed stack
slots, the non-null frame closures, the keys and object-typed values of the
globals, `vm.initString` when it is not null) and on which the two loops that
do not touch these roots come to an end, `updatePointers` returns, and then
every stack slot, frame closure, globals slot and `vm.initString` holds the
forwarding address of the object it referred to; values that are not objects
and null pointers are unchanged. -/
theorem updatePointers_rewrites_roots (sz : Sizes) (fuel : Nat) (vm : VM)
    (hstack : ∀ v ∈ vm.stack, validValue vm.mem v = true)
    (hframes : ∀ p ∈ vm.frames, validPtr vm.mem p = true)
    (hglobals : ∀ e ∈ vm.globals.entries, validEntry vm.mem e = true)
    (hinit : validPtr vm.mem vm.initString = true)
    (hopen : updateOpenUpvalues fuel vm.mem vm.openUpvalues = some ())
    (hheap : (updateHeapLoop sz (walkFuel vm) vm.next vm.mem vm.heap).isSome = true) :
    ∃ vm1, updatePointers sz fuel vm = some vm1 ∧
      vm1.stack = vm.stack.map (forwardValue vm.mem) ∧
      vm1.frames = vm.frames.map (forwardPtr vm.mem) ∧
      vm1.globals.entries = vm.globals.entries.map (forwardEntry vm.mem) ∧
      vm1.globals.count = vm.globals.count ∧
      vm1.initString = forwardPtr vm.mem vm.initString := by
  obtain ⟨m1, hm1⟩ := Option.isSome_iff_exists.mp hheap
  refine ⟨{ vm with
    stack := vm.stack.map (forwardValue vm.mem), frames := vm.frames.map (forwardPtr vm.mem),
    globals := { vm.globals with entries := vm.globals.entries.map (forwardEntry vm.mem) },
    initString := forwardPtr vm.mem vm.initString, mem := m1 }, ?_, rfl, rfl, rfl, rfl, rfl⟩
  simp only [updatePointers, updateValues_eq hstack, updatePtrs_eq hframes, hopen,
    tableUpdatePointers, updateEntries_eq hglobals, updatePtr_eq hinit, hm1]

theorem updatePointers_rewrites_roots_witness :
    ∃ vm1, updatePointers sizes64 1 rootsVM = some vm1 ∧
      vm1.stack = [.nil, .obj 4176, .number 7, .bool true] ∧
      vm1.frames = [4176] ∧
      vm1.globals.entries =
        [⟨0, .nil⟩, ⟨0, .nil⟩, ⟨0, .nil⟩, ⟨0, .nil⟩, ⟨0, .bool true⟩, ⟨0, .nil⟩,
         ⟨4261, .obj 4176⟩, ⟨0, .nil⟩] ∧
      vm1.globals.count = 1 ∧
      vm1.initString = 4216 :=
  updatePointers_rewrites_roots sizes64 1 rootsVM (by decide) (by decide) (by decide)
    (by decide) (by rfl) (by decide)

/-- C2 (fails on the code): on the marked heap `constantsVM`, the string `"b"`
at 4219 gets the forwarding address 4176, and after `updatePointers` the
constant array of the live Function and the closed value of the live Upvalue
still hold 4219. -/
theorem updatePointers_skips_constants_and_closed :
    (calculateNewLocations sizes64 constantsVM).bind (fun r => r.1.mem.read 4219) =
      some { forwardingAddress := 4176, body := .string (hashString [98]) [98] } ∧
    ((calculateNewLocations sizes64 constantsVM).bind
        (fun r => updatePointers sizes64 1 r.1)).bind (fun v => v.mem.read 4139) =
      some { forwardingAddress := 4096, body := .function 0 0 0 [.obj 4219] } ∧
    ((calculateNewLocations sizes64 constantsVM).bind
        (fun r => updatePointers sizes64 1 r.1)).bind (fun v => v.mem.read 4261) =
      some { forwardingAddress := 4218, body := .upvalue 0 (.obj 4219) 0 } := by
  decide

/-- C3 (fails on the code): on the marked heap `internedVM`, the phases that
follow the mark loop move the live string `"b"` from 4138 to 4096 (the stack
slot is rewritten, `next` becomes 4138), and the slot of the intern set
`vm.strings` that keyed it still holds the key 4138. -/
theorem collectAfterMark_leaves_intern_keys :
    (collectAfterMark sizes64 1 internedVM).map
        (fun v => (v.next, v.stack, v.strings.entries[5]?, v.mem.read 4096)) =
      some (4138, [.obj 4096], some ⟨4138, .nil⟩,
        some { forwardingAddress := 0, body := .string (hashString [98]) [98] }) := by
  decide

/-- C5 (fails on the code): on the marked heap `openUpvalueVM`, the only node
of the list of open upvalues gets the forwarding address 4096, and after
`updatePointers` the head `vm.openUpvalues` still holds 4152. -/
theorem updatePointers_leaves_openUpvalues :
    (calculateNewLocations sizes64 openUpvalueVM).bind (fun r => r.1.mem.read 4152) =
      some { forwardingAddress := 4096, body := .upvalue 16 .nil 0 } ∧
    ((calculateNewLocations sizes64 openUpvalueVM).bind
        (fun r => updatePointers sizes64 2 r.1)).map (fun v => v.openUpvalues) = some 4152 := by
  decide

/-! ## The bump allocator -/

theorem reallocate_eq_of_no_collection (sz : Sizes) (stress : Bool) (fuel : Nat) (vm : VM)
    (pointer oldSize newSize : Nat) (hno : triggersCollection stress vm oldSize newSize = false) :
    reallocate sz stress fuel vm pointer oldSize newSize =
      if newSize = 0 then
        .ok ({ vm with bytesAllocated := accountBytes vm.bytesAllocated oldSize newSize }, 0)
      else if vm.next + newSize > vm.heap + vm.heapCapacity then .outOfMemory
      else
        .ok ({ vm with
                bytesAllocated := accountBytes vm.bytesAllocated oldSize newSize,
                next := vm.next + newSize,
                mem := if pointer ≠ 0 then vm.mem.clear vm.next (vm.next + oldSize)
                  else vm.mem },
             vm.next) := by
  unfold reallocate
  by_cases hgrow : newSize > oldSize
  · have hpar : stress = false ∧
        ¬ accountBytes vm.bytesAllocated oldSize newSize > vm.nextGC := by
      simpa [triggersCollection, hgrow] using hno
    simp [hgrow, reallocateCollect, hpar.1, hpar.2]
  · simp [hgrow]

theorem rawReallocate_eq_of_no_collection (sz : Sizes) (stress : Bool) (fuel : Nat) (vm : VM)
    (pointer oldSize newSize : Nat) (hno : triggersCollection stress vm oldSize newSize = false) :
    Raw.reallocate sz stress fuel vm pointer oldSize newSize =
      if newSize = 0 then
        .ok ({ vm with bytesAllocated := accountBytes vm.bytesAllocated oldSize newSize }, 0)
      else if Raw.ptrAdd vm.next newSize > Raw.ptrAdd vm.heap vm.heapCapacity then .outOfMemory
      else
        .ok ({ vm with
                bytesAllocated := accountBytes vm.bytesAllocated oldSize newSize,
                next := Raw.ptrAdd vm.next newSize,
                mem := if pointer ≠ 0 then vm.mem.clear vm.next (vm.next + oldSize)
                  else vm.mem },
             vm.next) := by
  unfold Raw.reallocate
  by_cases hgrow : newSize > oldSize
  · have hpar : stress = false ∧
        ¬ accountBytes vm.bytesAllocated oldSize newSize > vm.nextGC := by
      simpa [triggersCollection, hgrow] using hno
    simp [hgrow, reallocateCollect, hpar.1, hpar.2]
  · simp [hgrow]

/-- Where no pointer sum leaves the address space, the sums at the width of a
pointer are the exact ones, and `Raw.reallocate` is `reallocate`. -/
theorem rawReallocate_eq_reallocate (sz : Sizes) (stress : Bool) (fuel : Nat) (vm : VM)
    (pointer oldSize newSize : Nat)
    (hno : triggersCollection stress vm oldSize newSize = false)
    (hnext : vm.next + newSize < sizeT) (harena : vm.heap + vm.heapCapacity < sizeT) :
    Raw.reallocate sz stress fuel vm pointer oldSize newSize =
      reallocate sz stress fuel vm pointer oldSize newSize := by
  rw [rawReallocate_eq_of_no_collection sz stress fuel vm pointer oldSize newSize hno,
    reallocate_eq_of_no_collection sz stress fuel vm pointer oldSize newSize hno]
  simp only [Raw.ptrAdd, Nat.mod_eq_of_lt hnext, Nat.mod_eq_of_lt harena]

/-- C6 (as stated, fails): on the heap `rootedStringVM` (`next` 4138, arena
`[4096, 4096 + 1048576)`, 42 bytes accounted) the call
`reallocate(NULL, 0, 2^64 - 8)` runs no collection, since the accounting wraps
to 34; `next + newSize` exceeds `heap + heapCapacity`, yet the pointer sum
wraps to 4130, the call does not end with out-of-memory, it returns the old
`next` 4138, and `next` is 4130 afterwards, not 4138 plus `newSize`. -/
theorem reallocate_wraps_past_arena :
    triggersCollection false rootedStringVM 0 18446744073709551608 = false ∧
    rootedStringVM.next + 18446744073709551608 >
      rootedStringVM.heap + rootedStringVM.heapCapacity ∧
    Raw.reallocate sizes64 false 0 rootedStringVM 0 0 18446744073709551608 ≠ .outOfMemory ∧
    ∃ vm1, Raw.reallocate sizes64 false 0 rootedStringVM 0 0 18446744073709551608 =
        .ok (vm1, 4138) ∧
      vm1.next = 4130 ∧ vm1.next ≠ rootedStringVM.next + 18446744073709551608 := by
  have hno : triggersCollection false rootedStringVM 0 18446744073709551608 = false := by
    decide
  have heval : Raw.reallocate sizes64 false 0 rootedStringVM 0 0 18446744073709551608 =
      .ok ({ rootedStringVM with bytesAllocated := 34, next := 4130 }, 4138) := by
    rw [rawReallocate_eq_of_no_collection _ _ _ _ _ _ _ hno, if_neg (by decide),
      if_neg (by decide)]
    rfl
  refine ⟨hno, by decide, ?_, _, heval, rfl, by decide⟩
  rw [heval]
  exact fun h => Outcome.noConfusion h

/-- C6 (amended): a call of `reallocate` that triggers no collection and whose
pointer sums stay in the address space (`next + newSize < 2^64`, and the arena
ends below `2^64`) returns `NULL` and leaves `next` alone when `newSize == 0`;
otherwise it ends with out-of-memory exactly when
`next + newSize > heap + heapCapacity`, and else it returns the old `next` and
advances `next` by `newSize`, which keeps `heap ≤ next ≤ heap + heapCapacity`. -/
theorem reallocate_without_collection_in_range (sz : Sizes) (stress : Bool) (fuel : Nat)
    (vm : VM) (pointer oldSize newSize : Nat)
    (hno : triggersCollection stress vm oldSize newSize = false)
    (hnext : vm.next + newSize < sizeT) (harena : vm.heap + vm.heapCapacity < sizeT) :
    (newSize = 0 →
      ∃ vm1, Raw.reallocate sz stress fuel vm pointer oldSize newSize = .ok (vm1, 0) ∧
        vm1.next = vm.next ∧ vm1.heap = vm.heap ∧ vm1.heapCapacity = vm.heapCapacity) ∧
    (newSize ≠ 0 →
      (Raw.reallocate sz stress fuel vm pointer oldSize newSize = .outOfMemory ↔
        vm.next + newSize > vm.heap + vm.heapCapacity)) ∧
    (newSize ≠ 0 → ¬ vm.next + newSize > vm.heap + vm.heapCapacity →
      ∃ vm1, Raw.reallocate sz stress fuel vm pointer oldSize newSize = .ok (vm1, vm.next) ∧
        vm1.next = vm.next + newSize ∧ vm1.heap = vm.heap ∧
        vm1.heapCapacity = vm.heapCapacity ∧
        (vm.heap ≤ vm.next → vm1.heap ≤ vm1.next ∧ vm1.next ≤ vm1.heap + vm1.heapCapacity)) := by
  rw [rawReallocate_eq_of_no_collection sz stress fuel vm pointer oldSize newSize hno]
  simp only [Raw.ptrAdd, Nat.mod_eq_of_lt hnext, Nat.mod_eq_of_lt harena]
  refine ⟨?_, ?_, ?_⟩
  · intro h0
    rw [if_pos h0]
    exact ⟨_, rfl, rfl, rfl, rfl⟩
  · intro h0
    by_cases hoom : vm.next + newSize > vm.heap + vm.heapCapacity
    · simp [h0, hoom]
    · simp [h0, hoom]
  · intro h0 hoom
    rw [if_neg h0, if_neg hoom]
    refine ⟨_, rfl, rfl, rfl, rfl, ?_⟩
    intro hle
    simp only
    omega

theorem reallocate_without_collection_in_range_witness :
    triggersCollection false (initVM 4096 1048576 1048576) 0 42 = false ∧
    (initVM 4096 1048576 1048576).next + 42 < sizeT ∧
    (initVM 4096 1048576 1048576).heap + (initVM 4096 1048576 1048576).heapCapacity < sizeT ∧
    ((42 = 0 →
      ∃ vm1, Raw.reallocate sizes64 false 0 (initVM 4096 1048576 1048576) 0 0 42 = .ok (vm1, 0) ∧
        vm1.next = (initVM 4096 1048576 1048576).next ∧
        vm1.heap = (initVM 4096 1048576 1048576).heap ∧
        vm1.heapCapacity = (initVM 4096 1048576 1048576).heapCapacity) ∧
    (42 ≠ 0 →
      (Raw.reallocate sizes64 false 0 (initVM 4096 1048576 1048576) 0 0 42 = .outOfMemory ↔
        (initVM 4096 1048576 1048576).next + 42 >
          (initVM 4096 1048576 1048576).heap + (initVM 4096 1048576 1048576).heapCapacity)) ∧
    (42 ≠ 0 →
      ¬ (initVM 4096 1048576 1048576).next + 42 >
          (initVM 4096 1048576 1048576).heap + (initVM 4096 1048576 1048576).heapCapacity →
      ∃ vm1, Raw.reallocate sizes64 false 0 (initVM 4096 1048576 1048576) 0 0 42 =
          .ok (vm1, (initVM 4096 1048576 1048576).next) ∧
        vm1.next = (initVM 4096 1048576 1048576).next + 42 ∧
        vm1.heap = (initVM 4096 1048576 1048576).heap ∧
        vm1.heapCapacity = (initVM 4096 1048576 1048576).heapCapacity ∧
        ((initVM 4096 1048576 1048576).heap ≤ (initVM 4096 1048576 1048576).next →
          vm1.heap ≤ vm1.next ∧ vm1.next ≤ vm1.heap + vm1.heapCapacity))) :=
  ⟨by decide, by decide, by decide,
    reallocate_without_collection_in_range sizes64 false 0 (initVM 4096 1048576 1048576) 0 0 42
      (by decide) (by decide) (by decide)⟩

/-- C8 (fails on the code): from the empty arena, `copyString("a", 1)` returns
the String allocated at `heap` (42 bytes), and the first insertion in the
intern set has taken the 8-slot entry array from the same arena (192 bytes),
so `next` is `heap + 234`.  The walk from `heap` finds the string, adds its 42
bytes, and finds no object at `heap + 42`: it does not land on `next`. -/
theorem copyString_breaks_heap_walk :
    ∃ vm1, copyString sizes64 false 0 (initVM 4096 1048576 1048576) [97] = .ok (vm1, 4096) ∧
      vm1.heap = 4096 ∧ vm1.next = 4330 ∧
      (vm1.mem.read 4096).map (sizeOfObject sizes64) = some 42 ∧
      vm1.mem.read 4138 = none ∧
      heapWalkEnd sizes64 (walkFuel vm1) vm1.next vm1.mem vm1.heap = none ∧
      heapWalkEnd sizes64 (walkFuel vm1) vm1.next vm1.mem vm1.heap ≠ some vm1.next := by
  refine ⟨_, rfl, ?_, ?_, ?_, ?_, ?_, ?_⟩ <;> decide

/-! ## Walks of the heap -/

theorem sizeOfObject_pos {sz : Sizes} (hsz : sz.Pos) (o : Obj) : 0 < sizeOfObject sz o := by
  obtain ⟨h1, h2, h3, h4, h5, h6, h7, h8⟩ := hsz
  unfold sizeOfObject
  split <;> omega

theorem liveSizeSum_le_sizeSum (sz : Sizes) (os : List Obj) : liveSizeSum sz os ≤ sizeSum sz os := by
  induction os with
  | nil => exact Nat.le_refl _
  | cons o rest ih =>
    simp only [liveSizeSum, sizeSum]
    split <;> omega

theorem heapObjects_congr (sz : Sizes) (next : Nat) :
    ∀ (fuel : Nat) (m m1 : Mem) (frm : Nat), (∀ a, frm ≤ a → m.read a = m1.read a) →
      heapObjects sz fuel next m frm = heapObjects sz fuel next m1 frm := by
  intro fuel
  induction fuel with
  | zero => intro m m1 frm _; rfl
  | succ n ih =>
    intro m m1 frm h
    simp only [heapObjects]
    rw [← h frm (Nat.le_refl _)]
    split
    · cases hr : m.read frm with
      | none => rfl
      | some o =>
        simp only
        rw [ih m m1 (frm + sizeOfObject sz o) (fun a ha => h a (by omega))]
    · rfl

theorem heapWalkEnd_eq (sz : Sizes) (next : Nat) :
    ∀ (fuel : Nat) (m : Mem) (frm : Nat),
      heapWalkEnd sz fuel next m frm =
        (heapObjects sz fuel next m frm).map (fun os => frm + sizeSum sz os) := by
  intro fuel
  induction fuel with
  | zero => intro m frm; rfl
  | succ n ih =>
    intro m frm
    simp only [heapWalkEnd, heapObjects]
    split
    · cases hr : m.read frm with
      | none => rfl
      | some o =>
        simp only
        rw [ih]
        cases heapObjects sz n next m (frm + sizeOfObject sz o) with
        | none => rfl
        | some os => simp [sizeSum, Nat.add_assoc]
    · simp [sizeSum]

/-- The walk reads only what `f` keeps of an object, when `f` fixes the size. -/
theorem heapObjects_map {α : Type} (sz : Sizes) (f : Obj → α)
    (hf : ∀ o o1, f o = f o1 → sizeOfObject sz o = sizeOfObject sz o1) (next : Nat) :
    ∀ (fuel : Nat) (m m1 : Mem) (frm : Nat) (os : List Obj),
      (∀ a, (m1.read a).map f = (m.read a).map f) →
      heapObjects sz fuel next m frm = some os →
      ∃ os1, heapObjects sz fuel next m1 frm = some os1 ∧ os1.map f = os.map f := by
  intro fuel
  induction fuel with
  | zero => intro m m1 frm os _ h; simp [heapObjects] at h
  | succ n ih =>
    intro m m1 frm os hm h
    simp only [heapObjects] at h ⊢
    split at h
    · rename_i hlt
      rw [if_pos hlt]
      cases hr : m.read frm with
      | none => simp [hr] at h
      | some o =>
        simp only [hr] at h
        cases hrest : heapObjects sz n next m (frm + sizeOfObject sz o) with
        | none => simp [hrest] at h
        | some rest =>
          simp only [hrest, Option.some.injEq] at h
          have hfr := hm frm
          rw [hr] at hfr
          cases hr1 : m1.read frm with
          | none => simp [hr1] at hfr
          | some o1 =>
            simp only [hr1, Option.map_some', Option.some.injEq] at hfr
            obtain ⟨rest1, h1, h2⟩ := ih m m1 (frm + sizeOfObject sz o) rest hm hrest
            simp only [hf o1 o hfr, h1]
            exact ⟨o1 :: rest1, rfl, by rw [← h]; simp [hfr, h2]⟩
    · rename_i hge
      rw [if_neg hge]
      cases h
      exact ⟨[], rfl, rfl⟩

theorem sizeSum_eq_of_map (sz : Sizes) :
    ∀ (os os1 : List Obj), os1.map (sizeOfObject sz) = os.map (sizeOfObject sz) →
      sizeSum sz os1 = sizeSum sz os := by
  intro os
  induction os with
  | nil => intro os1 h; cases os1 with
    | nil => rfl
    | cons _ _ => simp at h
  | cons o rest ih =>
    intro os1 h
    cases os1 with
    | nil => simp at h
    | cons o1 rest1 =>
      simp only [List.map_cons, List.cons.injEq] at h
      simp only [sizeSum, h.1, ih rest1 h.2]

theorem sizeOfObject_setForwarding (sz : Sizes) (o : Obj) (x : Nat) :
    sizeOfObject sz { o with forwardingAddress := x } = sizeOfObject sz o := rfl

/-- The address computation on a walkable heap: it returns, the cursor `to`
ends at `dest` plus the size of the marked objects, and the objects walked
carry the addresses assigned from `dest`. -/
theorem calculateNewLocationsLoop_spec (sz : Sizes) (hsz : sz.Pos) (next : Nat) :
    ∀ (fuel : Nat) (m : Mem) (dest frm : Nat) (os : List Obj), dest ≠ 0 →
      heapObjects sz fuel next m frm = some os →
      ∃ m1 os1,
        calculateNewLocationsLoop sz fuel next m dest frm =
          some (m1, dest + liveSizeSum sz os) ∧
        heapObjects sz fuel next m1 frm = some os1 ∧
        AssignedTo sz dest os1 (dest + liveSizeSum sz os) ∧
        (∀ a, a < frm → m1.read a = m.read a) := by
  intro fuel
  induction fuel with
  | zero => intro m dest frm os _ h; simp [heapObjects] at h
  | succ n ih =>
    intro m dest frm os hd h
    simp only [heapObjects] at h
    simp only [calculateNewLocationsLoop, heapObjects]
    by_cases hlt : frm < next
    · rw [if_pos hlt] at h
      simp only [if_pos hlt]
      cases hr : m.read frm with
      | none => simp [hr] at h
      | some o =>
        simp only [hr] at h
        cases hrest : heapObjects sz n next m (frm + sizeOfObject sz o) with
        | none => simp [hrest] at h
        | some rest =>
          simp only [hrest, Option.some.injEq] at h
          subst h
          have hpos := sizeOfObject_pos hsz o
          have hfrm := Mem.read_ne_zero hr
          by_cases hlive : o.forwardingAddress ≠ 0
          · simp only [if_pos hlive, liveSizeSum]
            have hcongr : heapObjects sz n next
                (m.write frm { o with forwardingAddress := dest }) (frm + sizeOfObject sz o) =
                some rest := by
              rw [← hrest]
              exact heapObjects_congr sz next n _ _ _
                (fun a ha => Mem.read_write_ne _ _ _ _ (by omega))
            obtain ⟨m1, os1, h1, h2, h3, h4⟩ :=
              ih (m.write frm { o with forwardingAddress := dest }) (dest + sizeOfObject sz o)
                (frm + sizeOfObject sz o) rest (by omega) hcongr
            have hrd : m1.read frm = some { o with forwardingAddress := dest } := by
              rw [h4 frm (by omega), Mem.read_write_same _ _ _ hfrm]
            refine ⟨m1, { o with forwardingAddress := dest } :: os1, ?_, ?_, ?_, ?_⟩
            · rw [h1]; simp [Nat.add_assoc]
            · simp only [hrd, sizeOfObject_setForwarding, h2]
            · refine Or.inr ⟨hd, rfl, ?_⟩
              rw [sizeOfObject_setForwarding]
              simpa [Nat.add_assoc] using h3
            · intro a ha
              rw [h4 a (by omega), Mem.read_write_ne _ _ _ _ (by omega)]
          · simp only [if_neg hlive, liveSizeSum]
            obtain ⟨m1, os1, h1, h2, h3, h4⟩ :=
              ih m dest (frm + sizeOfObject sz o) rest hd hrest
            have hrd : m1.read frm = some o := by rw [h4 frm (by omega), hr]
            refine ⟨m1, o :: os1, h1, ?_, ?_, ?_⟩
            · simp only [hrd, h2]
            · exact Or.inl ⟨by simpa using hlive, h3⟩
            · intro a ha
              exact h4 a (by omega)
    · rw [if_neg hlt] at h
      simp only [if_neg hlt]
      cases h
      exact ⟨m, [], rfl, rfl, rfl, fun _ _ => rfl⟩

theorem assignedTo_of_map_hdr (sz : Sizes) :
    ∀ (os os1 : List Obj) (dest stop : Nat),
      os1.map (Obj.hdr sz) = os.map (Obj.hdr sz) →
      AssignedTo sz dest os stop → AssignedTo sz dest os1 stop := by
  intro os
  induction os with
  | nil =>
    intro os1 dest stop h ha
    cases os1 with
    | nil => exact ha
    | cons _ _ => simp at h
  | cons o rest ih =>
    intro os1 dest stop h ha
    cases os1 with
    | nil => simp at h
    | cons o1 rest1 =>
      simp only [List.map_cons, List.cons.injEq, Obj.hdr, Prod.mk.injEq] at h
      obtain ⟨⟨hf, hs⟩, hrest⟩ := h
      simp only [AssignedTo] at ha ⊢
      rw [hf, hs]
      rcases ha with ⟨h0, har⟩ | ⟨h0, h1, har⟩
      · exact Or.inl ⟨h0, ih rest1 dest stop hrest har⟩
      · exact Or.inr ⟨h0, h1, ih rest1 _ stop hrest har⟩

theorem updatePtrs_length {m : Mem} :
    ∀ {ps ps1 : List Nat}, updatePtrs m ps = some ps1 → ps1.length = ps.length := by
  intro ps
  induction ps with
  | nil => intro ps1 h; simp [updatePtrs] at h; subst h; rfl
  | cons p rest ih =>
    intro ps1 h
    simp only [updatePtrs] at h
    split at h
    · cases h
    · split at h
      · cases h
      · rename_i rest1 hrest
        cases h
        simp [ih hrest]

/-- Rewriting the body of an object with one of the same size changes no
header of the memory. -/
theorem hdr_write_body (sz : Sizes) {m : Mem} {p : Nat} {o : Obj} (body : ObjBody)
    (hr : m.read p = some o)
    (hs : sizeOfObject sz { o with body := body } = sizeOfObject sz o) (a : Nat) :
    ((m.write p { o with body := body }).read a).map (Obj.hdr sz) =
      (m.read a).map (Obj.hdr sz) := by
  by_cases ha : a = p
  · subst ha
    rw [Mem.read_write_same _ _ _ (Mem.read_ne_zero hr), hr]
    simp only [Option.map_some', Obj.hdr, hs]
  · rw [Mem.read_write_ne _ _ _ _ ha]

theorem updateObjectPointers_hdr (sz : Sizes) {m m1 : Mem} {p : Nat}
    (h : updateObjectPointers m p = some m1) (a : Nat) :
    (m1.read a).map (Obj.hdr sz) = (m.read a).map (Obj.hdr sz) := by
  unfold updateObjectPointers at h
  split at h
  · cases h
  · rename_i o hr
    split at h
    · split at h
      · cases h
      · split at h
        · cases h
        · cases h; refine hdr_write_body sz _ hr ?_ a; simp only [sizeOfObject, *]
    · split at h
      · cases h
      · split at h
        · cases h
        · cases h; refine hdr_write_body sz _ hr ?_ a; simp only [sizeOfObject, *]
    · rename_i function upvalues hb
      split at h
      · cases h
      · split at h
        · cases h
        · rename_i upvalues1 hu
          cases h
          refine hdr_write_body sz _ hr ?_ a
          simp only [sizeOfObject, hb, updatePtrs_length hu]
    · split at h
      · cases h
      · cases h; refine hdr_write_body sz _ hr ?_ a; simp only [sizeOfObject, *]
    · split at h
      · cases h
      · split at h
        · cases h
        · cases h; refine hdr_write_body sz _ hr ?_ a; simp only [sizeOfObject, *]
    · cases h; rfl
    · cases h; rfl
    · cases h; rfl

theorem updateHeapLoop_hdr (sz : Sizes) (next : Nat) :
    ∀ (fuel : Nat) {m m1 : Mem} {frm : Nat}, updateHeapLoop sz fuel next m frm = some m1 →
      ∀ a, (m1.read a).map (Obj.hdr sz) = (m.read a).map (Obj.hdr sz) := by
  intro fuel
  induction fuel with
  | zero => intro m m1 frm h; simp [updateHeapLoop] at h
  | succ n ih =>
    intro m m1 frm h a
    simp only [updateHeapLoop] at h
    split at h
    · split at h
      · cases h
      · split at h
        · split at h
          · cases h
          · rename_i m2 h2
            split at h
            · cases h
            · rw [ih h a, updateObjectPointers_hdr sz h2 a]
        · exact ih h a
    · cases h; rfl

theorem markObject_size (sz : Sizes) {m m1 : Mem} {q : Nat} (h : markObject m q = some m1)
    (a : Nat) : (m1.read a).map (sizeOfObject sz) = (m.read a).map (sizeOfObject sz) := by
  unfold markObject at h
  split at h
  · cases h; rfl
  · split at h
    · cases h
    · rename_i o ho
      split at h
      · cases h; rfl
      · cases h
        by_cases ha : a = q
        · subst ha
          rw [Mem.read_write_same _ _ _ (Mem.read_ne_zero ho), ho]
          rfl
        · rw [Mem.read_write_ne _ _ _ _ ha]

/-- Marking changes no size: the heap stays as walkable as it was. -/
theorem sameSize_markStable (sz : Sizes) (m0 : Mem) :
    MarkStable (fun m => ∀ a, (m.read a).map (sizeOfObject sz) =
      (m0.read a).map (sizeOfObject sz)) :=
  fun _ _ _ h hm a => (markObject_size sz h a).trans (hm a)

theorem markLoop_stable {P : Mem → Prop} (hP : MarkStable P) (sz : Sizes) :
    ∀ (fuel : Nat) {vm vm1 : VM}, markLoop sz fuel vm = some vm1 → P vm.mem →
      P vm1.mem ∧ vm1.heap = vm.heap ∧ vm1.next = vm.next := by
  intro fuel
  induction fuel with
  | zero => intro vm vm1 h; simp [markLoop] at h
  | succ n ih =>
    intro vm vm1 h hm
    simp only [markLoop] at h
    split at h
    · cases h
    · rename_i m c hpass
      have hm1 := markPass_stable hP sz vm.next _ hpass hm
      split at h
      · have hrec := ih h hm1
        exact hrec
      · cases h; exact ⟨hm1, rfl, rfl⟩

theorem markRoots_fields {fuel : Nat} {vm vm1 : VM} (h : markRoots fuel vm = some vm1) :
    vm1.heap = vm.heap ∧ vm1.next = vm.next := by
  unfold markRoots at h
  split at h
  · cases h
  · split at h
    · cases h
    · split at h
      · cases h
      · split at h
        · cases h
        · split at h
          · cases h
          · split at h
            · cases h
            · cases h; exact ⟨rfl, rfl⟩

theorem sizeSum_append (sz : Sizes) (xs ys : List Obj) :
    sizeSum sz (xs ++ ys) = sizeSum sz xs + sizeSum sz ys := by
  induction xs with
  | nil => simp [sizeSum]
  | cons x rest ih => simp [sizeSum, ih, Nat.add_assoc]

theorem walkFrom_append (sz : Sizes) (m : Mem) :
    ∀ (xs ys : List Obj) (a : Nat),
      WalkFrom sz m a (xs ++ ys) ↔
        WalkFrom sz m a xs ∧ WalkFrom sz m (a + sizeSum sz xs) ys := by
  intro xs
  induction xs with
  | nil => intro ys a; simp [WalkFrom, sizeSum]
  | cons x rest ih =>
    intro ys a
    rw [List.cons_append]
    simp only [WalkFrom, sizeSum]
    rw [ih]
    simp only [Nat.add_assoc, and_assoc]

/-- A run of objects is still there in a memory that keeps every object lying
below the end of the run. -/
theorem walkFrom_of_keeps_below (sz : Sizes) {m m1 : Mem} {bound : Nat}
    (hkeep : ∀ x o, m.read x = some o → x + sizeOfObject sz o ≤ bound → m1.read x = some o) :
    ∀ (xs : List Obj) (a : Nat), WalkFrom sz m a xs → a + sizeSum sz xs ≤ bound →
      WalkFrom sz m1 a xs := by
  intro xs
  induction xs with
  | nil => intro a _ _; trivial
  | cons x rest ih =>
    intro a hw hb
    simp only [WalkFrom, sizeSum] at hw hb ⊢
    exact ⟨hkeep a x hw.1 (by omega), ih _ hw.2 (by omega)⟩

theorem memmove_read_dest (sz : Sizes) {m : Mem} {dest frm size : Nat} {o : Obj}
    (hd : dest ≠ 0) (hr : m.read frm = some o) :
    (memmove sz m dest frm size).read dest = some o := by
  have hfrm := Mem.read_ne_zero hr
  simp only [Mem.read, if_neg hfrm] at hr
  simp [Mem.read, memmove, hd, hr]

theorem memmove_read_above (sz : Sizes) (m : Mem) {dest frm size a : Nat}
    (hne : a ≠ dest) (ha : dest + size ≤ a) :
    (memmove sz m dest frm size).read a = m.read a := by
  simp only [Mem.read, memmove, if_neg hne]
  split
  · rfl
  · cases hm : m a with
    | none => rfl
    | some o =>
      simp only
      rw [if_neg (by omega)]

theorem memmove_read_below (sz : Sizes) {m : Mem} {dest frm size x : Nat} {o : Obj}
    (hne : x ≠ dest) (hr : m.read x = some o) (hx : x + sizeOfObject sz o ≤ dest) :
    (memmove sz m dest frm size).read x = some o := by
  have hx0 := Mem.read_ne_zero hr
  simp only [Mem.read, if_neg hx0] at hr
  simp only [Mem.read, memmove, if_neg hne, if_neg hx0, hr]
  rw [if_neg (by omega)]

/-- The slide on a walkable heap that carries assigned addresses: it returns,
and the objects moved so far, followed by the live objects still to come, lie
one after the other from `base`, end at `stop`, and have a null forwarding
address. -/
theorem compactHeapLoop_spec (sz : Sizes) (hsz : sz.Pos) (next base : Nat) :
    ∀ (fuel : Nat) (m : Mem) (dest frm : Nat) (os : List Obj) (stop : Nat) (moved : List Obj),
      heapObjects sz fuel next m frm = some os →
      AssignedTo sz dest os stop →
      dest ≤ frm →
      WalkFrom sz m base moved → base + sizeSum sz moved = dest →
      (∀ o ∈ moved, o.forwardingAddress = 0) →
      ∃ m1 all, compactHeapLoop sz fuel next m frm = some m1 ∧
        WalkFrom sz m1 base all ∧ base + sizeSum sz all = stop ∧
        ∀ o ∈ all, o.forwardingAddress = 0 := by
  intro fuel
  induction fuel with
  | zero => intro m dest frm os stop moved h; simp [heapObjects] at h
  | succ n ih =>
    intro m dest frm os stop moved h hassigned hle hwalk hend hclean
    simp only [heapObjects] at h
    simp only [compactHeapLoop]
    by_cases hlt : frm < next
    · rw [if_pos hlt] at h
      simp only [if_pos hlt]
      cases hr : m.read frm with
      | none => simp [hr] at h
      | some o =>
        simp only [hr] at h
        cases hrest : heapObjects sz n next m (frm + sizeOfObject sz o) with
        | none => simp [hrest] at h
        | some rest =>
          simp only [hrest, Option.some.injEq] at h
          subst h
          have hpos := sizeOfObject_pos hsz o
          simp only [AssignedTo] at hassigned
          rcases hassigned with ⟨hdead, hrec⟩ | ⟨hlive, hfwd, hrec⟩
          · simp only [hdead, ne_eq, not_true_eq_false, if_false]
            exact ih m dest (frm + sizeOfObject sz o) rest stop moved hrest hrec (by omega)
              hwalk hend hclean
          · have hd : dest ≠ 0 := hfwd ▸ hlive
            simp only [hfwd, if_pos hd]
            have hm1 : ∃ m1 : Mem,
                (if dest ≠ frm then memmove sz m dest frm (sizeOfObject sz o) else m) = m1 ∧
                m1.read dest = some o ∧
                (∀ x o1, x ≠ dest → m.read x = some o1 → x + sizeOfObject sz o1 ≤ dest →
                  m1.read x = some o1) ∧
                (∀ a, dest + sizeOfObject sz o ≤ a → m1.read a = m.read a) := by
              by_cases hsame : dest = frm
              · refine ⟨m, by simp [hsame], by rw [hsame]; exact hr, fun x o1 _ h1 _ => h1,
                  fun _ _ => rfl⟩
              · refine ⟨_, rfl, ?_, ?_, ?_⟩
                · rw [if_pos hsame]; exact memmove_read_dest sz hd hr
                · intro x o1 hx h1 h2
                  rw [if_pos hsame]; exact memmove_read_below sz hx h1 h2
                · intro a ha
                  rw [if_pos hsame]; exact memmove_read_above sz m (by omega) ha
            obtain ⟨m1, hm1eq, hm1dest, hm1below, hm1above⟩ := hm1
            simp only [hm1eq, hm1dest]
            have hsuffix : heapObjects sz n next
                (m1.write dest { o with forwardingAddress := 0 }) (frm + sizeOfObject sz o) =
                some rest := by
              rw [← hrest]
              refine heapObjects_congr sz next n _ _ _ (fun a ha => ?_)
              rw [Mem.read_write_ne _ _ _ _ (by omega), hm1above a (by omega)]
            have hmoved : WalkFrom sz (m1.write dest { o with forwardingAddress := 0 }) base
                (moved ++ [{ o with forwardingAddress := 0 }]) := by
              rw [walkFrom_append]
              refine ⟨walkFrom_of_keeps_below sz ?_ moved base hwalk (Nat.le_of_eq hend), ?_⟩
              · intro x o1 h1 h2
                have hx : x ≠ dest := by
                  have := sizeOfObject_pos hsz o1
                  omega
                rw [Mem.read_write_ne _ _ _ _ hx]
                exact hm1below x o1 hx h1 h2
              · simp only [WalkFrom, hend, and_true]
                exact Mem.read_write_same _ _ _ hd
            refine ih _ (dest + sizeOfObject sz o) (frm + sizeOfObject sz o) rest stop
              (moved ++ [{ o with forwardingAddress := 0 }]) hsuffix hrec (by omega) hmoved ?_ ?_
            · rw [sizeSum_append]
              simp only [sizeSum, sizeOfObject_setForwarding]
              omega
            · intro x hx
              rcases List.mem_append.mp hx with hx | hx
              · exact hclean x hx
              · simp only [List.mem_singleton] at hx
                subst hx
                rfl
    · rw [if_neg hlt] at h
      simp only [if_neg hlt]
      cases h
      simp only [AssignedTo] at hassigned
      exact ⟨m, moved, rfl, hwalk, by omega, hclean⟩

/-- A run of objects from `a` is what the walk of `[a, end of the run)` finds,
when every object has at least one byte. -/
theorem heapObjects_of_walkFrom (sz : Sizes) (hsz : sz.Pos) (m : Mem) :
    ∀ (xs : List Obj) (a fuel : Nat), WalkFrom sz m a xs → sizeSum sz xs < fuel →
      heapObjects sz fuel (a + sizeSum sz xs) m a = some xs := by
  intro xs
  induction xs with
  | nil =>
    intro a fuel _ hf
    cases fuel with
    | zero => omega
    | succ n => simp [heapObjects, sizeSum]
  | cons x rest ih =>
    intro a fuel hw hf
    have hpos := sizeOfObject_pos hsz x
    simp only [WalkFrom, sizeSum] at hw hf
    cases fuel with
    | zero => omega
    | succ n =>
      simp only [heapObjects, sizeSum]
      rw [if_pos (by omega)]
      simp only [hw.1]
      have := ih (a + sizeOfObject sz x) n hw.2 (by omega)
      rw [Nat.add_assoc] at this
      rw [this]

/-! ## When the mark loop ends -/

theorem reaches_of_sameSize (sz : Sizes) {m m1 : Mem} {next frm a : Nat}
    (hs : ∀ x, (m1.read x).map (sizeOfObject sz) = (m.read x).map (sizeOfObject sz))
    (h : Reaches sz m next frm a) : Reaches sz m1 next frm a := by
  induction h with
  | here a ha => exact Reaches.here a ha
  | step frm a o hlt hr _ ih =>
    have hx := hs frm
    rw [hr] at hx
    cases hr1 : m1.read frm with
    | none => simp [hr1] at hx
    | some o1 =>
      simp only [hr1, Option.map_some', Option.some.injEq] at hx
      exact Reaches.step frm a o1 hlt hr1 (hx ▸ ih)

theorem markPass_reaches (sz : Sizes) (next a : Nat) :
    ∀ (fuel : Nat) {m m1 : Mem} {frm : Nat} {c c1 : Bool},
      markPass sz fuel next m frm c = some (m1, c1) → Reaches sz m next frm a →
      SelfMarked m a → c1 = true := by
  intro fuel
  induction fuel with
  | zero => intro m m1 frm c c1 h; simp [markPass] at h
  | succ n ih =>
    intro m m1 frm c c1 h hreach hs
    cases hreach with
    | here _ ha => exact markPass_selfMarked sz ha hs h
    | step _ _ o hlt hr hrest =>
      simp only [markPass, if_pos hlt, hr] at h
      split at h
      · split at h
        · cases h
        · split at h
          · cases h
          · split at h
            · cases h
            · exact markPass_changed sz next n h
      · exact ih h hrest hs

/-- The mark loop never ends once the walk of the heap steps on a marked
object: every pass finds it marked, unmarks it, marks it again and reports a
change. -/
theorem markLoop_diverges_of_reaches (sz : Sizes) (a : Nat) :
    ∀ (fuel : Nat) (vm : VM), Reaches sz vm.mem vm.next vm.heap a → SelfMarked vm.mem a →
      markLoop sz fuel vm = none := by
  intro fuel
  induction fuel with
  | zero => intro vm _ _; rfl
  | succ n ih =>
    intro vm hreach hs
    simp only [markLoop]
    split
    · rfl
    · rename_i m c hpass
      have hc := markPass_reaches sz vm.next a _ hpass hreach hs
      have hs1 := markPass_stable (selfMarked_markStable a) sz vm.next _ hpass hs
      have hsize := markPass_stable (sameSize_markStable sz vm.mem) sz vm.next _ hpass
        (fun _ => rfl)
      subst hc
      simp only [if_true]
      exact ih { vm with mem := m } (reaches_of_sameSize sz hsize hreach) hs1

/-- A pass over a heap on which the walk steps on no marked object changes
nothing and reports no change. -/
theorem markPass_of_unmarked (sz : Sizes) (next : Nat) :
    ∀ (fuel : Nat) (m : Mem) (frm : Nat) (c : Bool),
      (heapWalkEnd sz fuel next m frm).isSome = true →
      (∀ a, Reaches sz m next frm a → ¬ SelfMarked m a) →
      markPass sz fuel next m frm c = some (m, c) := by
  intro fuel
  induction fuel with
  | zero => intro m frm c h; simp [heapWalkEnd] at h
  | succ n ih =>
    intro m frm c h hno
    simp only [heapWalkEnd] at h
    simp only [markPass]
    by_cases hlt : frm < next
    · rw [if_pos hlt] at h
      rw [if_pos hlt]
      cases hr : m.read frm with
      | none => simp [hr] at h
      | some o =>
        simp only [hr] at h
        have hne : ¬ o.forwardingAddress = frm :=
          fun hf => hno frm (Reaches.here frm hlt) ⟨o, hr, hf⟩
        simp only [if_neg hne]
        exact ih m _ c h (fun a ha => hno a (Reaches.step frm a o hlt hr ha))
    · rw [if_neg hlt]

/-- The mark loop ends after its first pass when the walk of the heap steps
on no marked object. -/
theorem markLoop_of_unmarked (sz : Sizes) (fuel : Nat) (vm : VM)
    (hwalk : (heapWalkEnd sz (walkFuel vm) vm.next vm.mem vm.heap).isSome = true)
    (hno : ∀ a, Reaches sz vm.mem vm.next vm.heap a → ¬ SelfMarked vm.mem a) :
    markLoop sz (fuel + 1) vm = some vm := by
  simp only [markLoop, markPass_of_unmarked sz vm.next _ vm.mem vm.heap false hwalk hno]
  rfl

/-! ## The phases after marking, on a walkable heap -/

theorem hdr_fixes_size (sz : Sizes) (o o1 : Obj) (h : o.hdr sz = o1.hdr sz) :
    sizeOfObject sz o = sizeOfObject sz o1 := by
  simp only [Obj.hdr, Prod.mk.injEq] at h
  exact h.2

theorem updatePointers_fields {sz : Sizes} {fuel : Nat} {vm vm1 : VM}
    (h : updatePointers sz fuel vm = some vm1) :
    vm1.heap = vm.heap ∧ vm1.next = vm.next ∧
      updateHeapLoop sz (walkFuel vm) vm.next vm.mem vm.heap = some vm1.mem := by
  unfold updatePointers at h
  split at h
  · cases h
  · split at h
    · cases h
    · split at h
      · cases h
      · split at h
        · cases h
        · split at h
          · cases h
          · split at h
            · cases h
            · rename_i m1 hm1
              cases h
              exact ⟨rfl, rfl, hm1⟩

/-- The part of `collectGarbage` after the mark loop, on a heap that can be
walked: once the intern set is pruned and the pointers are rewritten, the
slide returns; the arena starts where it did, `next` is `heap` plus the size
of the marked objects, and the heap is walkable and clean. -/
theorem collectAfterMark_returns (sz : Sizes) (hsz : sz.Pos) (fuel : Nat) (vm vmA vmU : VM)
    (strings1 : Table) (n : Nat) (os : List Obj) (hheap : vm.heap ≠ 0)
    (hwalk : heapObjects sz (walkFuel vm) vm.next vm.mem vm.heap = some os)
    (hT : tableRemoveWhite vm.mem vm.strings = some strings1)
    (hA : calculateNewLocations sz { vm with strings := strings1 } = some (vmA, n))
    (hU : updatePointers sz fuel vmA = some vmU) :
    ∃ vm2, collectAfterMark sz fuel vm = some vm2 ∧
      vm2.heap = vm.heap ∧ vm2.next = vm.heap + liveSizeSum sz os ∧ HeapClean sz vm2 := by
  obtain ⟨m1, os1, hcalc, hwalk1, hassigned1, _⟩ :=
    calculateNewLocationsLoop_spec sz hsz vm.next (walkFuel vm) vm.mem vm.heap vm.heap os
      hheap hwalk
  have hcalc1 : calculateNewLocations sz { vm with strings := strings1 } =
      some ({ vm with strings := strings1, mem := m1 }, liveSizeSum sz os) := by
    simp only [calculateNewLocations]
    have hf : walkFuel { vm with strings := strings1 } = walkFuel vm := rfl
    rw [hf, hcalc]
    simp
  rw [hcalc1] at hA
  simp only [Option.some.injEq, Prod.mk.injEq] at hA
  obtain ⟨hvmA, hn⟩ := hA
  subst hvmA
  obtain ⟨hUheap, hUnext, hUloop⟩ := updatePointers_fields hU
  simp only at hUheap hUnext hUloop
  have hfU : walkFuel { vm with strings := strings1, mem := m1 } = walkFuel vm := rfl
  rw [hfU] at hUloop
  obtain ⟨os2, hwalk2, hmap2⟩ :=
    heapObjects_map sz (Obj.hdr sz) (hdr_fixes_size sz) vm.next (walkFuel vm) m1 vmU.mem
      vm.heap os1 (updateHeapLoop_hdr sz vm.next _ hUloop) hwalk1
  have hassigned2 := assignedTo_of_map_hdr sz os1 os2 _ _ hmap2 hassigned1
  obtain ⟨m3, all, hloop, hall, hstop, hclean⟩ :=
    compactHeapLoop_spec sz hsz vm.next vm.heap (walkFuel vm) vmU.mem vm.heap vm.heap os2
      (vm.heap + liveSizeSum sz os) [] hwalk2 hassigned2 (Nat.le_refl _) trivial
      (by simp [sizeSum]) (by simp)
  have hfC : walkFuel vmU = walkFuel vm := by simp [walkFuel, hUheap, hUnext]
  have hC : compactHeap sz vmU = some { vmU with mem := m3 } := by
    simp only [compactHeap, hfC, hUheap, hUnext, hloop]
  have hsum : sizeSum sz all = liveSizeSum sz os := by omega
  refine ⟨{ vmU with
      mem := m3, next := vmU.heap + liveSizeSum sz os, bytesAllocated := liveSizeSum sz os,
      nextGC := (liveSizeSum sz os * 2) % 18446744073709551616 },
    by simp only [collectAfterMark, hT, hcalc1, hU, hC], hUheap, ?_, all, ?_, ?_, hclean⟩
  · show vmU.heap + liveSizeSum sz os = vm.heap + liveSizeSum sz os
    rw [hUheap]
  · show heapObjects sz (vmU.heap + liveSizeSum sz os - vmU.heap + 1)
      (vmU.heap + liveSizeSum sz os) m3 vmU.heap = some all
    have := heapObjects_of_walkFrom sz hsz m3 all vm.heap (liveSizeSum sz os + 1) hall
      (by omega)
    rw [hsum] at this
    rw [Nat.add_sub_cancel_left, hUheap]
    exact this
  · show vmU.heap + sizeSum sz all = vmU.heap + liveSizeSum sz os
    rw [hsum]

theorem collectAfterMark_spec (sz : Sizes) (hsz : sz.Pos) (fuel : Nat) (vm vm2 : VM)
    (os : List Obj) (hheap : vm.heap ≠ 0)
    (hwalk : heapObjects sz (walkFuel vm) vm.next vm.mem vm.heap = some os)
    (h : collectAfterMark sz fuel vm = some vm2) :
    vm2.heap = vm.heap ∧ vm2.next = vm.heap + liveSizeSum sz os ∧ HeapClean sz vm2 := by
  have h0 := h
  unfold collectAfterMark at h0
  split at h0
  · cases h0
  · rename_i strings1 hT
    split at h0
    · cases h0
    · rename_i vmA n hA
      split at h0
      · cases h0
      · rename_i vmU hU
        obtain ⟨vm3, h3, hr⟩ :=
          collectAfterMark_returns sz hsz fuel vm vmA vmU strings1 n os hheap hwalk hT hA hU
        rw [h] at h3
        cases h3
        exact hr

/-- Marking keeps the heap walkable: the walk after `markRoots` and the mark
loop steps over objects of the same sizes. -/
theorem mark_keeps_walk (sz : Sizes) {fuel : Nat} {vm vm1 vm2 : VM} {os : List Obj}
    (hwalk : heapObjects sz (walkFuel vm) vm.next vm.mem vm.heap = some os)
    (h1 : markRoots fuel vm = some vm1) (h2 : markLoop sz fuel vm1 = some vm2) :
    vm2.heap = vm.heap ∧ vm2.next = vm.next ∧
      ∃ os2, heapObjects sz (walkFuel vm2) vm2.next vm2.mem vm2.heap = some os2 ∧
        sizeSum sz os2 = sizeSum sz os := by
  obtain ⟨hheap1, hnext1⟩ := markRoots_fields h1
  have hs1 := markRoots_stable (sameSize_markStable sz vm.mem) h1 (fun _ => rfl)
  obtain ⟨hs2, hheap2, hnext2⟩ := markLoop_stable (sameSize_markStable sz vm.mem) sz fuel h2 hs1
  obtain ⟨os2, hw2, hmap⟩ :=
    heapObjects_map sz (sizeOfObject sz) (fun _ _ h => h) vm.next (walkFuel vm) vm.mem vm2.mem
      vm.heap os hs2 hwalk
  refine ⟨by rw [hheap2, hheap1], by rw [hnext2, hnext1], os2, ?_, sizeSum_eq_of_map sz os os2 hmap⟩
  have hf : walkFuel vm2 = walkFuel vm := by simp [walkFuel, hheap2, hheap1, hnext2, hnext1]
  rw [hf, hheap2, hheap1, hnext2, hnext1]
  exact hw2

/-- C10: on every walkable heap (the walk from `heap` lands on `next`),
`calculateNewLocations` returns, the live size it returns is the sum of
`sizeOfObject` over the marked objects and is at most `next - heap`; so after
the phases that follow marking `next - heap` is that sum, and after
`collectGarbage` the new `next - heap` is at most the old one. -/
theorem monotone_compaction (sz : Sizes) (hsz : sz.Pos) (vm : VM) (hheap : vm.heap ≠ 0)
    (hwalk : heapWalkEnd sz (walkFuel vm) vm.next vm.mem vm.heap = some vm.next) :
    ∃ os vm1, heapObjects sz (walkFuel vm) vm.next vm.mem vm.heap = some os ∧
      calculateNewLocations sz vm = some (vm1, liveSizeSum sz os) ∧
      liveSizeSum sz os ≤ vm.next - vm.heap ∧
      (∀ fuel vm2, collectAfterMark sz fuel vm = some vm2 →
        vm2.next - vm2.heap = liveSizeSum sz os) ∧
      (∀ fuel vm2, collectGarbage sz fuel vm = some vm2 →
        vm2.next - vm2.heap ≤ vm.next - vm.heap) := by
  rw [heapWalkEnd_eq] at hwalk
  cases hos : heapObjects sz (walkFuel vm) vm.next vm.mem vm.heap with
  | none => simp [hos] at hwalk
  | some os =>
    simp only [hos, Option.map_some', Option.some.injEq] at hwalk
    obtain ⟨m1, os1, hcalc, _, _, _⟩ :=
      calculateNewLocationsLoop_spec sz hsz vm.next (walkFuel vm) vm.mem vm.heap vm.heap os
        hheap hos
    have hle := liveSizeSum_le_sizeSum sz os
    refine ⟨os, { vm with mem := m1 }, rfl, ?_, by omega, ?_, ?_⟩
    · simp only [calculateNewLocations, hcalc]
      simp
    · intro fuel vm2 h
      obtain ⟨h1, h2, _⟩ := collectAfterMark_spec sz hsz fuel vm vm2 os hheap hos h
      omega
    · intro fuel vm2 h
      unfold collectGarbage at h
      split at h
      · cases h
      · rename_i vmR hR
        split at h
        · cases h
        · rename_i vmL hL
          obtain ⟨hh, hn, os2, hw2, hsum⟩ := mark_keeps_walk sz hos hR hL
          obtain ⟨h1, h2, _⟩ :=
            collectAfterMark_spec sz hsz fuel vmL vm2 os2 (by rw [hh]; exact hheap) hw2 h
          have hle2 := liveSizeSum_le_sizeSum sz os2
          omega

theorem monotone_compaction_witness :
    (∃ os vm1,
      heapObjects sizes64 (walkFuel internedVM) internedVM.next internedVM.mem internedVM.heap =
        some os ∧
      calculateNewLocations sizes64 internedVM = some (vm1, liveSizeSum sizes64 os) ∧
      liveSizeSum sizes64 os ≤ internedVM.next - internedVM.heap ∧
      (∀ fuel vm2, collectAfterMark sizes64 fuel internedVM = some vm2 →
        vm2.next - vm2.heap = liveSizeSum sizes64 os) ∧
      (∀ fuel vm2, collectGarbage sizes64 fuel internedVM = some vm2 →
        vm2.next - vm2.heap ≤ internedVM.next - internedVM.heap)) ∧
    (∃ vm2, collectGarbage sizes64 1 unrootedVM = some vm2 ∧
      vm2.next - vm2.heap ≤ unrootedVM.next - unrootedVM.heap) := by
  refine ⟨monotone_compaction sizes64 (by decide) internedVM (by decide) (by decide), ?_⟩
  obtain ⟨vm2, h⟩ := Option.isSome_iff_exists.mp
    (show (collectGarbage sizes64 1 unrootedVM).isSome = true by decide)
  obtain ⟨_, _, _, _, _, _, hgc⟩ :=
    monotone_compaction sizes64 (by decide) unrootedVM (by decide) (by decide)
  exact ⟨vm2, h, hgc 1 vm2 h⟩

/-! ## Objects returned by the constructors -/

theorem reallocate_ok_lt {sz : Sizes} {stress : Bool} {fuel : Nat} {vm vm1 : VM}
    {pointer oldSize newSize r : Nat}
    (h : reallocate sz stress fuel vm pointer oldSize newSize = .ok (vm1, r)) (hr : r ≠ 0) :
    r < vm1.next := by
  unfold reallocate at h
  split at h
  · cases h
  · split at h
    · cases h; exact absurd rfl hr
    · split at h
      · cases h
      · rename_i h0 _
        cases h
        simp only
        omega

theorem allocateObject_fresh {sz : Sizes} {stress : Bool} {fuel : Nat} {vm vm1 : VM}
    {size p : Nat} {type : ObjType}
    (h : allocateObject sz stress fuel vm size type = .ok (vm1, p)) :
    FreshAt vm1 p ∧ p < vm1.next := by
  unfold allocateObject at h
  split at h
  · cases h
  · cases h
  · rename_i vmR object hR
    split at h
    · cases h
    · rename_i hne
      cases h
      have hlt := reallocate_ok_lt hR hne
      exact ⟨⟨_, Mem.read_write_same _ _ _ hne, rfl⟩, hlt⟩

theorem setBody_fresh {vm vm1 : VM} {p q : Nat} {body : ObjBody}
    (h : setBody vm p body = .ok (vm1, q)) (hf : FreshAt vm p) :
    q = p ∧ FreshAt vm1 p ∧ vm1.next = vm.next := by
  obtain ⟨o, ho, hfo⟩ := hf
  simp only [setBody, ho] at h
  cases h
  exact ⟨rfl, ⟨_, Mem.read_write_same _ _ _ (Mem.read_ne_zero ho), hfo⟩, rfl⟩

theorem newBoundMethod_fresh {sz : Sizes} {stress : Bool} {fuel : Nat} {vm vm1 : VM}
    {receiver : Value} {method p : Nat}
    (h : newBoundMethod sz stress fuel vm receiver method = .ok (vm1, p)) : FreshAt vm1 p := by
  unfold newBoundMethod at h
  split at h
  · cases h
  · cases h
  · rename_i ha
    obtain ⟨hq, hf, _⟩ := setBody_fresh h (allocateObject_fresh ha).1
    exact hq ▸ hf

theorem newClass_fresh {sz : Sizes} {stress : Bool} {fuel : Nat} {vm vm1 : VM} {name p : Nat}
    (h : newClass sz stress fuel vm name = .ok (vm1, p)) : FreshAt vm1 p := by
  unfold newClass at h
  split at h
  · cases h
  · cases h
  · rename_i ha
    obtain ⟨hq, hf, _⟩ := setBody_fresh h (allocateObject_fresh ha).1
    exact hq ▸ hf

theorem newClosure_fresh {sz : Sizes} {stress : Bool} {fuel : Nat} {vm vm1 : VM}
    {function p : Nat} (h : newClosure sz stress fuel vm function = .ok (vm1, p)) :
    FreshAt vm1 p := by
  unfold newClosure at h
  split at h
  · split at h
    · cases h
    · cases h
    · rename_i ha
      split at h
      · obtain ⟨hq, hf, _⟩ := setBody_fresh h (allocateObject_fresh ha).1
        exact hq ▸ hf
      · cases h
  · cases h

theorem newFunction_fresh {sz : Sizes} {stress : Bool} {fuel : Nat} {vm vm1 : VM} {p : Nat}
    (h : newFunction sz stress fuel vm = .ok (vm1, p)) : FreshAt vm1 p := by
  unfold newFunction at h
  split at h
  · cases h
  · cases h
  · rename_i ha
    obtain ⟨hq, hf, _⟩ := setBody_fresh h (allocateObject_fresh ha).1
    exact hq ▸ hf

theorem newInstance_fresh {sz : Sizes} {stress : Bool} {fuel : Nat} {vm vm1 : VM}
    {klass p : Nat} (h : newInstance sz stress fuel vm klass = .ok (vm1, p)) :
    FreshAt vm1 p := by
  unfold newInstance at h
  split at h
  · cases h
  · cases h
  · rename_i ha
    obtain ⟨hq, hf, _⟩ := setBody_fresh h (allocateObject_fresh ha).1
    exact hq ▸ hf

theorem newNative_fresh {sz : Sizes} {stress : Bool} {fuel : Nat} {vm vm1 : VM}
    {function p : Nat} (h : newNative sz stress fuel vm function = .ok (vm1, p)) :
    FreshAt vm1 p := by
  unfold newNative at h
  split at h
  · cases h
  · cases h
  · rename_i ha
    obtain ⟨hq, hf, _⟩ := setBody_fresh h (allocateObject_fresh ha).1
    exact hq ▸ hf

theorem newUpvalue_fresh {sz : Sizes} {stress : Bool} {fuel : Nat} {vm vm1 : VM}
    {slot p : Nat} (h : newUpvalue sz stress fuel vm slot = .ok (vm1, p)) : FreshAt vm1 p := by
  unfold newUpvalue at h
  split at h
  · cases h
  · cases h
  · rename_i ha
    obtain ⟨hq, hf, _⟩ := setBody_fresh h (allocateObject_fresh ha).1
    exact hq ▸ hf

theorem markRoots_zero (vm : VM) : markRoots 0 vm = none := by
  unfold markRoots
  split
  · rfl
  · split
    · rfl
    · simp [markOpenUpvalues]

theorem collectGarbage_zero (sz : Sizes) (vm : VM) : collectGarbage sz 0 vm = none := by
  simp [collectGarbage, markRoots_zero]

/-- With no fuel for the collector, a call of `reallocate` that returns has run
no collection: when it copies no old block, it leaves the memory alone and
returns `NULL` or the old `next`. -/
theorem reallocate_zero_fuel {sz : Sizes} {stress : Bool} {vm vm1 : VM}
    {pointer oldSize newSize r : Nat}
    (h : reallocate sz stress 0 vm pointer oldSize newSize = .ok (vm1, r))
    (hp : pointer = 0 ∨ newSize = 0) :
    vm1.mem = vm.mem ∧ (r = 0 ∨ r = vm.next) := by
  unfold reallocate at h
  split at h
  · cases h
  · rename_i vmx hx
    have hvmx : vmx.mem = vm.mem ∧ vmx.next = vm.next := by
      split at hx
      · simp only [reallocateCollect, collectGarbage_zero] at hx
        split at hx
        · cases hx
        · rename_i vmy hy
          split at hy
          · cases hy
          · cases hy
            split at hx
            · cases hx
            · cases hx; exact ⟨rfl, rfl⟩
      · cases hx; exact ⟨rfl, rfl⟩
    split at h
    · cases h; exact ⟨hvmx.1, Or.inl rfl⟩
    · rename_i hn0
      split at h
      · cases h
      · cases h
        have hp0 : pointer = 0 := by
          rcases hp with hp | hp
          · exact hp
          · exact absurd hp hn0
        simp only [hp0, ne_eq, not_true_eq_false, if_false]
        exact ⟨hvmx.1, Or.inr hvmx.2⟩

theorem Mem.read_clear_of_lt (m : Mem) {lo hi a : Nat} (h : a < lo ∨ hi ≤ a) :
    (m.clear lo hi).read a = m.read a := by
  simp only [Mem.read, Mem.clear]
  split
  · rfl
  · rw [if_neg (by omega)]

theorem adjustCapacity_strings_mem {sz : Sizes} {stress : Bool} {vm vm3 : VM} {capacity : Int}
    (h : adjustCapacity sz stress 0 vm .strings capacity = .ok vm3) (a : Nat)
    (ha : a < vm.next) : vm3.mem.read a = vm.mem.read a := by
  unfold adjustCapacity ALLOCATE at h
  split at h
  · cases h
  · cases h
  · rename_i vm1 entries hR
    obtain ⟨hmem, hent⟩ := reallocate_zero_fuel hR (Or.inl rfl)
    split at h
    · cases h
    · rename_i hcap
      split at h
      · cases h
      · split at h
        · cases h
        · unfold FREE_ARRAY at h
          split at h
          · cases h
          · cases h
          · rename_i vm2 _ hF
            obtain ⟨hmem2, _⟩ := reallocate_zero_fuel hF (Or.inr rfl)
            simp only [setTable] at h
            cases h
            simp only at hmem2 ⊢
            rw [hmem2, hmem]
            apply Mem.read_clear_of_lt
            rcases hent with h0 | h0
            · right
              have hc : capacity.toNat = 0 := by
                have : ¬ 0 < capacity := fun hpos => hcap ⟨h0, hpos⟩
                omega
              rw [h0, hc]
              omega
            · left
              omega

theorem tableSet_strings_mem {sz : Sizes} {stress : Bool} {vm vm2 : VM} {key : Nat}
    {value : Value} {b : Bool}
    (h : tableSet sz stress 0 vm .strings key value = .ok (vm2, b)) (a : Nat)
    (ha : a < vm.next) : vm2.mem.read a = vm.mem.read a := by
  unfold tableSet at h
  simp only [getTable] at h
  split at h
  · cases h
  · cases h
  · rename_i vm1 hgrow
    have h1 : vm1.mem.read a = vm.mem.read a := by
      split at hgrow
      · exact adjustCapacity_strings_mem hgrow a ha
      · cases hgrow; rfl
    split at h
    · cases h
    · split at h
      · cases h
      · simp only [setTable] at h
        cases h
        exact h1

/-- A string that `allocateString` had to allocate has a null forwarding
address when the call returns, on calls that run no collection. -/
theorem allocateString_fresh {sz : Sizes} {stress : Bool} {vm vm1 : VM} {chars : List Nat}
    {hash p : Nat} (hnew : tableFindString vm.mem vm.strings chars hash = some 0)
    (h : allocateString sz stress 0 vm chars hash = .ok (vm1, p)) : FreshAt vm1 p := by
  unfold allocateString at h
  simp only [hnew, ne_eq, not_true_eq_false, if_false] at h
  split at h
  · cases h
  · cases h
  · rename_i vmA string hA
    obtain ⟨hfA, hltA⟩ := allocateObject_fresh hA
    split at h
    · cases h
    · cases h
    · rename_i vmB q hB
      obtain ⟨_, hfB, hnextB⟩ := setBody_fresh hB hfA
      split at h
      · cases h
      · cases h
      · rename_i vm3 _ hT
        cases h
        obtain ⟨o, ho, hfo⟩ := hfB
        have hkeep := tableSet_strings_mem hT p (by simp only [push]; omega)
        exact ⟨o, by simp only [pop]; rw [hkeep]; exact ho, hfo⟩

/-- C9: on a heap that can be walked, whatever the marks, once the pointers
are rewritten the slide returns and leaves a heap `[heap, new next)` that is
walkable with every forwarding address null; so does `collectGarbage` when it
returns.  And the object returned by `allocateObject`, by each `new*`
constructor, and by `copyString` when it allocates (on a call that runs no
collection) has a null forwarding address. -/
theorem forwarding_cleanliness (sz : Sizes) (hsz : sz.Pos) (vm : VM) (hheap : vm.heap ≠ 0)
    (hwalk : (heapObjects sz (walkFuel vm) vm.next vm.mem vm.heap).isSome = true) :
    (∀ fuel strings1 vmA n vmU,
      tableRemoveWhite vm.mem vm.strings = some strings1 →
      calculateNewLocations sz { vm with strings := strings1 } = some (vmA, n) →
      updatePointers sz fuel vmA = some vmU →
      ∃ vm2, collectAfterMark sz fuel vm = some vm2 ∧ HeapClean sz vm2) ∧
    (∀ fuel vm2, collectGarbage sz fuel vm = some vm2 → HeapClean sz vm2) ∧
    (∀ stress fuel size type vm1 p,
      allocateObject sz stress fuel vm size type = .ok (vm1, p) → FreshAt vm1 p) ∧
    (∀ stress fuel receiver method vm1 p,
      newBoundMethod sz stress fuel vm receiver method = .ok (vm1, p) → FreshAt vm1 p) ∧
    (∀ stress fuel name vm1 p,
      newClass sz stress fuel vm name = .ok (vm1, p) → FreshAt vm1 p) ∧
    (∀ stress fuel function vm1 p,
      newClosure sz stress fuel vm function = .ok (vm1, p) → FreshAt vm1 p) ∧
    (∀ stress fuel vm1 p, newFunction sz stress fuel vm = .ok (vm1, p) → FreshAt vm1 p) ∧
    (∀ stress fuel klass vm1 p,
      newInstance sz stress fuel vm klass = .ok (vm1, p) → FreshAt vm1 p) ∧
    (∀ stress fuel function vm1 p,
      newNative sz stress fuel vm function = .ok (vm1, p) → FreshAt vm1 p) ∧
    (∀ stress fuel slot vm1 p,
      newUpvalue sz stress fuel vm slot = .ok (vm1, p) → FreshAt vm1 p) ∧
    (∀ stress chars vm1 p,
      tableFindString vm.mem vm.strings chars (hashString chars) = some 0 →
      copyString sz stress 0 vm chars = .ok (vm1, p) → FreshAt vm1 p) := by
  obtain ⟨os, hos⟩ := Option.isSome_iff_exists.mp hwalk
  refine ⟨?_, ?_, ?_, ?_, ?_, ?_, ?_, ?_, ?_, ?_, ?_⟩
  · intro fuel strings1 vmA n vmU hT hA hU
    obtain ⟨vm2, h2, _, _, hc⟩ :=
      collectAfterMark_returns sz hsz fuel vm vmA vmU strings1 n os hheap hos hT hA hU
    exact ⟨vm2, h2, hc⟩
  · intro fuel vm2 h
    unfold collectGarbage at h
    split at h
    · cases h
    · rename_i vmR hR
      split at h
      · cases h
      · rename_i vmL hL
        obtain ⟨hh, _, os2, hw2, _⟩ := mark_keeps_walk sz hos hR hL
        exact (collectAfterMark_spec sz hsz fuel vmL vm2 os2 (by rw [hh]; exact hheap) hw2 h).2.2
  · intro stress fuel size type vm1 p h
    exact (allocateObject_fresh h).1
  · intro stress fuel receiver method vm1 p h
    exact newBoundMethod_fresh h
  · intro stress fuel name vm1 p h
    exact newClass_fresh h
  · intro stress fuel function vm1 p h
    exact newClosure_fresh h
  · intro stress fuel vm1 p h
    exact newFunction_fresh h
  · intro stress fuel klass vm1 p h
    exact newInstance_fresh h
  · intro stress fuel function vm1 p h
    exact newNative_fresh h
  · intro stress fuel slot vm1 p h
    exact newUpvalue_fresh h
  · intro stress chars vm1 p hnew h
    exact allocateString_fresh hnew h

theorem forwarding_cleanliness_witness :
    (∃ vm2, collectAfterMark sizes64 1 internedVM = some vm2 ∧ HeapClean sizes64 vm2) ∧
    (∃ vm2, collectGarbage sizes64 1 unrootedVM = some vm2 ∧ HeapClean sizes64 vm2) ∧
    (∃ vm1, newFunction sizes64 false 0 internedVM = .ok (vm1, 4180) ∧ FreshAt vm1 4180) ∧
    (∃ vm1, copyString sizes64 false 0 internedVM [99] = .ok (vm1, 4180) ∧ FreshAt vm1 4180) := by
  refine ⟨?_, ?_, ?_, ?_⟩
  · exact (forwarding_cleanliness sizes64 (by decide) internedVM (by decide) (by decide)).1
      1 _ _ _ _ rfl rfl rfl
  · obtain ⟨vm2, h⟩ := Option.isSome_iff_exists.mp
      (show (collectGarbage sizes64 1 unrootedVM).isSome = true by decide)
    exact ⟨vm2, h,
      (forwarding_cleanliness sizes64 (by decide) unrootedVM (by decide) (by decide)).2.1
        1 vm2 h⟩
  · exact ⟨_, rfl,
      (forwarding_cleanliness sizes64 (by decide) internedVM (by decide)
        (by decide)).2.2.2.2.2.2.1 false 0 _ 4180 rfl⟩
  · exact ⟨_, rfl,
      (forwarding_cleanliness sizes64 (by decide) internedVM (by decide)
        (by decide)).2.2.2.2.2.2.2.2.2.2 false [99] _ 4180 (by decide) rfl⟩

/-! ## Linear probing -/

theorem probe_lt {n : Nat} (hn : 0 < n) (s d : Nat) : probe n s d < n :=
  Nat.mod_lt _ hn

theorem probe_zero {n s : Nat} (hs : s < n) : probe n s 0 = s := by
  simp [probe, Nat.mod_eq_of_lt hs]

theorem probe_succ (n s d : Nat) : probe n s (d + 1) = probe n ((s + 1) % n) d := by
  simp only [probe, Nat.mod_add_mod]
  congr 1
  omega

theorem mask_start {n k : Nat} (hk : n = 2 ^ k) (h : Nat) : h &&& (n - 1) = h % n := by
  subst hk
  exact Nat.and_pow_two_sub_one_eq_mod h k

theorem mask_step {n k : Nat} (hk : n = 2 ^ k) (hk32 : k ≤ 32) (i : Nat) :
    ((i + 1) % 4294967296) &&& (n - 1) = (i + 1) % n := by
  subst hk
  rw [Nat.and_pow_two_sub_one_eq_mod]
  have h32 : (4294967296 : Nat) = 2 ^ 32 := by norm_num
  rw [h32]
  exact Nat.mod_mod_of_dvd _ (pow_dvd_pow 2 hk32)

theorem maskU32_cap {n : Nat} (h1 : 1 ≤ n) (h32 : n ≤ 4294967296) :
    maskU32 ((n : Int) - 1) = n - 1 := by
  unfold maskU32
  omega

/-- The probe of `findEntry`: when the slots at the first `d` steps are
neither empty nor the key, and the slot at step `d` is empty or holds the key,
the loop returns; it returns the slot of the key, or else the tombstone it
remembered, or else a slot with a null key that it reached within `d`
steps. -/
theorem findEntryLoop_spec (E : List Entry) (key n k : Nat)
    (hk : n = 2 ^ k) (hk32 : k ≤ 32) (hkey : key ≠ 0) :
    ∀ (d fuel i : Nat) (T : Option Nat), d < fuel → i < n →
      (∀ d1, d1 < d → ∃ e, E[probe n i d1]? = some e ∧ e.isEmpty = false ∧ e.key ≠ key) →
      (∃ e, E[probe n i d]? = some e ∧ (e.isEmpty = true ∨ e.key = key)) →
      ∃ r, findEntryLoop E (n - 1) key fuel i T = some r ∧
        ((∃ e, E[probe n i d]? = some e ∧ e.key = key ∧ r = probe n i d) ∨
         (∃ e, E[probe n i d]? = some e ∧ e.isEmpty = true ∧
            ((∃ t, T = some t ∧ r = t) ∨
             (T = none ∧ ∃ d1, d1 ≤ d ∧ r = probe n i d1 ∧
                ∃ e1, E[r]? = some e1 ∧ e1.key = 0 ∧
                  ∀ d2, d2 < d1 → ∃ e2, E[probe n i d2]? = some e2 ∧ e2.key ≠ 0)))) := by
  intro d
  induction d with
  | zero =>
    intro fuel i T hf hi _ hstop
    obtain ⟨e, he, hs⟩ := hstop
    rw [probe_zero hi] at he ⊢
    cases fuel with
    | zero => omega
    | succ f =>
      simp only [findEntryLoop, he]
      rcases hs with hs | hs
      · simp only [Entry.isEmpty, Bool.and_eq_true, decide_eq_true_eq] at hs
        simp only [hs.1, hs.2, if_true]
        refine ⟨_, rfl, Or.inr ⟨e, rfl, ?_, ?_⟩⟩
        · simp [Entry.isEmpty, hs.1, hs.2]
        · cases T with
          | some t => exact Or.inl ⟨t, rfl, rfl⟩
          | none =>
            exact Or.inr ⟨rfl, 0, Nat.le_refl _, by rw [probe_zero hi], e, he, hs.1,
              fun d2 hd2 => absurd hd2 (Nat.not_lt_zero _)⟩
      · have hk0 : ¬ e.key = 0 := by rw [hs]; exact hkey
        rw [if_neg hk0, if_pos hs]
        exact ⟨_, rfl, Or.inl ⟨e, rfl, hs, rfl⟩⟩
  | succ d ih =>
    intro fuel i T hf hi hpass hstop
    have hn0 : 0 < n := by omega
    obtain ⟨e, he, hne, hnk⟩ := hpass 0 (by omega)
    rw [probe_zero hi] at he
    cases fuel with
    | zero => omega
    | succ f =>
      have hi1 : (i + 1) % n < n := Nat.mod_lt _ hn0
      have hpass1 : ∀ d1, d1 < d →
          ∃ e, E[probe n ((i + 1) % n) d1]? = some e ∧ e.isEmpty = false ∧ e.key ≠ key := by
        intro d1 hd1
        have := hpass (d1 + 1) (by omega)
        rwa [probe_succ] at this
      have hstop1 : ∃ e, E[probe n ((i + 1) % n) d]? = some e ∧
          (e.isEmpty = true ∨ e.key = key) := by
        rwa [probe_succ] at hstop
      simp only [findEntryLoop, he, mask_step hk hk32 i]
      have hlift : ∀ (T1 : Option Nat) (r : Nat),
          ((∃ e, E[probe n ((i + 1) % n) d]? = some e ∧ e.key = key ∧
              r = probe n ((i + 1) % n) d) ∨
           (∃ e, E[probe n ((i + 1) % n) d]? = some e ∧ e.isEmpty = true ∧
              ((∃ t, T1 = some t ∧ r = t) ∨
               (T1 = none ∧ ∃ d1, d1 ≤ d ∧ r = probe n ((i + 1) % n) d1 ∧
                  ∃ e1, E[r]? = some e1 ∧ e1.key = 0 ∧
                    ∀ d2, d2 < d1 →
                      ∃ e2, E[probe n ((i + 1) % n) d2]? = some e2 ∧ e2.key ≠ 0)))) →
          ((T1 = T ∧ (T = none → e.key ≠ 0)) ∨ (T = none ∧ T1 = some i ∧ e.key = 0)) →
          ((∃ e, E[probe n i (d + 1)]? = some e ∧ e.key = key ∧ r = probe n i (d + 1)) ∨
           (∃ e, E[probe n i (d + 1)]? = some e ∧ e.isEmpty = true ∧
              ((∃ t, T = some t ∧ r = t) ∨
               (T = none ∧ ∃ d1, d1 ≤ d + 1 ∧ r = probe n i d1 ∧
                  ∃ e1, E[r]? = some e1 ∧ e1.key = 0 ∧
                    ∀ d2, d2 < d1 → ∃ e2, E[probe n i d2]? = some e2 ∧ e2.key ≠ 0)))) := by
        intro T1 r hr hT
        rw [probe_succ]
        rcases hr with hr | ⟨e2, he2, hemp, hr⟩
        · exact Or.inl hr
        · refine Or.inr ⟨e2, he2, hemp, ?_⟩
          rcases hT with ⟨hT, hnz⟩ | ⟨hTn, hT1, hk0⟩
          · subst hT
            rcases hr with hr | ⟨hTn, d1, hd1, hr1, e1, he1, hk1, hfirst⟩
            · exact Or.inl hr
            · refine Or.inr ⟨hTn, d1 + 1, by omega, by rw [probe_succ]; exact hr1, e1, he1, hk1,
                ?_⟩
              intro d2 hd2
              cases d2 with
              | zero => exact ⟨e, by rw [probe_zero hi]; exact he, hnz hTn⟩
              | succ d3 =>
                rw [probe_succ]
                exact hfirst d3 (by omega)
          · rcases hr with ⟨t, ht, hrt⟩ | ⟨hT1n, _⟩
            · rw [hT1] at ht
              cases ht
              exact Or.inr ⟨hTn, 0, by omega, by rw [probe_zero hi]; exact hrt,
                e, by rw [hrt]; exact he, hk0, fun d2 hd2 => absurd hd2 (Nat.not_lt_zero _)⟩
            · rw [hT1] at hT1n
              cases hT1n
      by_cases hk0 : e.key = 0
      · have hnil : e.value.isNil = false := by
          simpa [Entry.isEmpty, hk0] using hne
        simp only [hk0, if_true, hnil]
        cases T with
        | some t =>
          obtain ⟨r, hr, hcase⟩ := ih f ((i + 1) % n) (some t) (by omega) hi1 hpass1 hstop1
          exact ⟨r, by simpa using hr,
            hlift (some t) r hcase (Or.inl ⟨rfl, fun hx => by cases hx⟩)⟩
        | none =>
          obtain ⟨r, hr, hcase⟩ := ih f ((i + 1) % n) (some i) (by omega) hi1 hpass1 hstop1
          exact ⟨r, by simpa using hr, hlift (some i) r hcase (Or.inr ⟨rfl, rfl, hk0⟩)⟩
      · simp only [hk0, if_false, hnk]
        obtain ⟨r, hr, hcase⟩ := ih f ((i + 1) % n) T (by omega) hi1 hpass1 hstop1
        exact ⟨r, hr, hlift T r hcase (Or.inl ⟨rfl, fun _ => hk0⟩)⟩

theorem probe_reaches {n s i : Nat} (hs : s < n) (hi : i < n) :
    ∃ d, d < n ∧ probe n s d = i := by
  by_cases h : s ≤ i
  · refine ⟨i - s, by omega, ?_⟩
    simp only [probe]
    rw [Nat.add_sub_cancel' h]
    exact Nat.mod_eq_of_lt hi
  · refine ⟨n - s + i, by omega, ?_⟩
    simp only [probe]
    have : s + (n - s + i) = n + i := by omega
    rw [this, Nat.add_mod_left]
    exact Nat.mod_eq_of_lt hi

theorem probe_inj {n s d1 d2 : Nat} (hs : s < n) (h1 : d1 < n) (h2 : d2 < n)
    (h : probe n s d1 = probe n s d2) : d1 = d2 := by
  simp only [probe] at h
  have e1 : (s + d1) % n = if s + d1 < n then s + d1 else s + d1 - n := by
    split
    · rename_i hlt; exact Nat.mod_eq_of_lt hlt
    · rename_i hge
      rw [Nat.mod_eq_sub_mod (by omega)]
      exact Nat.mod_eq_of_lt (by omega)
  have e2 : (s + d2) % n = if s + d2 < n then s + d2 else s + d2 - n := by
    split
    · rename_i hlt; exact Nat.mod_eq_of_lt hlt
    · rename_i hge
      rw [Nat.mod_eq_sub_mod (by omega)]
      exact Nat.mod_eq_of_lt (by omega)
  rw [e1, e2] at h
  split at h <;> split at h <;> omega

theorem exists_isEmpty_of_countP_lt (E : List Entry)
    (h : E.countP (fun e => !e.isEmpty) < E.length) :
    ∃ (i : Nat) (e : Entry), E[i]? = some e ∧ e.isEmpty = true := by
  by_contra hno
  have hall : ∀ a ∈ E, (fun e : Entry => !e.isEmpty) a = true := by
    intro a ha
    obtain ⟨i, hi, hget⟩ := List.getElem_of_mem ha
    cases hemp : a.isEmpty with
    | false => simp [hemp]
    | true =>
      exact absurd ⟨i, a, by rw [List.getElem?_eq_getElem hi, hget], hemp⟩ hno
  have := List.countP_eq_length.mpr hall
  omega

/-- In a table that is not full, every probe meets an empty slot, after slots
that are not empty. -/
theorem exists_first_stop (E : List Entry) (key n s : Nat) (hn : E.length = n) (hs : s < n)
    (h : E.countP (fun e => !e.isEmpty) < E.length) :
    ∃ d, d < n ∧
      (∃ e, E[probe n s d]? = some e ∧ (e.isEmpty = true ∨ e.key = key)) ∧
      ∀ d1, d1 < d → ∃ e, E[probe n s d1]? = some e ∧ e.isEmpty = false ∧ e.key ≠ key := by
  classical
  obtain ⟨i, e, hi, he⟩ := exists_isEmpty_of_countP_lt E h
  have hilt : i < n := by
    rw [← hn]
    exact (List.getElem?_eq_some_iff.mp hi).1
  obtain ⟨d0, hd0, hp0⟩ := probe_reaches hs hilt
  have hex : ∃ d, ∃ e, E[probe n s d]? = some e ∧ (e.isEmpty = true ∨ e.key = key) :=
    ⟨d0, e, by rw [hp0]; exact hi, Or.inl he⟩
  refine ⟨Nat.find hex, ?_, Nat.find_spec hex, ?_⟩
  · exact Nat.lt_of_le_of_lt (Nat.find_min' hex ⟨e, by rw [hp0]; exact hi, Or.inl he⟩) hd0
  · intro d1 hd1
    have hmin := Nat.find_min hex hd1
    have hlt : probe n s d1 < E.length := by rw [hn]; exact probe_lt (by omega) s d1
    refine ⟨E[probe n s d1], List.getElem?_eq_getElem hlt, ?_, ?_⟩
    · cases hemp : (E[probe n s d1]).isEmpty with
      | false => rfl
      | true => exact absurd ⟨_, List.getElem?_eq_getElem hlt, Or.inl hemp⟩ hmin
    · intro hk
      exact hmin ⟨_, List.getElem?_eq_getElem hlt, Or.inr hk⟩

/-! ## Lookups in a well-formed table -/

theorem hashAt_ne_zero {m : Mem} {key h : Nat} (hh : hashAt m key = some h) : key ≠ 0 := by
  intro h0
  simp [hashAt, Mem.read, h0] at hh

theorem findEntry_eq (m : Mem) (E : List Entry) (capacityMask : Int) (key : Nat) :
    findEntry m E capacityMask key =
      match hashAt m key with
      | some h =>
        findEntryLoop E (maskU32 capacityMask) key (2 * E.length + 2)
          (h &&& maskU32 capacityMask) none
      | none => none := by
  unfold findEntry hashAt
  split <;> simp_all

theorem TableWF.pow2 {H : Nat → Option Nat} {t : Table} (hwf : TableWF H t)
    (hn : 0 < t.entries.length) : ∃ k, 3 ≤ k ∧ k ≤ 32 ∧ t.entries.length = 2 ^ k := by
  rcases hwf.cap with h0 | ⟨k, hk3, hk30, hk⟩
  · omega
  · exact ⟨k, hk3, by omega, hk⟩

theorem TableWF.not_full {H : Nat → Option Nat} {t : Table} (hwf : TableWF H t)
    (hn : 0 < t.entries.length) :
    t.entries.countP (fun e => !e.isEmpty) < t.entries.length := by
  have h1 := hwf.count_eq
  have h2 := hwf.load
  omega

theorem TableWF.mask {H : Nat → Option Nat} {t : Table} (hwf : TableWF H t)
    (hn : 0 < t.entries.length) : maskU32 t.capacityMask = t.entries.length - 1 := by
  obtain ⟨k, _, hk32, hk⟩ := hwf.pow2 hn
  have hle : t.entries.length ≤ 4294967296 := by
    rw [hk]
    calc 2 ^ k ≤ 2 ^ 32 := Nat.pow_le_pow_right (by norm_num) hk32
      _ = 4294967296 := by norm_num
  exact maskU32_cap hn hle

/-- The probe for a key on a well-formed table with slots starts at the hash
of the key modulo the capacity. -/
theorem findEntry_wf {m : Mem} {t : Table} {key h : Nat} (hwf : TableWF (hashAt m) t)
    (hn : 0 < t.entries.length) (hh : hashAt m key = some h) :
    findEntry m t.entries t.capacityMask key =
      findEntryLoop t.entries (t.entries.length - 1) key (2 * t.entries.length + 2)
        (h % t.entries.length) none := by
  obtain ⟨k, _, _, hk⟩ := hwf.pow2 hn
  rw [findEntry_eq, hh, hwf.mask hn]
  simp only
  rw [mask_start hk]

theorem findEntry_present {m : Mem} {t : Table} {key p : Nat} {e : Entry}
    (hwf : TableWF (hashAt m) t) (hp : t.entries[p]? = some e) (hk : e.key = key)
    (hkey : key ≠ 0) : findEntry m t.entries t.capacityMask key = some p := by
  have hplt : p < t.entries.length := (List.getElem?_eq_some_iff.mp hp).1
  have hn : 0 < t.entries.length := by omega
  obtain ⟨k, _, hk32, hkn⟩ := hwf.pow2 hn
  obtain ⟨h, d, hh, hd, hpd, hpath⟩ := hwf.reach p e hp (by rw [hk]; exact hkey)
  rw [hk] at hh
  rw [findEntry_wf hwf hn hh]
  have hs : h % t.entries.length < t.entries.length := Nat.mod_lt _ hn
  obtain ⟨r, hr, hcase⟩ := findEntryLoop_spec t.entries key t.entries.length k hkn hk32 hkey d
    (2 * t.entries.length + 2) (h % t.entries.length) none (by omega) hs
    (by
      intro d1 hd1
      obtain ⟨e1, he1, hne1⟩ := hpath d1 hd1
      refine ⟨e1, he1, hne1, ?_⟩
      intro hk1
      have := hwf.distinct _ _ e1 e he1 hp (by rw [hk1]; exact hkey) (by rw [hk1, hk])
      rw [hpd] at this
      have := probe_inj hs (by omega) hd this
      omega)
    ⟨e, by rw [← hpd]; exact hp, Or.inr hk⟩
  rw [hr]
  rcases hcase with ⟨_, _, _, hrp⟩ | ⟨e2, he2, hemp, _⟩
  · rw [hrp, ← hpd]
  · rw [← hpd, hp] at he2
    cases he2
    simp [Entry.isEmpty, hk, hkey] at hemp

theorem findEntry_absent {m : Mem} {t : Table} {key h : Nat} (hwf : TableWF (hashAt m) t)
    (hn : 0 < t.entries.length) (hh : hashAt m key = some h)
    (habs : ∀ (i : Nat) (e : Entry), t.entries[i]? = some e → e.key ≠ key) :
    ∃ r e d, findEntry m t.entries t.capacityMask key = some r ∧
      t.entries[r]? = some e ∧ e.key = 0 ∧ d < t.entries.length ∧
      r = probe t.entries.length (h % t.entries.length) d ∧
      ∀ d1, d1 < d →
        ∃ e1, t.entries[probe t.entries.length (h % t.entries.length) d1]? = some e1 ∧
          e1.isEmpty = false ∧ e1.key ≠ 0 := by
  have hkey := hashAt_ne_zero hh
  obtain ⟨k, _, hk32, hkn⟩ := hwf.pow2 hn
  have hs : h % t.entries.length < t.entries.length := Nat.mod_lt _ hn
  obtain ⟨d, hd, hstop, hpass⟩ :=
    exists_first_stop t.entries key t.entries.length (h % t.entries.length) rfl hs
      (hwf.not_full hn)
  rw [findEntry_wf hwf hn hh]
  obtain ⟨r, hr, hcase⟩ := findEntryLoop_spec t.entries key t.entries.length k hkn hk32 hkey d
    (2 * t.entries.length + 2) (h % t.entries.length) none (by omega) hs hpass hstop
  rcases hcase with ⟨e1, he1, hk1, _⟩ | ⟨e2, he2, hemp, hT⟩
  · exact absurd hk1 (habs _ e1 he1)
  · rcases hT with ⟨t1, ht1, _⟩ | ⟨_, d1, hd1, hrd, e3, he3, hk3, hfirst⟩
    · cases ht1
    · refine ⟨r, e3, d1, hr, he3, hk3, by omega, hrd, ?_⟩
      intro d2 hd2
      obtain ⟨e4, he4, hne4, _⟩ := hpass d2 (by omega)
      obtain ⟨e5, he5, hk5⟩ := hfirst d2 hd2
      rw [he4] at he5
      cases he5
      exact ⟨e4, he4, hne4, hk5⟩

theorem lookup_of_slot {H : Nat → Option Nat} {t : Table} {key p : Nat} {e : Entry}
    (hwf : TableWF H t) (hp : t.entries[p]? = some e) (hk : e.key = key) (hkey : key ≠ 0) :
    t.lookup key = some e.value := by
  unfold Table.lookup
  cases hf : t.entries.find? (fun e => decide (e.key = key)) with
  | none =>
    have := List.find?_eq_none.mp hf e (List.getElem?_mem hp)
    simp [hk] at this
  | some e1 =>
    have hk1 : e1.key = key := by simpa using List.find?_some hf
    obtain ⟨j, hj, hget⟩ := List.getElem_of_mem (List.mem_of_find?_eq_some hf)
    have hj1 : t.entries[j]? = some e1 := by rw [List.getElem?_eq_getElem hj, hget]
    have := hwf.distinct j p e1 e hj1 hp (by rw [hk1]; exact hkey) (by rw [hk1, hk])
    subst this
    rw [hp] at hj1
    cases hj1
    rfl

theorem lookup_of_absent {t : Table} {key : Nat}
    (habs : ∀ (i : Nat) (e : Entry), t.entries[i]? = some e → e.key ≠ key) :
    t.lookup key = none := by
  unfold Table.lookup
  cases hf : t.entries.find? (fun e => decide (e.key = key)) with
  | none => rfl
  | some e1 =>
    have hk1 : e1.key = key := by simpa using List.find?_some hf
    obtain ⟨j, hj, hget⟩ := List.getElem_of_mem (List.mem_of_find?_eq_some hf)
    exact absurd hk1 (habs j e1 (by rw [List.getElem?_eq_getElem hj, hget]))

theorem lookup_some_iff {H : Nat → Option Nat} {t : Table} {key : Nat} {v : Value}
    (hwf : TableWF H t) (hkey : key ≠ 0) :
    t.lookup key = some v ↔
      ∃ (p : Nat) (e : Entry), t.entries[p]? = some e ∧ e.key = key ∧ e.value = v := by
  constructor
  · intro h
    by_cases hex : ∃ (p : Nat) (e : Entry), t.entries[p]? = some e ∧ e.key = key
    · obtain ⟨p, e, hp, hk⟩ := hex
      rw [lookup_of_slot hwf hp hk hkey] at h
      exact ⟨p, e, hp, hk, Option.some.inj h⟩
    · rw [lookup_of_absent (fun i e hi hk => hex ⟨i, e, hi, hk⟩)] at h
      cases h
  · rintro ⟨p, e, hp, hk, hv⟩
    rw [lookup_of_slot hwf hp hk hkey, hv]

/-- On a well-formed table `tableGet` returns, and its result is the value
that the table maps the key to. -/
theorem tableGet_eq_lookup {m : Mem} {t : Table} {key h : Nat} (hwf : TableWF (hashAt m) t)
    (hh : hashAt m key = some h) : tableGet m t key = some (t.lookup key) := by
  have hkey := hashAt_ne_zero hh
  unfold tableGet
  by_cases hc : t.count = 0
  · rw [if_pos hc]
    have hcount := hwf.count_eq
    rw [hc] at hcount
    have hzero : t.entries.countP (fun e => !e.isEmpty) = 0 := by omega
    rw [lookup_of_absent]
    intro i e hi hk
    have := List.countP_eq_zero.mp hzero e (List.getElem?_mem hi)
    simp [Entry.isEmpty, hk, hkey] at this
  · rw [if_neg hc]
    have hn : 0 < t.entries.length := by
      have hcount := hwf.count_eq
      have := List.countP_le_length (fun e : Entry => !e.isEmpty) (l := t.entries)
      omega
    by_cases hex : ∃ (p : Nat) (e : Entry), t.entries[p]? = some e ∧ e.key = key
    · obtain ⟨p, e, hp, hk⟩ := hex
      rw [findEntry_present hwf hp hk hkey]
      simp only [hp]
      rw [if_neg (by rw [hk]; exact hkey), lookup_of_slot hwf hp hk hkey]
    · have habs : ∀ (i : Nat) (e : Entry), t.entries[i]? = some e → e.key ≠ key :=
        fun i e hi hk => hex ⟨i, e, hi, hk⟩
      obtain ⟨r, e, d, hr, her, hk0, _⟩ := findEntry_absent hwf hn hh habs
      rw [hr]
      simp only [her, hk0, if_true]
      rw [lookup_of_absent habs]

/-! ## Writing a slot of a well-formed table -/

theorem getElem?_set_slot (E : List Entry) (p j : Nat) (new : Entry) (hp : p < E.length) :
    (E.set p new)[j]? = if j = p then some new else E[j]? := by
  rw [List.getElem?_set]
  by_cases h : p = j
  · subst h; simp [hp]
  · have h1 : ¬ j = p := fun hh => h hh.symm
    simp [h, h1]

theorem nonEmpty_set_slot {E : List Entry} {p q : Nat} {new e1 : Entry} (hp : p < E.length)
    (hne : new.isEmpty = false) (hq : E[q]? = some e1) (he1 : e1.isEmpty = false) :
    ∃ e2, (E.set p new)[q]? = some e2 ∧ e2.isEmpty = false := by
  rw [getElem?_set_slot E p q new hp]
  by_cases h : q = p
  · exact ⟨new, by simp [h], hne⟩
  · exact ⟨e1, by simp [h, hq], he1⟩

theorem countP_set_slot {E : List Entry} {p : Nat} {old new : Entry} (hp : E[p]? = some old)
    (hne : new.isEmpty = false) :
    (E.set p new).countP (fun e => !e.isEmpty) =
      E.countP (fun e => !e.isEmpty) + (if old.isEmpty = true then 1 else 0) := by
  obtain ⟨hlt, hget⟩ := List.getElem?_eq_some_iff.mp hp
  rw [List.countP_set _ _ _ _ hlt, hget]
  simp only [hne, Bool.not_false, if_true]
  cases hold : old.isEmpty with
  | true => simp
  | false =>
    have hpos : 0 < E.countP (fun e => !e.isEmpty) :=
      List.countP_pos_iff.mpr ⟨old, List.getElem?_mem hp, by simp [hold]⟩
    simp
    omega

/-- Writing an entry that is not empty into a slot keeps a table well formed,
when `count` goes up by one if the slot was empty, the load stays at most
0.75, and the key written (if any) is in no other slot and is reached by its
probe. -/
theorem TableWF.set_slot {H : Nat → Option Nat} {t : Table} {p : Nat} {old new : Entry}
    {count1 : Int} (hwf : TableWF H t) (hp : t.entries[p]? = some old)
    (hne : new.isEmpty = false)
    (hcount : count1 = t.count + (if old.isEmpty = true then 1 else 0))
    (hload : 4 * count1 ≤ 3 * (t.entries.length : Int))
    (hfresh : new.key ≠ 0 → ∀ (j : Nat) (ej : Entry), j ≠ p → t.entries[j]? = some ej →
      ej.key ≠ new.key)
    (hreach : new.key ≠ 0 → ∃ h d, H new.key = some h ∧ d < t.entries.length ∧
      p = probe t.entries.length (h % t.entries.length) d ∧
      ∀ d1, d1 < d →
        ∃ e1, t.entries[probe t.entries.length (h % t.entries.length) d1]? = some e1 ∧
          e1.isEmpty = false) :
    TableWF H { count := count1, entries := t.entries.set p new } := by
  have hplt : p < t.entries.length := (List.getElem?_eq_some_iff.mp hp).1
  refine ⟨?_, ?_, ?_, ?_, ?_⟩
  · simpa using hwf.cap
  · simp only
    rw [countP_set_slot hp hne, hcount, hwf.count_eq]
    split <;> simp
  · simpa using hload
  · intro i j ei ej hi hj hki hkij
    simp only [getElem?_set_slot _ _ _ _ hplt] at hi hj
    by_cases hip : i = p
    · by_cases hjp : j = p
      · rw [hip, hjp]
      · simp only [hip, if_true, Option.some.injEq] at hi
        simp only [hjp, if_false] at hj
        subst hi
        exact absurd hkij.symm (hfresh hki j ej hjp hj)
    · by_cases hjp : j = p
      · simp only [hjp, if_true, Option.some.injEq] at hj
        simp only [hip, if_false] at hi
        subst hj
        exact absurd hkij (hfresh (by rw [← hkij]; exact hki) i ei hip hi)
      · simp only [hip, if_false] at hi
        simp only [hjp, if_false] at hj
        exact hwf.distinct i j ei ej hi hj hki hkij
  · intro i e hi hk
    simp only [getElem?_set_slot _ _ _ _ hplt] at hi
    simp only [List.length_set]
    by_cases hip : i = p
    · simp only [hip, if_true, Option.some.injEq] at hi
      subst hi
      obtain ⟨h, d, hh, hd, hpd, hpath⟩ := hreach hk
      refine ⟨h, d, hh, hd, by rw [hip]; exact hpd, ?_⟩
      intro d1 hd1
      obtain ⟨e1, he1, hne1⟩ := hpath d1 hd1
      exact nonEmpty_set_slot hplt hne he1 hne1
    · simp only [hip, if_false] at hi
      obtain ⟨h, d, hh, hd, hpd, hpath⟩ := hwf.reach i e hi hk
      refine ⟨h, d, hh, hd, hpd, ?_⟩
      intro d1 hd1
      obtain ⟨e1, he1, hne1⟩ := hpath d1 hd1
      exact nonEmpty_set_slot hplt hne he1 hne1

/-- The map of a table after a slot is written: the key written maps to the
value written, the key that was in the slot maps to nothing, and every other
key maps to what it did. -/
theorem lookup_set_slot {H : Nat → Option Nat} {t : Table} {p : Nat} {old new : Entry}
    {count1 : Int} (hwf : TableWF H t)
    (hwf1 : TableWF H { count := count1, entries := t.entries.set p new })
    (hp : t.entries[p]? = some old) (key : Nat) (hkey : key ≠ 0) :
    Table.lookup { count := count1, entries := t.entries.set p new } key =
      if new.key = key then some new.value
      else if old.key = key then none
      else t.lookup key := by
  have hplt : p < t.entries.length := (List.getElem?_eq_some_iff.mp hp).1
  have hnew : (t.entries.set p new)[p]? = some new := by
    simp [getElem?_set_slot _ _ _ _ hplt]
  by_cases hnk : new.key = key
  · rw [if_pos hnk]
    exact lookup_of_slot hwf1 hnew hnk hkey
  · rw [if_neg hnk]
    by_cases hok : old.key = key
    · rw [if_pos hok]
      apply lookup_of_absent
      intro i e hi hk
      simp only [getElem?_set_slot _ _ _ _ hplt] at hi
      by_cases hip : i = p
      · simp only [hip, if_true, Option.some.injEq] at hi
        subst hi
        exact hnk hk
      · simp only [hip, if_false] at hi
        exact hip (hwf.distinct i p e old hi hp (by rw [hk]; exact hkey) (by rw [hk, hok]))
    · rw [if_neg hok]
      cases hl : t.lookup key with
      | none =>
        apply lookup_of_absent
        intro i e hi hk
        simp only [getElem?_set_slot _ _ _ _ hplt] at hi
        by_cases hip : i = p
        · simp only [hip, if_true, Option.some.injEq] at hi
          subst hi
          exact hnk hk
        · simp only [hip, if_false] at hi
          rw [lookup_of_slot hwf hi hk hkey] at hl
          cases hl
      | some v =>
        obtain ⟨q, e, hq, hk, hv⟩ := (lookup_some_iff hwf hkey).mp hl
        have hqp : q ≠ p := by
          intro hqp
          rw [hqp, hp] at hq
          cases hq
          exact hok hk
        have hq1 : (t.entries.set p new)[q]? = some e := by
          rw [getElem?_set_slot _ _ _ _ hplt, if_neg hqp]
          exact hq
        rw [← hv]
        exact lookup_of_slot hwf1 hq1 hk hkey

/-! ## `tableDelete` and the insertion of `tableSet` on a well-formed table -/

theorem lookup_none_of_count_zero {H : Nat → Option Nat} {t : Table} (hwf : TableWF H t)
    (hc : t.count = 0) (key : Nat) (hkey : key ≠ 0) : t.lookup key = none := by
  have hcount := hwf.count_eq
  rw [hc] at hcount
  have hzero : t.entries.countP (fun e => !e.isEmpty) = 0 := by omega
  apply lookup_of_absent
  intro i e hi hk
  have := List.countP_eq_zero.mp hzero e (List.getElem?_mem hi)
  simp [Entry.isEmpty, hk, hkey] at this

theorem length_pos_of_count {H : Nat → Option Nat} {t : Table} (hwf : TableWF H t)
    (hc : ¬ t.count = 0) : 0 < t.entries.length := by
  have hcount := hwf.count_eq
  have := List.countP_le_length (fun e : Entry => !e.isEmpty) (l := t.entries)
  omega

/-- On a well-formed table `tableDelete` returns; it returns `false` and the
table itself when the key maps to nothing, and else `true` and the table with
the slot of the key turned into a tombstone, which is well formed and maps the
key to nothing and every other key to what it did. -/
theorem tableDelete_spec {m : Mem} {t : Table} {key h : Nat} (hwf : TableWF (hashAt m) t)
    (hh : hashAt m key = some h) :
    ∃ t1 b, tableDelete m t key = some (t1, b) ∧ TableWF (hashAt m) t1 ∧
      (b = false ↔ t.lookup key = none) ∧ (b = false → t1 = t) ∧
      (b = true → ∃ (p : Nat) (e : Entry), t.entries[p]? = some e ∧ e.key = key ∧
        t1 = { count := t.count,
               entries := t.entries.set p { key := 0, value := .bool true } }) ∧
      (∀ k, k ≠ 0 → t1.lookup k = if k = key then none else t.lookup k) := by
  have hkey := hashAt_ne_zero hh
  unfold tableDelete
  by_cases hc : t.count = 0
  · rw [if_pos hc]
    have hnone := lookup_none_of_count_zero hwf hc key hkey
    refine ⟨t, false, rfl, hwf, by simp [hnone], fun _ => rfl, by simp, ?_⟩
    intro k _
    split
    · rename_i hk; rw [hk, hnone]
    · rfl
  · rw [if_neg hc]
    have hn := length_pos_of_count hwf hc
    by_cases hex : ∃ (p : Nat) (e : Entry), t.entries[p]? = some e ∧ e.key = key
    · obtain ⟨p, e, hp, hk⟩ := hex
      have hek : ¬ e.key = 0 := by rw [hk]; exact hkey
      have hold : e.isEmpty = false := by simp [Entry.isEmpty, hek]
      have hwf1 : TableWF (hashAt m)
          { count := t.count, entries := t.entries.set p { key := 0, value := .bool true } } :=
        hwf.set_slot hp (by simp [Entry.isEmpty, Value.isNil]) (by simp [hold]) hwf.load
          (fun h0 => absurd rfl h0) (fun h0 => absurd rfl h0)
      rw [findEntry_present hwf hp hk hkey]
      simp only [hp, if_neg hek]
      refine ⟨_, true, rfl, hwf1, ?_, by simp, fun _ => ⟨p, e, hp, hk, rfl⟩, ?_⟩
      · simp [lookup_of_slot hwf hp hk hkey]
      · intro k hk0
        rw [lookup_set_slot hwf hwf1 hp k hk0]
        simp only
        rw [if_neg (fun h0 : 0 = k => hk0 h0.symm)]
        by_cases hkk : k = key
        · rw [if_pos (by rw [hk, hkk]), if_pos hkk]
        · rw [if_neg (by rw [hk]; exact fun h0 => hkk h0.symm), if_neg hkk]
    · have habs : ∀ (i : Nat) (e : Entry), t.entries[i]? = some e → e.key ≠ key :=
        fun i e hi hk => hex ⟨i, e, hi, hk⟩
      have hnone := lookup_of_absent habs
      obtain ⟨r, e, d, hr, her, hk0, _⟩ := findEntry_absent hwf hn hh habs
      rw [hr]
      simp only [her, hk0, if_true]
      refine ⟨t, false, rfl, hwf, by simp [hnone], fun _ => rfl, by simp, ?_⟩
      intro k _
      split
      · rename_i hk; rw [hk, hnone]
      · rfl

/-- On a well-formed table with room for one more entry, the insertion of
`tableSet` returns a well-formed table of the same capacity that maps the key
to the value and every other key to what it did; `isNewKey` tells whether the
key mapped to nothing. -/
theorem tableInsert_spec {m : Mem} {t : Table} {key h : Nat} (value : Value)
    (hwf : TableWF (hashAt m) t) (hh : hashAt m key = some h)
    (hroom : 4 * (t.count + 1) ≤ 3 * (t.entries.length : Int)) :
    ∃ t1 b, tableInsert m t key value = some (t1, b) ∧ TableWF (hashAt m) t1 ∧
      (b = true ↔ t.lookup key = none) ∧
      t1.entries.length = t.entries.length ∧
      (∀ k, k ≠ 0 → t1.lookup k = if k = key then some value else t.lookup k) := by
  have hkey := hashAt_ne_zero hh
  have hn : 0 < t.entries.length := by
    have h1 := hwf.count_eq
    omega
  unfold tableInsert
  by_cases hex : ∃ (p : Nat) (e : Entry), t.entries[p]? = some e ∧ e.key = key
  · obtain ⟨p, e, hp, hk⟩ := hex
    have hek : ¬ e.key = 0 := by rw [hk]; exact hkey
    have hold : e.isEmpty = false := by simp [Entry.isEmpty, hek]
    have hwf1 : TableWF (hashAt m)
        { count := t.count, entries := t.entries.set p { key := key, value := value } } :=
      hwf.set_slot hp (by simp [Entry.isEmpty, hkey]) (by simp [hold]) hwf.load
        (fun _ j ej hj hej hkj =>
          hj (hwf.distinct j p ej e hej hp (by rw [hkj]; exact hkey) (by rw [hkj, hk])))
        (fun _ => by
          obtain ⟨h1, d, hh1, hd, hpd, hpath⟩ := hwf.reach p e hp hek
          rw [hk] at hh1
          exact ⟨h1, d, hh1, hd, hpd, hpath⟩)
    rw [findEntry_present hwf hp hk hkey]
    simp only [hp, hek, false_and, if_false]
    refine ⟨_, false, by simp, hwf1, by simp [lookup_of_slot hwf hp hk hkey], by simp, ?_⟩
    intro k hk0
    rw [lookup_set_slot hwf hwf1 hp k hk0]
    simp only
    by_cases hkk : k = key
    · rw [if_pos hkk.symm, if_pos hkk]
    · rw [if_neg (fun h0 => hkk h0.symm), if_neg (by rw [hk]; exact fun h0 => hkk h0.symm),
        if_neg hkk]
  · have habs : ∀ (i : Nat) (e : Entry), t.entries[i]? = some e → e.key ≠ key :=
      fun i e hi hk => hex ⟨i, e, hi, hk⟩
    have hnone := lookup_of_absent habs
    obtain ⟨r, e, d, hr, her, hk0, hd, hrd, hpath⟩ := findEntry_absent hwf hn hh habs
    have hcnt : (if e.key = 0 ∧ e.value.isNil = true then t.count + 1 else t.count) =
        t.count + (if e.isEmpty = true then 1 else 0) := by
      simp only [Entry.isEmpty, hk0, decide_True, Bool.true_and, true_and]
      split <;> simp
    have hwf1 : TableWF (hashAt m)
        { count := if e.key = 0 ∧ e.value.isNil = true then t.count + 1 else t.count,
          entries := t.entries.set r { key := key, value := value } } :=
      hwf.set_slot her (by simp [Entry.isEmpty, hkey]) hcnt
        (by rw [hcnt]; split <;> omega)
        (fun _ j ej _ hej => habs j ej hej)
        (fun _ => ⟨h, d, hh, hd, hrd,
          fun d1 hd1 => (hpath d1 hd1).imp (fun _ he1 => ⟨he1.1, he1.2.1⟩)⟩)
    rw [hr]
    simp only [her]
    refine ⟨_, true, by simp [hk0], hwf1, by simp [hnone], by simp, ?_⟩
    intro k hk0'
    rw [lookup_set_slot hwf hwf1 her k hk0']
    simp only
    by_cases hkk : k = key
    · rw [if_pos hkk.symm, if_pos hkk]
    · rw [if_neg (fun h0 => hkk h0.symm), if_neg (by rw [hk0]; exact fun h0 => hk0' h0.symm),
        if_neg hkk]

/-! ## The rehash of `adjustCapacity` -/

theorem lookup_cons (c : Int) (entry : Entry) (rest : List Entry) (key : Nat) :
    Table.lookup { count := c, entries := entry :: rest } key =
      if entry.key = key then some entry.value
      else Table.lookup { count := c, entries := rest } key := by
  unfold Table.lookup
  simp only [List.find?_cons]
  by_cases h : entry.key = key
  · simp [h]
  · simp [h]

theorem lookup_none_of_forall {c : Int} {E : List Entry} {key : Nat}
    (h : ∀ e, e ∈ E → e.key ≠ key) : Table.lookup { count := c, entries := E } key = none :=
  lookup_of_absent (fun _ e hi => h e (List.getElem?_mem hi))

theorem wf_replicate (H : Nat → Option Nat) (k : Nat) (hk3 : 3 ≤ k) (hk32 : k ≤ 30) :
    TableWF H { count := 0, entries := List.replicate (2 ^ k) { key := 0, value := .nil } } := by
  refine ⟨Or.inr ⟨k, hk3, hk32, by simp⟩, ?_, ?_, ?_, ?_⟩
  · simp [List.countP_replicate, Entry.isEmpty, Value.isNil]
  · simp
  · intro i j ei ej hi _ hne _
    have := List.getElem?_mem hi
    rw [List.mem_replicate] at this
    rw [this.2] at hne
    exact absurd rfl hne
  · intro i e hi hne
    have := List.getElem?_mem hi
    rw [List.mem_replicate] at this
    rw [this.2] at hne
    exact absurd rfl hne

theorem noTombstone_replicate (n : Nat) :
    NoTombstone (List.replicate n { key := 0, value := .nil }) := by
  intro e he _
  rw [List.mem_replicate] at he
  rw [he.2]
  rfl

theorem noTombstone_set {E : List Entry} {p : Nat} {new : Entry} (h : NoTombstone E)
    (hnew : new.key ≠ 0) : NoTombstone (E.set p new) := by
  intro e he hk
  rcases List.mem_or_eq_of_mem_set he with h1 | h1
  · exact h e h1 hk
  · rw [h1] at hk; exact absurd hk hnew

theorem liveCount_le (E : List Entry) : liveCount E ≤ E.countP (fun e => !e.isEmpty) := by
  unfold liveCount
  apply List.countP_mono_left
  intro e _ he
  simp only [Bool.not_eq_true', decide_eq_false_iff_not] at he
  simp [Entry.isEmpty, he]

theorem liveCount_eq_of_noTombstone {E : List Entry} (h : NoTombstone E) :
    E.countP (fun e => !e.isEmpty) = liveCount E := by
  unfold liveCount
  apply List.countP_congr
  intro e he
  by_cases hk : e.key = 0
  · simp [h e he hk, hk]
  · simp [Entry.isEmpty, hk]

/-- The rehash loop on a list of entries with valid, distinct keys that are
not yet in the new array, which is well formed, has no tombstone and has room
for them: the loop returns a well-formed array without tombstone that maps the
keys of the list to their values and every other key to what the array did. -/
theorem rehash_spec (m : Mem) (n : Nat) (hn : 0 < n) :
    ∀ (rest acc : List Entry) (count : Int),
      acc.length = n →
      TableWF (hashAt m) { count := count, entries := acc } →
      NoTombstone acc →
      4 * (count + (liveCount rest : Int)) ≤ 3 * (n : Int) →
      (∀ e, e ∈ rest → e.key ≠ 0 → ∃ h, hashAt m e.key = some h) →
      rest.Pairwise (fun a b => a.key ≠ 0 → a.key ≠ b.key) →
      (∀ e, e ∈ rest → e.key ≠ 0 → ∀ e1, e1 ∈ acc → e1.key ≠ e.key) →
      ∃ E c, rehash m (n : Int) rest acc count = some (E, c) ∧ E.length = n ∧
        TableWF (hashAt m) { count := c, entries := E } ∧ NoTombstone E ∧
        c = count + (liveCount rest : Int) ∧
        ∀ key, key ≠ 0 → Table.lookup { count := c, entries := E } key =
          match Table.lookup { count := 0, entries := rest } key with
          | some v => some v
          | none => Table.lookup { count := count, entries := acc } key := by
  intro rest
  induction rest with
  | nil =>
    intro acc count hlen hwf hnt _ _ _ _
    refine ⟨acc, count, rfl, hlen, hwf, hnt, by simp [liveCount], ?_⟩
    intro key _
    simp [Table.lookup]
  | cons entry rest ih =>
    intro acc count hlen hwf hnt hroom hvalid hpair hnotin
    rw [List.pairwise_cons] at hpair
    have hvalid1 : ∀ e, e ∈ rest → e.key ≠ 0 → ∃ h, hashAt m e.key = some h :=
      fun e he => hvalid e (List.mem_cons_of_mem _ he)
    by_cases hk : entry.key = 0
    · have hlive : liveCount (entry :: rest) = liveCount rest := by
        simp [liveCount, List.countP_cons, hk]
      rw [hlive] at hroom
      obtain ⟨E, c, hrun, hElen, hEwf, hEnt, hc, hlook⟩ :=
        ih acc count hlen hwf hnt hroom hvalid1 hpair.2
          (fun e he => hnotin e (List.mem_cons_of_mem _ he))
      refine ⟨E, c, ?_, hElen, hEwf, hEnt, by rw [hlive]; exact hc, ?_⟩
      · simp only [rehash, if_pos hk]; exact hrun
      · intro key hkey
        rw [hlook key hkey, lookup_cons, if_neg (by rw [hk]; exact fun h0 => hkey h0.symm)]
    · have hlive : liveCount (entry :: rest) = liveCount rest + 1 := by
        simp [liveCount, List.countP_cons, hk]
      rw [hlive] at hroom
      obtain ⟨h, hh⟩ := hvalid entry (List.mem_cons_self _ _) hk
      have habs : ∀ (i : Nat) (e : Entry), acc[i]? = some e → e.key ≠ entry.key :=
        fun i e hi => hnotin entry (List.mem_cons_self _ _) hk e (List.getElem?_mem hi)
      have hmask : Table.capacityMask { count := count, entries := acc } = (n : Int) - 1 := by
        simp [Table.capacityMask, hlen]
      obtain ⟨r, e, d, hr, her, hk0, hd, hrd, hpath⟩ :=
        findEntry_absent hwf (by simp only [hlen]; exact hn) hh habs
      simp only [hmask] at hr
      have hemp : e.isEmpty = true := hnt e (List.getElem?_mem her) hk0
      have hwf1 : TableWF (hashAt m)
          { count := count + 1,
            entries := acc.set r { key := entry.key, value := entry.value } } :=
        hwf.set_slot her (by simp [Entry.isEmpty, hk]) (by simp [hemp])
          (by simp only [hlen]; push_cast at hroom ⊢; omega)
          (fun _ j ej _ hej => habs j ej hej)
          (fun _ => ⟨h, d, hh, hd, hrd,
          fun d1 hd1 => (hpath d1 hd1).imp (fun _ he1 => ⟨he1.1, he1.2.1⟩)⟩)
      have hnotin1 : ∀ e, e ∈ rest → e.key ≠ 0 → ∀ e1,
          e1 ∈ acc.set r { key := entry.key, value := entry.value } → e1.key ≠ e.key := by
        intro e2 he2 hk2 e1 he1
        rcases List.mem_or_eq_of_mem_set he1 with h1 | h1
        · exact hnotin e2 (List.mem_cons_of_mem _ he2) hk2 e1 h1
        · rw [h1]; exact hpair.1 e2 he2 hk
      obtain ⟨E, c, hrun, hElen, hEwf, hEnt, hc, hlook⟩ :=
        ih (acc.set r { key := entry.key, value := entry.value }) (count + 1)
          (by simp [hlen]) hwf1 (noTombstone_set hnt hk)
          (by push_cast at hroom ⊢; omega) hvalid1 hpair.2 hnotin1
      refine ⟨E, c, ?_, hElen, hEwf, hEnt, by rw [hlive, hc]; push_cast; omega, ?_⟩
      · simp only [rehash, if_neg hk, hr]; exact hrun
      · intro key hkey
        rw [hlook key hkey, lookup_cons, lookup_set_slot hwf hwf1 her key hkey]
        simp only
        by_cases hkk : entry.key = key
        · rw [if_pos hkk, if_pos hkk]
          have hnone : Table.lookup { count := 0, entries := rest } key = none :=
            lookup_none_of_forall (fun e2 he2 h2 => hpair.1 e2 he2 hk (by rw [hkk, h2]))
          rw [hnone]
        · rw [if_neg hkk, if_neg hkk, if_neg (by rw [hk0]; exact fun h0 => hkey h0.symm)]

/-! ## The growth of `tableSet` -/

/-- The capacity that `tableSet` asks for when it grows a well-formed table of
fewer than 2^30 slots: 8 for the table without array, and else the double. -/
theorem grow_capacity {H : Nat → Option Nat} {t : Table} (hwf : TableWF H t)
    (hlen : t.entries.length < 1073741824) :
    ∃ k, 3 ≤ k ∧ k ≤ 30 ∧ GROW_CAPACITY (t.capacityMask + 1) = ((2 ^ k : Nat) : Int) ∧
      2 * t.entries.length ≤ 2 ^ k ∧ 8 ≤ 2 ^ k ∧
      (2 ^ k = 8 ∨ 2 ^ k = 2 * t.entries.length) := by
  have hmask : t.capacityMask + 1 = (t.entries.length : Int) := by
    simp [Table.capacityMask]
  rw [hmask]
  rcases hwf.cap with h0 | ⟨k, hk3, hk32, hk⟩
  · refine ⟨3, le_refl _, by omega, ?_, by omega, by norm_num, Or.inl (by norm_num)⟩
    simp [GROW_CAPACITY, h0]
  · have h8 : 2 ^ 3 ≤ 2 ^ k := Nat.pow_le_pow_right (by norm_num) hk3
    have hk31 : k < 30 := by
      by_contra hge
      have : 2 ^ 30 ≤ 2 ^ k := Nat.pow_le_pow_right (by norm_num) (by omega)
      omega
    have hsucc : 2 ^ (k + 1) = 2 * 2 ^ k := by rw [pow_succ]; omega
    have h8b : 8 ≤ t.entries.length := by omega
    refine ⟨k + 1, by omega, by omega, ?_, by omega, by omega, Or.inr (by omega)⟩
    have hnot : ¬ ((t.entries.length : Int) < 8) := by omega
    simp only [GROW_CAPACITY, if_neg hnot]
    rw [hsucc, hk]
    push_cast
    ring

theorem pairwise_of_distinct {H : Nat → Option Nat} {t : Table} (hwf : TableWF H t) :
    t.entries.Pairwise (fun a b => a.key ≠ 0 → a.key ≠ b.key) := by
  rw [List.pairwise_iff_getElem]
  intro i j hi hj hij ha hab
  have := hwf.distinct i j t.entries[i] t.entries[j] (List.getElem?_eq_getElem hi)
    (List.getElem?_eq_getElem hj) ha hab
  omega

/-- The growth of a well-formed table of fewer than 2^30 slots returns a
well-formed table without tombstone that maps every key to what the table
did, counts the keys only, and has room for a further entry. -/
theorem tableGrow_spec {m : Mem} {t : Table} (hwf : TableWF (hashAt m) t)
    (hlen : t.entries.length < 1073741824) :
    ∃ t1, tableGrow m t = some t1 ∧ TableWF (hashAt m) t1 ∧ NoTombstone t1.entries ∧
      (t1.entries.length : Int) = GROW_CAPACITY (t.capacityMask + 1) ∧
      t.entries.length ≤ t1.entries.length ∧
      t1.count = (liveCount t.entries : Int) ∧
      4 * (t1.count + 2) ≤ 3 * (t1.entries.length : Int) ∧
      ∀ key, key ≠ 0 → t1.lookup key = t.lookup key := by
  obtain ⟨k, hk3, hk32, hgrow, h2len, h8, hcase⟩ := grow_capacity hwf hlen
  have hvalid : ∀ e, e ∈ t.entries → e.key ≠ 0 → ∃ h, hashAt m e.key = some h := by
    intro e he hk
    obtain ⟨i, hi, hget⟩ := List.getElem_of_mem he
    obtain ⟨h, _, hh, _⟩ := hwf.reach i e (by rw [List.getElem?_eq_getElem hi, hget]) hk
    exact ⟨h, hh⟩
  have hlive := liveCount_le t.entries
  have hcount := hwf.count_eq
  have hload := hwf.load
  have hroom : 4 * ((0 : Int) + (liveCount t.entries : Int)) ≤ 3 * ((2 ^ k : Nat) : Int) := by
    omega
  obtain ⟨E, c, hrun, hElen, hEwf, hEnt, hc, hlook⟩ :=
    rehash_spec m (2 ^ k) (by omega) t.entries
      (List.replicate (2 ^ k) { key := 0, value := .nil }) 0 (by simp)
      (wf_replicate (hashAt m) k hk3 hk32) (noTombstone_replicate _) hroom hvalid
      (pairwise_of_distinct hwf)
      (by
        intro e _ hk e1 he1
        rw [List.mem_replicate] at he1
        rw [he1.2]
        exact fun h0 => hk h0.symm)
  refine ⟨{ count := c, entries := E }, ?_, hEwf, hEnt, ?_, ?_, ?_, ?_, ?_⟩
  · unfold tableGrow
    rw [hgrow]
    simp only [Int.toNat_ofNat]
    rw [hrun]
  · simp only [hElen, hgrow]
  · simp only [hElen]; omega
  · simp only [hc]; omega
  · simp only [hc, hElen]
    rcases hcase with h | h
    · rcases hwf.cap with h0 | ⟨k0, hk03, _, hk0⟩
      · have : liveCount t.entries = 0 := by
          have := List.countP_le_length (fun e : Entry => !e.isEmpty) (l := t.entries)
          omega
        omega
      · have h8b : 2 ^ 3 ≤ 2 ^ k0 := Nat.pow_le_pow_right (by norm_num) hk03
        omega
    · rcases hwf.cap with h0 | ⟨k0, hk03, _, hk0⟩
      · omega
      · have h8b : 2 ^ 3 ≤ 2 ^ k0 := Nat.pow_le_pow_right (by norm_num) hk03
        omega
  · intro key hkey
    rw [hlook key hkey]
    have hnone : Table.lookup
        { count := 0, entries := List.replicate (2 ^ k) { key := 0, value := .nil } } key =
        none := by
      apply lookup_none_of_forall
      intro e he
      rw [List.mem_replicate] at he
      rw [he.2]
      exact fun h0 => hkey h0.symm
    rw [hnone]
    have heq : Table.lookup { count := 0, entries := t.entries } key = t.lookup key := rfl
    rw [heq]
    cases t.lookup key <;> rfl

/-- What `tableSet` does to a well-formed table of fewer than 2^30 slots: the
result is a well-formed table at least as large that maps the key to the value
and every other key to what the table did; `isNewKey` tells whether the key
mapped to nothing. -/
theorem tableSetCore_spec {m : Mem} {t : Table} {key h : Nat} (value : Value)
    (hwf : TableWF (hashAt m) t) (hh : hashAt m key = some h)
    (hlen : 4 * (t.count + 1) > 3 * (t.capacityMask + 1) → t.entries.length < 1073741824) :
    ∃ t1 b, tableSetCore m t key value = some (t1, b) ∧ TableWF (hashAt m) t1 ∧
      (b = true ↔ t.lookup key = none) ∧
      t.entries.length ≤ t1.entries.length ∧
      (∀ k, k ≠ 0 → t1.lookup k = if k = key then some value else t.lookup k) := by
  unfold tableSetCore
  have hmask : t.capacityMask + 1 = (t.entries.length : Int) := by
    simp [Table.capacityMask]
  by_cases hg : 4 * (t.count + 1) > 3 * (t.capacityMask + 1)
  · rw [if_pos hg]
    obtain ⟨t1, hrun, hwf1, _, _, hle, _, hroom, hlook⟩ := tableGrow_spec hwf (hlen hg)
    obtain ⟨t2, b, hrun2, hwf2, hb, hlen2, hlook2⟩ :=
      tableInsert_spec value hwf1 hh (by omega)
    rw [hrun]
    refine ⟨t2, b, hrun2, hwf2, ?_, by omega, ?_⟩
    · rw [hb, hlook key (hashAt_ne_zero hh)]
    · intro k hk
      rw [hlook2 k hk, hlook k hk]
  · rw [if_neg hg]
    rw [hmask] at hg
    obtain ⟨t2, b, hrun2, hwf2, hb, hlen2, hlook2⟩ :=
      tableInsert_spec value hwf hh (by omega)
    exact ⟨t2, b, hrun2, hwf2, hb, by omega, hlook2⟩

/-! ## `tableSet` on a state of the machine -/

theorem TableWF.congr {H H1 : Nat → Option Nat} {t : Table} (hwf : TableWF H t)
    (h : ∀ e, e ∈ t.entries → e.key ≠ 0 → H1 e.key = H e.key) : TableWF H1 t := by
  refine ⟨hwf.cap, hwf.count_eq, hwf.load, hwf.distinct, ?_⟩
  intro i e hi hk
  obtain ⟨h0, d, hh, rest⟩ := hwf.reach i e hi hk
  exact ⟨h0, d, by rw [h e (List.getElem?_mem hi) hk]; exact hh, rest⟩

theorem findEntry_congr {m m1 : Mem} (E : List Entry) (mask : Int) {key : Nat}
    (h : hashAt m1 key = hashAt m key) : findEntry m1 E mask key = findEntry m E mask key := by
  rw [findEntry_eq, findEntry_eq, h]

theorem rehash_congr {m m1 : Mem} (capacity : Int) :
    ∀ (rest acc : List Entry) (count : Int),
      (∀ e, e ∈ rest → e.key ≠ 0 → hashAt m1 e.key = hashAt m e.key) →
      rehash m1 capacity rest acc count = rehash m capacity rest acc count := by
  intro rest
  induction rest with
  | nil => intro acc count _; rfl
  | cons entry rest ih =>
    intro acc count h
    have h1 : ∀ e, e ∈ rest → e.key ≠ 0 → hashAt m1 e.key = hashAt m e.key :=
      fun e he => h e (List.mem_cons_of_mem _ he)
    by_cases hk : entry.key = 0
    · simp only [rehash, if_pos hk]
      exact ih acc count h1
    · simp only [rehash, if_neg hk]
      rw [findEntry_congr _ _ (h entry (List.mem_cons_self _ _) hk)]
      cases findEntry m acc (capacity - 1) entry.key with
      | none => rfl
      | some dest => exact ih _ _ h1

theorem hashAt_clear (m : Mem) {lo hi a : Nat} (h : a < lo ∨ hi ≤ a) :
    hashAt (m.clear lo hi) a = hashAt m a := by
  simp only [hashAt, Mem.read_clear_of_lt m h]

theorem getTable_some_below {vm vm1 : VM} {ref : TableRef}
    (hg : vm1.globals = vm.globals) (hs : vm1.strings = vm.strings)
    (hm : ∀ a, a < vm.next → vm1.mem.read a = vm.mem.read a)
    (href : ref.Below vm.next) : getTable vm1 ref = getTable vm ref := by
  cases ref with
  | globals => simp [getTable, hg]
  | strings => simp [getTable, hs]
  | methods klass => simp only [getTable, hm klass href]
  | fields inst => simp only [getTable, hm inst href]

theorem setTable_returns {vm : VM} {ref : TableRef} {t0 : Table} (t : Table)
    (hget : getTable vm ref = some t0) : ∃ vm1, setTable vm ref t = some vm1 := by
  cases ref with
  | globals => exact ⟨_, rfl⟩
  | strings => exact ⟨_, rfl⟩
  | methods klass =>
    simp only [getTable] at hget
    simp only [setTable]
    split at hget
    · exact ⟨_, rfl⟩
    · cases hget
  | fields inst =>
    simp only [getTable] at hget
    simp only [setTable]
    split at hget
    · exact ⟨_, rfl⟩
    · cases hget

theorem hashAt_write_klass {m : Mem} {p : Nat} {o o1 : Obj} (hr : m.read p = some o)
    (ho : ∀ h c, o.body ≠ .string h c) (ho1 : ∀ h c, o1.body ≠ .string h c) (a : Nat) :
    hashAt (m.write p o1) a = hashAt m a := by
  by_cases hap : a = p
  · subst hap
    have hne := Mem.read_ne_zero hr
    simp only [hashAt, Mem.read_write_same _ _ _ hne, hr]
    obtain ⟨f, body⟩ := o
    obtain ⟨f1, body1⟩ := o1
    cases body <;> cases body1 <;> simp_all
  · simp only [hashAt, Mem.read_write_ne _ _ _ _ hap]

/-- Storing a table where a reference names it changes that table only: the
arena, the accounting and the hash of every string stay. -/
theorem setTable_spec {vm vm1 : VM} {ref : TableRef} {t : Table}
    (h : setTable vm ref t = some vm1) :
    getTable vm1 ref = some t ∧ vm1.heap = vm.heap ∧ vm1.heapCapacity = vm.heapCapacity ∧
      vm1.next = vm.next ∧ vm1.bytesAllocated = vm.bytesAllocated ∧ vm1.nextGC = vm.nextGC ∧
      ∀ a, hashAt vm1.mem a = hashAt vm.mem a := by
  cases ref with
  | globals => cases h; exact ⟨rfl, rfl, rfl, rfl, rfl, rfl, fun _ => rfl⟩
  | strings => cases h; exact ⟨rfl, rfl, rfl, rfl, rfl, rfl, fun _ => rfl⟩
  | methods klass =>
    simp only [setTable] at h
    split at h
    · rename_i f name methods hr
      cases h
      have hne := Mem.read_ne_zero hr
      refine ⟨?_, rfl, rfl, rfl, rfl, rfl, ?_⟩
      · simp only [getTable, Mem.read_write_same _ _ _ hne]
      · exact hashAt_write_klass hr (by intro h c; simp) (by intro h c; simp)
    · cases h
  | fields inst =>
    simp only [setTable] at h
    split at h
    · rename_i f klass fields hr
      cases h
      have hne := Mem.read_ne_zero hr
      refine ⟨?_, rfl, rfl, rfl, rfl, rfl, ?_⟩
      · simp only [getTable, Mem.read_write_same _ _ _ hne]
      · exact hashAt_write_klass hr (by intro h c; simp) (by intro h c; simp)
    · cases h

/-- Storing a table where a reference names it leaves the tables that other
references name. -/
theorem setTable_other {vm vm1 : VM} {ref src : TableRef} {t : Table}
    (h : setTable vm ref t = some vm1) (hne : src ≠ ref) :
    getTable vm1 src = getTable vm src := by
  cases ref with
  | globals =>
    cases h
    cases src with
    | globals => exact absurd rfl hne
    | strings => rfl
    | methods k => rfl
    | fields i => rfl
  | strings =>
    cases h
    cases src with
    | globals => rfl
    | strings => exact absurd rfl hne
    | methods k => rfl
    | fields i => rfl
  | methods klass =>
    simp only [setTable] at h
    split at h
    · rename_i f name methods hr
      cases h
      have hnz := Mem.read_ne_zero hr
      cases src with
      | globals => rfl
      | strings => rfl
      | methods k =>
        have hk : k ≠ klass := fun hk => hne (by rw [hk])
        simp only [getTable, Mem.read_write_ne _ _ _ _ hk]
      | fields i =>
        by_cases hi : i = klass
        · subst hi
          simp only [getTable, Mem.read_write_same _ _ _ hnz, hr]
        · simp only [getTable, Mem.read_write_ne _ _ _ _ hi]
    · cases h
  | fields inst =>
    simp only [setTable] at h
    split at h
    · rename_i f klass fields hr
      cases h
      have hnz := Mem.read_ne_zero hr
      cases src with
      | globals => rfl
      | strings => rfl
      | methods k =>
        by_cases hi : k = inst
        · subst hi
          simp only [getTable, Mem.read_write_same _ _ _ hnz, hr]
        · simp only [getTable, Mem.read_write_ne _ _ _ _ hi]
      | fields i =>
        have hk : i ≠ inst := fun hk => hne (by rw [hk])
        simp only [getTable, Mem.read_write_ne _ _ _ _ hk]
    · cases h

theorem triggersCollection_shrink (stress : Bool) (vm : VM) (oldSize : Nat) :
    triggersCollection stress vm oldSize 0 = false := by
  simp [triggersCollection]

/-- With no fuel for the collector, a call of `reallocate` that returns has
triggered no collection. -/
theorem reallocate_zero_no_trigger {sz : Sizes} {stress : Bool} {vm : VM}
    {pointer oldSize newSize : Nat} {r : VM × Nat}
    (h : reallocate sz stress 0 vm pointer oldSize newSize = .ok r) :
    triggersCollection stress vm oldSize newSize = false := by
  unfold reallocate at h
  unfold triggersCollection
  by_cases hgrow : newSize > oldSize
  · simp only [if_pos hgrow, reallocateCollect, collectGarbage_zero] at h
    cases hs : stress with
    | true => simp only [hs, if_true] at h; cases h
    | false =>
      simp only [hs, Bool.false_eq_true, if_false] at h
      by_cases hgc : accountBytes vm.bytesAllocated oldSize newSize > vm.nextGC
      · simp only [if_pos hgc] at h; cases h
      · simp [hgc]
  · simp [hgrow]

/-- The function `adjustCapacity` when the allocation of the new array runs no
collection and finds room: the rehash runs in the memory with the new array
cleared, and the new table is stored in the state with the array allocated. -/
theorem adjustCapacity_eq (sz : Sizes) (stress : Bool) (fuel : Nat) (vm : VM) (ref : TableRef)
    (capacity : Int) (t : Table) (hrun : GrowRuns sz stress vm capacity)
    (hpos : 0 < sz.entry * capacity.toNat) (hget : getTable vm ref = some t)
    (href : ref.Below vm.next) :
    adjustCapacity sz stress fuel vm ref capacity =
      match rehash (vm.mem.clear vm.next (vm.next + sz.entry * capacity.toNat)) capacity
          t.entries (List.replicate capacity.toNat { key := 0, value := .nil }) 0 with
      | none => .stuck
      | some (entries1, count) =>
        match setTable
            { vm with
              bytesAllocated :=
                accountBytes (accountBytes vm.bytesAllocated 0 (sz.entry * capacity.toNat))
                  (sz.entry * (t.capacityMask + 1).toNat) 0,
              next := vm.next + sz.entry * capacity.toNat,
              mem := vm.mem.clear vm.next (vm.next + sz.entry * capacity.toNat) }
            ref { count := count, entries := entries1 } with
        | none => .stuck
        | some vm3 => .ok vm3 := by
  obtain ⟨hno, hroom, hnext⟩ := hrun
  have hcap : 0 < capacity := by
    by_contra hc
    have : capacity.toNat = 0 := Int.toNat_eq_zero.mpr (by omega)
    rw [this] at hpos
    omega
  unfold adjustCapacity ALLOCATE
  rw [reallocate_eq_of_no_collection sz stress fuel vm 0 0 _ hno]
  rw [if_neg (by omega), if_neg (by omega)]
  simp only [ne_eq, not_true_eq_false, if_false]
  rw [if_neg (by omega)]
  have hgt : getTable
      { vm with
        bytesAllocated := accountBytes vm.bytesAllocated 0 (sz.entry * capacity.toNat),
        next := vm.next + sz.entry * capacity.toNat,
        mem := vm.mem.clear vm.next (vm.next + sz.entry * capacity.toNat) } ref = some t := by
    rw [← hget]
    exact getTable_some_below rfl rfl (fun a ha => Mem.read_clear_of_lt _ (Or.inl ha)) href
  rw [hgt]
  simp only
  cases hre : rehash (vm.mem.clear vm.next (vm.next + sz.entry * capacity.toNat)) capacity
      t.entries (List.replicate capacity.toNat { key := 0, value := .nil }) 0 with
  | none => rfl
  | some r =>
    obtain ⟨entries1, count⟩ := r
    simp only
    unfold FREE_ARRAY
    rw [reallocate_eq_of_no_collection sz stress fuel _ 0 _ 0 (triggersCollection_shrink _ _ _)]
    simp only [if_true]

/-- With no fuel for the collector, a call of `adjustCapacity` for a positive
capacity that returns has run no collection and has found room. -/
theorem adjustCapacity_zero_runs {sz : Sizes} {stress : Bool} {vm vm3 : VM} {ref : TableRef}
    {capacity : Int} (hcap : 0 < capacity)
    (h : adjustCapacity sz stress 0 vm ref capacity = .ok vm3) :
    GrowRuns sz stress vm capacity ∧ 0 < sz.entry * capacity.toNat := by
  unfold adjustCapacity ALLOCATE at h
  split at h
  · cases h
  · cases h
  · rename_i vm1 entries hR
    have hno := reallocate_zero_no_trigger hR
    rw [reallocate_eq_of_no_collection sz stress 0 vm 0 0 _ hno] at hR
    split at h
    · cases h
    · rename_i hne
      split at hR
      · cases hR
        exact absurd ⟨rfl, hcap⟩ hne
      · rename_i hsize
        split at hR
        · cases hR
        · rename_i hroom
          cases hR
          refine ⟨⟨hno, by omega, ?_⟩, by omega⟩
          by_contra h0
          exact hne ⟨by omega, hcap⟩

theorem grow_ge (t : Table) :
    (t.entries.length < 8 ∨ 2 * t.entries.length = (GROW_CAPACITY (t.capacityMask + 1)).toNat) ∧
      t.entries.length ≤ (GROW_CAPACITY (t.capacityMask + 1)).toNat ∧
      8 ≤ (GROW_CAPACITY (t.capacityMask + 1)).toNat := by
  have hmask : t.capacityMask + 1 = (t.entries.length : Int) := by
    simp [Table.capacityMask]
  rw [hmask]
  unfold GROW_CAPACITY
  split <;> omega

theorem tableGrow_rehash {m : Mem} {t t1 : Table} (h : tableGrow m t = some t1) :
    rehash m (GROW_CAPACITY (t.capacityMask + 1)) t.entries
      (List.replicate (GROW_CAPACITY (t.capacityMask + 1)).toNat { key := 0, value := .nil })
      0 = some (t1.entries, t1.count) := by
  unfold tableGrow at h
  split at h
  · cases h
  · rename_i entries count hre
    cases h
    exact hre

theorem tableInsert_slot {m : Mem} {t t1 : Table} {key : Nat} {value : Value} {b : Bool}
    (h : tableInsert m t key value = some (t1, b)) :
    ∃ (i : Nat) (entry : Entry), findEntry m t.entries t.capacityMask key = some i ∧
      t.entries[i]? = some entry ∧ b = decide (entry.key = 0) ∧
      t1 = { count := if entry.key = 0 ∧ entry.value.isNil then t.count + 1 else t.count,
             entries := t.entries.set i { key := key, value := value } } := by
  unfold tableInsert at h
  split at h
  · cases h
  · rename_i i hf
    split at h
    · cases h
    · rename_i entry he
      cases h
      exact ⟨i, entry, hf, he, rfl, rfl⟩

theorem lookup_below {H : Nat → Option Nat} {t : Table} {n key : Nat} {v : Value}
    (hwf : TableWF H t) (hkeys : KeysBelow t n) (hkey : key ≠ 0) (h : t.lookup key = some v) :
    key < n := by
  obtain ⟨p, e, hp, hk, _⟩ := (lookup_some_iff hwf hkey).mp h
  rw [← hk]
  exact hkeys e (List.getElem?_mem hp) (by rw [hk]; exact hkey)

theorem keysBelow_of_lookup {H : Nat → Option Nat} {t : Table} {n : Nat} (hwf : TableWF H t)
    (h : ∀ key v, key ≠ 0 → t.lookup key = some v → key < n) : KeysBelow t n := by
  intro e he hk
  obtain ⟨i, hi, hget⟩ := List.getElem_of_mem he
  exact h e.key e.value hk
    (lookup_of_slot hwf (by rw [List.getElem?_eq_getElem hi, hget]) rfl hk)

/-- The keys of the table that `tableSet` leaves are the key of the call and
keys of the table it found. -/
theorem tableSetCore_keysBelow {m : Mem} {t t1 : Table} {key h n : Nat} {value : Value}
    {b : Bool} (hwf : TableWF (hashAt m) t) (hh : hashAt m key = some h)
    (hlen : 4 * (t.count + 1) > 3 * (t.capacityMask + 1) → t.entries.length < 1073741824)
    (hkeys : KeysBelow t n) (hkey : key < n)
    (hrun : tableSetCore m t key value = some (t1, b)) : KeysBelow t1 n := by
  obtain ⟨t2, b2, hrun2, hwf2, _, _, hlook⟩ := tableSetCore_spec value hwf hh hlen
  rw [hrun] at hrun2
  cases hrun2
  apply keysBelow_of_lookup hwf2
  intro k v hk hv
  rw [hlook k hk] at hv
  by_cases hkk : k = key
  · rw [hkk]; exact hkey
  · rw [if_neg hkk] at hv
    exact lookup_below hwf hkeys hk hv

/-- A call of `tableSet` that runs no collection and finds room, on a
well-formed table whose keys and whose holder lie below `next`, with a key
that is a string below `next`: the call returns, the table it leaves is the
one that growth and insertion compute, and the frame holds.  When the table is
not grown the allocation state stays. -/
theorem tableSet_forward {sz : Sizes} {stress : Bool} {vm : VM} {ref : TableRef}
    {key h : Nat} {t : Table} (fuel : Nat) (value : Value)
    (hget : getTable vm ref = some t) (hwf : TableWF (hashAt vm.mem) t)
    (hkeys : KeysBelow t vm.next) (href : ref.Below vm.next)
    (hh : hashAt vm.mem key = some h) (hkey : key < vm.next)
    (harena : ArenaSmall sz vm) (hruns : SetRuns sz stress vm t) :
    ∃ vm1 t1 b, tableSet sz stress fuel vm ref key value = .ok (vm1, b) ∧
      tableSetCore vm.mem t key value = some (t1, b) ∧
      getTable vm1 ref = some t1 ∧ SetFrame vm vm1 ∧
      (4 * (t.count + 1) > 3 * (t.capacityMask + 1) → t.entries.length < 1073741824) ∧
      (¬ 4 * (t.count + 1) > 3 * (t.capacityMask + 1) →
        vm1.next = vm.next ∧ vm1.bytesAllocated = vm.bytesAllocated ∧
          vm1.nextGC = vm.nextGC) ∧
      (∀ src, src ≠ ref → src.Below vm.next → getTable vm1 src = getTable vm src) := by
  unfold ArenaSmall at harena
  have hsz : 0 < sz.entry := by
    by_contra h0
    have : sz.entry = 0 := by omega
    rw [this] at harena
    omega
  unfold tableSet tableSetCore
  rw [hget]
  simp only
  by_cases hg : 4 * (t.count + 1) > 3 * (t.capacityMask + 1)
  · obtain ⟨hge2, hge, h8⟩ := grow_ge t
    have hrun := hruns hg
    have hroom := hrun.2.1
    have hcapNat : (GROW_CAPACITY (t.capacityMask + 1)).toNat < 2147483648 := by
      by_contra hbig
      have : sz.entry * 2147483648 ≤ sz.entry * (GROW_CAPACITY (t.capacityMask + 1)).toNat :=
        Nat.mul_le_mul_left _ (by omega)
      omega
    have hlen : t.entries.length < 1073741824 := by
      rcases hge2 with h2 | h2 <;> omega
    have hpos : 0 < sz.entry * (GROW_CAPACITY (t.capacityMask + 1)).toNat :=
      Nat.mul_pos hsz (by omega)
    obtain ⟨t1, hgrow, hwf1, _, _, _, _, hroom1, hlook1⟩ := tableGrow_spec hwf hlen
    obtain ⟨t2, b, hins, hwf2, _, _, _⟩ := tableInsert_spec value hwf1 hh (by omega)
    obtain ⟨i, entry, hfind, hentry, hb, ht2⟩ := tableInsert_slot hins
    have hre := tableGrow_rehash hgrow
    rw [if_pos hg, if_pos hg, hgrow]
    simp only
    rw [hins, adjustCapacity_eq sz stress fuel vm ref _ t hrun hpos hget href]
    rw [rehash_congr _ _ _ _ (fun e he hk => hashAt_clear _ (Or.inl (hkeys e he hk))), hre]
    simp only
    have hgetG : getTable
        { vm with
          bytesAllocated :=
            accountBytes
              (accountBytes vm.bytesAllocated 0
                (sz.entry * (GROW_CAPACITY (t.capacityMask + 1)).toNat))
              (sz.entry * (t.capacityMask + 1).toNat) 0,
          next := vm.next + sz.entry * (GROW_CAPACITY (t.capacityMask + 1)).toNat,
          mem := vm.mem.clear vm.next
            (vm.next + sz.entry * (GROW_CAPACITY (t.capacityMask + 1)).toNat) } ref =
        some t := by
      rw [← hget]
      exact getTable_some_below rfl rfl (fun a ha => Mem.read_clear_of_lt _ (Or.inl ha)) href
    obtain ⟨vmA, hsetA⟩ := setTable_returns { count := t1.count, entries := t1.entries } hgetG
    obtain ⟨hgA, hheapA, hcapA, hnextA, _, _, hhashA⟩ := setTable_spec hsetA
    have hhashA1 : ∀ a, a < vm.next → hashAt vmA.mem a = hashAt vm.mem a := by
      intro a ha
      rw [hhashA a]
      exact hashAt_clear _ (Or.inl ha)
    rw [hsetA]
    simp only
    rw [hgA]
    simp only
    have hfindA : findEntry vmA.mem t1.entries
        (Table.capacityMask { count := t1.count, entries := t1.entries }) key = some i := by
      rw [findEntry_congr _ _ (hhashA1 key hkey)]
      exact hfind
    rw [hfindA]
    simp only [hentry]
    obtain ⟨vmB, hsetB⟩ := setTable_returns
      { count := if entry.key = 0 ∧ entry.value.isNil then t1.count + 1 else t1.count,
        entries := t1.entries.set i { key := key, value := value } } hgA
    obtain ⟨hgB, hheapB, hcapB, hnextB, _, _, hhashB⟩ := setTable_spec hsetB
    rw [hsetB]
    refine ⟨vmB, t2, b, by rw [hb], rfl, by rw [hgB, ht2], ?_, fun _ => hlen,
      fun hn => absurd hg hn, ?_⟩
    swap
    · intro src hsrc hbelow
      rw [setTable_other hsetB hsrc, setTable_other hsetA hsrc]
      exact getTable_some_below rfl rfl (fun a ha => Mem.read_clear_of_lt _ (Or.inl ha)) hbelow
    refine ⟨by rw [hheapB, hheapA], by rw [hcapB, hcapA], by rw [hnextB, hnextA]; simp only; omega,
      ?_⟩
    intro a ha
    rw [hhashB a, hhashA1 a ha]
  · have hmask : t.capacityMask + 1 = (t.entries.length : Int) := by
      simp [Table.capacityMask]
    have hroom0 : 4 * (t.count + 1) ≤ 3 * (t.entries.length : Int) := by
      rw [hmask] at hg; omega
    obtain ⟨t2, b, hins, hwf2, _, _, _⟩ := tableInsert_spec value hwf hh hroom0
    obtain ⟨i, entry, hfind, hentry, hb, ht2⟩ := tableInsert_slot hins
    rw [if_neg hg, if_neg hg, hins]
    simp only
    rw [hget]
    simp only [hfind, hentry]
    obtain ⟨vmB, hsetB⟩ := setTable_returns
      { count := if entry.key = 0 ∧ entry.value.isNil then t.count + 1 else t.count,
        entries := t.entries.set i { key := key, value := value } } hget
    obtain ⟨hgB, hheapB, hcapB, hnextB, hbytesB, hgcB, hhashB⟩ := setTable_spec hsetB
    rw [hsetB]
    refine ⟨vmB, t2, b, by rw [hb], rfl, by rw [hgB, ht2], ?_, fun hn => absurd hn hg,
      fun _ => ⟨hnextB, hbytesB, hgcB⟩, fun src hsrc _ => setTable_other hsetB hsrc⟩
    exact ⟨hheapB, hcapB, by omega, fun a _ => hhashB a⟩

/-! ## A `tableSet` of an absent key followed by its `tableDelete` -/

theorem absent_of_lookup_none {H : Nat → Option Nat} {t : Table} {key : Nat}
    (hwf : TableWF H t) (hkey : key ≠ 0) (h : t.lookup key = none) :
    ∀ (i : Nat) (e : Entry), t.entries[i]? = some e → e.key ≠ key := by
  intro i e hi hk
  rw [lookup_of_slot hwf hi hk hkey] at h
  cases h

/-- Inserting an absent key in a well-formed table with room and deleting it
again: both calls return `true`, and the table they leave is the first table
with a tombstone in the slot that the probe for the key stopped on.  It maps
every key to what the first table did, and the probe for the key now stops on
that tombstone. -/
theorem insert_delete_spec {m : Mem} {t : Table} {key h : Nat} (value : Value)
    (hwf : TableWF (hashAt m) t) (hh : hashAt m key = some h)
    (hnone : t.lookup key = none)
    (hroom : 4 * (t.count + 1) ≤ 3 * (t.entries.length : Int)) :
    ∃ (t1 t2 : Table) (r : Nat) (e : Entry),
      tableInsert m t key value = some (t1, true) ∧ tableDelete m t1 key = some (t2, true) ∧
      findEntry m t.entries t.capacityMask key = some r ∧ t.entries[r]? = some e ∧
      e.key = 0 ∧
      t2 = { count := if e.value.isNil then t.count + 1 else t.count,
             entries := t.entries.set r { key := 0, value := .bool true } } ∧
      TableWF (hashAt m) t2 ∧ (∀ k, k ≠ 0 → t2.lookup k = t.lookup k) ∧
      TombFirst m t2 key := by
  have hkey := hashAt_ne_zero hh
  have habs := absent_of_lookup_none hwf hkey hnone
  have hn : 0 < t.entries.length := by
    have h1 := hwf.count_eq
    omega
  obtain ⟨r, e, d, hr, her, hk0, hd, hrd, hpath⟩ := findEntry_absent hwf hn hh habs
  have hrlt : r < t.entries.length := (List.getElem?_eq_some_iff.mp her).1
  obtain ⟨t1, b, hins, hwf1, hb, hlen1, hlook1⟩ := tableInsert_spec value hwf hh hroom
  obtain ⟨i, entry, hfind, hentry, hbe, ht1⟩ := tableInsert_slot hins
  rw [hr] at hfind
  cases hfind
  rw [her] at hentry
  cases hentry
  have hbt : b = true := hb.mpr hnone
  subst hbt
  have hslot1 : t1.entries[r]? = some { key := key, value := value } := by
    rw [ht1]
    simp only [getElem?_set_slot _ _ _ _ hrlt, if_true]
  obtain ⟨t2, b2, hdel, hwf2, hb2, _, htomb, hlook2⟩ := tableDelete_spec hwf1 hh
  have hl1 : t1.lookup key = some value := by
    rw [hlook1 key hkey, if_pos rfl]
  have hb2t : b2 = true := by
    cases b2 with
    | true => rfl
    | false => rw [hb2.mp rfl] at hl1; cases hl1
  subst hb2t
  obtain ⟨p, e1, hp, hk1, ht2⟩ := htomb rfl
  have hpr : p = r :=
    hwf1.distinct p r e1 _ hp hslot1 (by rw [hk1]; exact hkey) (by rw [hk1])
  subst hpr
  have hcnt : t1.count = if e.value.isNil then t.count + 1 else t.count := by
    rw [ht1]
    simp only [hk0, true_and]
  have hent : t1.entries.set p { key := 0, value := .bool true } =
      t.entries.set p { key := 0, value := .bool true } := by
    rw [ht1]
    simp only [List.set_set]
  have ht2e : t2 =
      { count := if e.value.isNil then t.count + 1 else t.count,
        entries := t.entries.set p { key := 0, value := .bool true } } := by
    rw [ht2, hcnt, hent]
  have hlook : ∀ k, k ≠ 0 → t2.lookup k = t.lookup k := by
    intro k hk
    rw [hlook2 k hk]
    by_cases hkk : k = key
    · rw [if_pos hkk, hkk, hnone]
    · rw [if_neg hkk, hlook1 k hk, if_neg hkk]
  refine ⟨t1, t2, p, e, hins, hdel, hr, her, hk0, ht2e, hwf2, hlook, ?_⟩
  -- the probe on the table with the tombstone
  have hlen2 : t2.entries.length = t.entries.length := by
    rw [ht2e]; simp
  have hnone2 : t2.lookup key = none := by rw [hlook key hkey]; exact hnone
  have habs2 := absent_of_lookup_none hwf2 hkey hnone2
  obtain ⟨r2, e2, d2, hr2, her2, hk02, hd2, hrd2, hpath2⟩ :=
    findEntry_absent hwf2 (by rw [hlen2]; exact hn) hh habs2
  rw [hlen2] at hrd2 hpath2 hd2
  have hs : h % t.entries.length < t.entries.length := Nat.mod_lt _ hn
  have hslot2 : ∀ q, t2.entries[q]? =
      if q = p then some { key := 0, value := .bool true } else t.entries[q]? := by
    intro q
    rw [ht2e]
    exact getElem?_set_slot _ _ _ _ hrlt
  have hdd : d2 = d := by
    rcases Nat.lt_trichotomy d2 d with hlt | heq | hgt
    · obtain ⟨e3, he3, _, hk3⟩ := hpath d2 hlt
      have hne : r2 ≠ p := by
        intro hrp
        rw [hrd2, hrd] at hrp
        have := probe_inj hs hd2 hd hrp
        omega
      rw [hslot2 r2, if_neg hne, hrd2, he3] at her2
      cases her2
      exact absurd hk02 hk3
    · exact heq
    · obtain ⟨e3, he3, _, hk3⟩ := hpath2 d hgt
      rw [← hrd, hslot2 p, if_pos rfl] at he3
      cases he3
      exact absurd rfl hk3
  have hr2p : r2 = p := by rw [hrd2, hrd, hdd]
  refine ⟨r2, e2, hr2, her2, hk02, ?_⟩
  rw [hslot2 r2, if_pos hr2p] at her2
  cases her2
  rfl

theorem TableRef.below_mono {ref : TableRef} {n n1 : Nat} (h : ref.Below n) (hle : n ≤ n1) :
    ref.Below n1 := by
  cases ref with
  | globals => trivial
  | strings => trivial
  | methods klass => exact Nat.lt_of_lt_of_le h hle
  | fields inst => exact Nat.lt_of_lt_of_le h hle

theorem KeysBelow.mono {t : Table} {n n1 : Nat} (h : KeysBelow t n) (hle : n ≤ n1) :
    KeysBelow t n1 := fun e he hk => Nat.lt_of_lt_of_le (h e he hk) hle

theorem ArenaSmall.frame {sz : Sizes} {vm vm1 : VM} (h : ArenaSmall sz vm)
    (hf : SetFrame vm vm1) : ArenaSmall sz vm1 := by
  unfold ArenaSmall at h ⊢
  rw [hf.heap, hf.heapCapacity]
  exact h

/-- With no fuel for the collector, a call of `tableSet` that returns has run
no collection and has found room for the array it allocated, if any. -/
theorem tableSet_zero_runs {sz : Sizes} {stress : Bool} {vm : VM} {ref : TableRef}
    {key : Nat} {value : Value} {t : Table} {r : VM × Bool}
    (h : tableSet sz stress 0 vm ref key value = .ok r) (hget : getTable vm ref = some t) :
    SetRuns sz stress vm t := by
  intro hg
  unfold tableSet at h
  rw [hget] at h
  simp only [if_pos hg] at h
  split at h
  · cases h
  · cases h
  · rename_i vm1 hA
    exact (adjustCapacity_zero_runs (by have := (grow_ge t).2.2; omega) hA).1

/-- A call of `tableSet` that runs no collection and finds room, on a
well-formed table whose keys and whose holder lie below `next`, with a key
that is a string below `next`: the call returns and leaves a well-formed table
at least as large, which maps the key to the value and every other key to
what the table did; `isNewKey` tells whether the key mapped to nothing. -/
theorem tableSet_spec {sz : Sizes} {stress : Bool} {vm : VM} {ref : TableRef}
    {key h : Nat} {t : Table} (fuel : Nat) (value : Value)
    (hget : getTable vm ref = some t) (hwf : TableWF (hashAt vm.mem) t)
    (hkeys : KeysBelow t vm.next) (href : ref.Below vm.next)
    (hh : hashAt vm.mem key = some h) (hkey : key < vm.next)
    (harena : ArenaSmall sz vm) (hruns : SetRuns sz stress vm t) :
    ∃ vm1 t1 b, tableSet sz stress fuel vm ref key value = .ok (vm1, b) ∧
      getTable vm1 ref = some t1 ∧ TableWF (hashAt vm1.mem) t1 ∧ KeysBelow t1 vm1.next ∧
      SetFrame vm vm1 ∧
      (b = true ↔ t.lookup key = none) ∧
      t.entries.length ≤ t1.entries.length ∧
      (∀ k, k ≠ 0 → t1.lookup k = if k = key then some value else t.lookup k) ∧
      (¬ 4 * (t.count + 1) > 3 * (t.capacityMask + 1) →
        vm1.next = vm.next ∧ vm1.bytesAllocated = vm.bytesAllocated ∧
          vm1.nextGC = vm.nextGC) := by
  obtain ⟨vm1, t1, b, hrun, hcore, hget1, hframe, hlen, hsame, _⟩ :=
    tableSet_forward fuel value hget hwf hkeys href hh hkey harena hruns
  obtain ⟨t2, b2, hcore2, hwf2, hb, hle, hlook⟩ := tableSetCore_spec value hwf hh hlen
  have hkeys1 := tableSetCore_keysBelow hwf hh hlen hkeys hkey hcore
  rw [hcore] at hcore2
  cases hcore2
  have hwf1 : TableWF (hashAt vm1.mem) t1 :=
    hwf2.congr (fun e he hk => hframe.hash e.key (hkeys1 e he hk))
  exact ⟨vm1, t1, b, hrun, hget1, hwf1, hkeys1.mono hframe.next_le, hframe, hb, hle, hlook,
    hsame⟩

/-- A `tableSet` of an absent key followed by its `tableDelete`, on a
well-formed table: both return `true`; the table they leave is well formed,
at least as large, maps every key to what the first table did, and makes the
probe for the key stop on a tombstone.  After a growth it has room for a
further entry; without growth the capacity stays, and so does `count` when the
probe for the key stopped on a tombstone before. -/
theorem setDelete_core {m : Mem} {t : Table} {key h : Nat} (value : Value)
    (hwf : TableWF (hashAt m) t) (hh : hashAt m key = some h)
    (hnone : t.lookup key = none)
    (hlen : 4 * (t.count + 1) > 3 * (t.capacityMask + 1) → t.entries.length < 1073741824) :
    ∃ (t1 t2 : Table), tableSetCore m t key value = some (t1, true) ∧
      tableDelete m t1 key = some (t2, true) ∧
      TableWF (hashAt m) t2 ∧ (∀ k, k ≠ 0 → t2.lookup k = t.lookup k) ∧
      t.entries.length ≤ t2.entries.length ∧ TombFirst m t2 key ∧
      (4 * (t.count + 1) > 3 * (t.capacityMask + 1) →
        4 * (t2.count + 1) ≤ 3 * (t2.entries.length : Int)) ∧
      (¬ 4 * (t.count + 1) > 3 * (t.capacityMask + 1) →
        t2.entries.length = t.entries.length ∧ (TombFirst m t key → t2.count = t.count)) := by
  have hkey := hashAt_ne_zero hh
  have hmask : t.capacityMask + 1 = (t.entries.length : Int) := by
    simp [Table.capacityMask]
  unfold tableSetCore
  by_cases hg : 4 * (t.count + 1) > 3 * (t.capacityMask + 1)
  · obtain ⟨tg, hgrow, hwfg, _, _, hle, _, hroomg, hlookg⟩ := tableGrow_spec hwf (hlen hg)
    obtain ⟨t1, t2, r, e, hins, hdel, _, _, _, ht2, hwf2, hlook2, htomb⟩ :=
      insert_delete_spec value hwfg hh (by rw [hlookg key hkey]; exact hnone) (by omega)
    rw [if_pos hg, hgrow]
    refine ⟨t1, t2, hins, hdel, hwf2, fun k hk => by rw [hlook2 k hk, hlookg k hk], ?_, htomb,
      ?_, fun hn => absurd hg hn⟩
    · rw [ht2]; simp only [List.length_set]; exact hle
    · intro _
      rw [ht2]
      simp only [List.length_set]
      split <;> omega
  · obtain ⟨t1, t2, r, e, hins, hdel, hfind, her, hk0, ht2, hwf2, hlook2, htomb⟩ :=
      insert_delete_spec value hwf hh hnone (by rw [hmask] at hg; omega)
    rw [if_neg hg]
    refine ⟨t1, t2, hins, hdel, hwf2, hlook2, ?_, htomb, fun hy => absurd hy hg, fun _ => ⟨?_, ?_⟩⟩
    · rw [ht2]; simp
    · rw [ht2]; simp
    · rintro ⟨r1, e1, hfind1, her1, _, hnil1⟩
      rw [hfind] at hfind1
      cases hfind1
      rw [her] at her1
      cases her1
      rw [ht2]
      simp [hnil1]

theorem tableDelete_congr {m m1 : Mem} (t : Table) {key : Nat}
    (h : hashAt m1 key = hashAt m key) : tableDelete m1 t key = tableDelete m t key := by
  unfold tableDelete
  rw [findEntry_congr _ _ h]

theorem TombFirst.of_hash {m m1 : Mem} {t : Table} {key : Nat}
    (h : hashAt m1 key = hashAt m key) (ht : TombFirst m t key) : TombFirst m1 t key := by
  obtain ⟨r, e, hf, he, hk, hn⟩ := ht
  exact ⟨r, e, by rw [findEntry_congr _ _ h]; exact hf, he, hk, hn⟩

theorem SetFrame.refl (vm : VM) : SetFrame vm vm := ⟨rfl, rfl, Nat.le_refl _, fun _ _ => rfl⟩

theorem SetFrame.trans {vm vm1 vm2 : VM} (h1 : SetFrame vm vm1) (h2 : SetFrame vm1 vm2) :
    SetFrame vm vm2 :=
  ⟨by rw [h2.heap, h1.heap], by rw [h2.heapCapacity, h1.heapCapacity],
    Nat.le_trans h1.next_le h2.next_le,
    fun a ha => by rw [h2.hash a (Nat.lt_of_lt_of_le ha h1.next_le), h1.hash a ha]⟩

theorem SetFrame.of_setTable {vm vm1 : VM} {ref : TableRef} {t : Table}
    (h : setTable vm ref t = some vm1) : SetFrame vm vm1 := by
  obtain ⟨_, h1, h2, h3, _, _, h6⟩ := setTable_spec h
  exact ⟨h1, h2, by omega, fun a _ => h6 a⟩

theorem growRuns_congr {sz : Sizes} {stress : Bool} {vm vm1 : VM} {capacity : Int}
    (h : GrowRuns sz stress vm capacity) (hheap : vm1.heap = vm.heap)
    (hcap : vm1.heapCapacity = vm.heapCapacity) (hnext : vm1.next = vm.next)
    (hbytes : vm1.bytesAllocated = vm.bytesAllocated) (hgc : vm1.nextGC = vm.nextGC) :
    GrowRuns sz stress vm1 capacity := by
  unfold GrowRuns triggersCollection at h ⊢
  rw [hheap, hcap, hnext, hbytes, hgc]
  exact h

/-- One round of `tableSet` and `tableDelete` of the absent key returns and
keeps the invariant of the repetitions. -/
theorem setDelete_step {sz : Sizes} {stress : Bool} {vm vm1 : VM} {ref : TableRef}
    {key h : Nat} {t t1 : Table} (fuel : Nat) (value : Value)
    (href : ref.Below vm.next) (hh : hashAt vm.mem key = some h) (hkey : key < vm.next)
    (harena : ArenaSmall sz vm) (hnone : t.lookup key = none)
    (hroom : GrowRuns sz stress vm (GROW_CAPACITY (t.capacityMask + 1)))
    (hinv : SetDeleteInv ref key vm t vm1 t1) :
    ∃ vm2 t2, setDelete sz stress fuel vm1 ref key value = .ok vm2 ∧
      SetDeleteInv ref key vm t vm2 t2 := by
  have hkz := hashAt_ne_zero hh
  have hh1 : hashAt vm1.mem key = some h := by rw [hinv.frame.hash key hkey]; exact hh
  have hnone1 : t1.lookup key = none := by rw [hinv.look key hkz]; exact hnone
  have hmask : t1.capacityMask + 1 = (t1.entries.length : Int) := by
    simp [Table.capacityMask]
  have hruns : SetRuns sz stress vm1 t1 := by
    intro hg
    rcases hinv.phase with ⟨hn, hb, hgc, hl⟩ | ⟨_, hload⟩
    · have hm : t1.capacityMask = t.capacityMask := by simp [Table.capacityMask, hl]
      rw [hm]
      exact growRuns_congr hroom hinv.frame.heap hinv.frame.heapCapacity hn hb hgc
    · rw [hmask] at hg
      omega
  obtain ⟨vmA, tA, b, hset, hcore, hgetA, hframeA, hlen, hsame, _⟩ :=
    tableSet_forward fuel value hinv.get hinv.wf (hinv.keys.mono hinv.frame.next_le)
      (TableRef.below_mono href hinv.frame.next_le) hh1 (Nat.lt_of_lt_of_le hkey hinv.frame.next_le)
      (harena.frame hinv.frame) hruns
  obtain ⟨tB, t2, hcoreB, hdel, hwf2, hlook2, hlen2, htomb2, hgrown, hkept⟩ :=
    setDelete_core value hinv.wf hh1 hnone1 hlen
  rw [hcore] at hcoreB
  cases hcoreB
  have hkeyA : hashAt vmA.mem key = hashAt vm1.mem key :=
    hframeA.hash key (Nat.lt_of_lt_of_le hkey hinv.frame.next_le)
  obtain ⟨vm2, hset2⟩ := setTable_returns t2 hgetA
  obtain ⟨hget2, _, _, hnext2, hbytes2, hgc2, hhash2⟩ := setTable_spec hset2
  have hframe2 : SetFrame vm1 vm2 := hframeA.trans (SetFrame.of_setTable hset2)
  have hkey2 : hashAt vm2.mem key = hashAt vm1.mem key :=
    hframe2.hash key (Nat.lt_of_lt_of_le hkey hinv.frame.next_le)
  have hkeys2 : KeysBelow t2 vm.next := by
    apply keysBelow_of_lookup hwf2
    intro k v hk hv
    rw [hlook2 k hk] at hv
    exact lookup_below hinv.wf hinv.keys hk hv
  refine ⟨vm2, t2, ?_, ?_⟩
  · unfold setDelete
    rw [hset]
    simp only
    rw [hgetA]
    simp only
    rw [tableDelete_congr _ hkeyA, hdel]
    simp only
    rw [hset2]
  · refine ⟨hget2, ?_, hkeys2, hinv.frame.trans hframe2,
      fun k hk => by rw [hlook2 k hk, hinv.look k hk], Nat.le_trans hinv.len hlen2, ?_⟩
    · exact hwf2.congr (fun e he hk =>
        hframe2.hash e.key (Nat.lt_of_lt_of_le (hkeys2 e he hk) hinv.frame.next_le))
    · by_cases hg : 4 * (t1.count + 1) > 3 * (t1.capacityMask + 1)
      · exact Or.inr ⟨htomb2.of_hash hkey2, hgrown hg⟩
      · obtain ⟨hl2, hcount2⟩ := hkept hg
        obtain ⟨hnA, hbA, hgcA⟩ := hsame hg
        rcases hinv.phase with ⟨hn, hb, hgc, hl⟩ | ⟨htomb1, hload⟩
        · exact Or.inl ⟨by rw [hnext2, hnA, hn], by rw [hbytes2, hbA, hb],
            by rw [hgc2, hgcA, hgc], by rw [hl2, hl]⟩
        · exact Or.inr ⟨htomb2.of_hash hkey2, by rw [hcount2 htomb1, hl2]; exact hload⟩

/-- The repetitions of `tableSet` and `tableDelete` of the absent key return
and keep the invariant. -/
theorem setDeleteTimes_inv {sz : Sizes} {stress : Bool} {vm : VM} {ref : TableRef}
    {key h : Nat} {t : Table} (fuel : Nat) (value : Value)
    (href : ref.Below vm.next) (hh : hashAt vm.mem key = some h) (hkey : key < vm.next)
    (harena : ArenaSmall sz vm) (hnone : t.lookup key = none)
    (hroom : GrowRuns sz stress vm (GROW_CAPACITY (t.capacityMask + 1))) :
    ∀ (n : Nat) (vm1 : VM) (t1 : Table), SetDeleteInv ref key vm t vm1 t1 →
      ∃ vm2 t2, setDeleteTimes sz stress fuel ref key value n vm1 = .ok vm2 ∧
        SetDeleteInv ref key vm t vm2 t2 := by
  intro n
  induction n with
  | zero => intro vm1 t1 hinv; exact ⟨vm1, t1, rfl, hinv⟩
  | succ n ih =>
    intro vm1 t1 hinv
    obtain ⟨vm2, t2, hstep, hinv2⟩ :=
      setDelete_step fuel value href hh hkey harena hnone hroom hinv
    obtain ⟨vm3, t3, hrest, hinv3⟩ := ih vm2 t2 hinv2
    refine ⟨vm3, t3, ?_, hinv3⟩
    simp only [setDeleteTimes, hstep]
    exact hrest

/-! ## `tableFindString` on a well-formed table -/

theorem exists_first_stop_of (P : Entry → Prop) (E : List Entry) (n s : Nat)
    (hn : E.length = n) (hs : s < n) (h : E.countP (fun e => !e.isEmpty) < E.length) :
    ∃ d, d < n ∧
      (∃ e, E[probe n s d]? = some e ∧ (e.isEmpty = true ∨ P e)) ∧
      ∀ d1, d1 < d → ∃ e, E[probe n s d1]? = some e ∧ e.isEmpty = false ∧ ¬ P e := by
  classical
  obtain ⟨i, e, hi, he⟩ := exists_isEmpty_of_countP_lt E h
  have hilt : i < n := by
    rw [← hn]
    exact (List.getElem?_eq_some_iff.mp hi).1
  obtain ⟨d0, hd0, hp0⟩ := probe_reaches hs hilt
  have hex : ∃ d, ∃ e, E[probe n s d]? = some e ∧ (e.isEmpty = true ∨ P e) :=
    ⟨d0, e, by rw [hp0]; exact hi, Or.inl he⟩
  refine ⟨Nat.find hex, ?_, Nat.find_spec hex, ?_⟩
  · exact Nat.lt_of_le_of_lt (Nat.find_min' hex ⟨e, by rw [hp0]; exact hi, Or.inl he⟩) hd0
  · intro d1 hd1
    have hmin := Nat.find_min hex hd1
    have hlt : probe n s d1 < E.length := by rw [hn]; exact probe_lt (by omega) s d1
    refine ⟨E[probe n s d1], List.getElem?_eq_getElem hlt, ?_, ?_⟩
    · cases hemp : (E[probe n s d1]).isEmpty with
      | false => rfl
      | true => exact absurd ⟨_, List.getElem?_eq_getElem hlt, Or.inl hemp⟩ hmin
    · intro hk
      exact hmin ⟨_, List.getElem?_eq_getElem hlt, Or.inr hk⟩

theorem stringAt_read {m : Mem} {key h : Nat} {c : List Nat}
    (hs : stringAt m key = some (h, c)) :
    ∃ f, m.read key = some { forwardingAddress := f, body := .string h c } := by
  unfold stringAt at hs
  split at hs
  · rename_i f hash chars hr
    cases hs
    exact ⟨f, hr⟩
  · cases hs

theorem hashAt_of_stringAt {m : Mem} {key h : Nat} {c : List Nat}
    (hs : stringAt m key = some (h, c)) : hashAt m key = some h := by
  obtain ⟨f, hr⟩ := stringAt_read hs
  simp only [hashAt, hr]

theorem stringAt_of_hashAt {m : Mem} {key h : Nat} (hh : hashAt m key = some h) :
    ∃ c, stringAt m key = some (h, c) := by
  unfold hashAt at hh
  split at hh
  · rename_i f hash chars hr
    cases hh
    exact ⟨chars, by simp only [stringAt, hr]⟩
  · cases hh

/-- The probe of `tableFindString`: when the slots at the first `d` steps are
tombstones or hold strings other than the one looked for, and the slot at step
`d` is empty or holds such a string, the loop returns `NULL` or that key. -/
theorem tableFindStringLoop_spec (m : Mem) (E : List Entry) (chars : List Nat)
    (hash n k : Nat) (hk : n = 2 ^ k) (hk32 : k ≤ 32)
    (hvalid : ∀ e, e ∈ E → e.key ≠ 0 → ∃ h c, stringAt m e.key = some (h, c)) :
    ∀ (d fuel i : Nat), d < fuel → i < n →
      (∀ d1, d1 < d → ∃ e, E[probe n i d1]? = some e ∧ e.isEmpty = false ∧
        ¬ (e.key ≠ 0 ∧ stringAt m e.key = some (hash, chars))) →
      (∃ e, E[probe n i d]? = some e ∧
        (e.isEmpty = true ∨ (e.key ≠ 0 ∧ stringAt m e.key = some (hash, chars)))) →
      ∃ r e, tableFindStringLoop m E (n - 1) chars hash fuel i = some r ∧
        E[probe n i d]? = some e ∧
        ((e.isEmpty = true ∧ r = 0) ∨
         (e.key ≠ 0 ∧ stringAt m e.key = some (hash, chars) ∧ r = e.key)) := by
  intro d
  induction d with
  | zero =>
    intro fuel i hf hi _ hstop
    obtain ⟨e, he, hs⟩ := hstop
    rw [probe_zero hi] at he ⊢
    cases fuel with
    | zero => omega
    | succ f =>
      simp only [tableFindStringLoop, he]
      rcases hs with hs | ⟨hk0, hs⟩
      · have hs1 := hs
        simp only [Entry.isEmpty, Bool.and_eq_true, decide_eq_true_eq] at hs1
        simp only [hs1.1, hs1.2, if_true]
        exact ⟨0, e, rfl, rfl, Or.inl ⟨hs, rfl⟩⟩
      · obtain ⟨f0, hr⟩ := stringAt_read hs
        rw [if_neg hk0]
        simp only [hr, and_self, if_true]
        exact ⟨e.key, e, rfl, rfl, Or.inr ⟨hk0, hs, rfl⟩⟩
  | succ d ih =>
    intro fuel i hf hi hpass hstop
    have hn0 : 0 < n := by omega
    obtain ⟨e, he, hne, hnm⟩ := hpass 0 (by omega)
    rw [probe_zero hi] at he
    cases fuel with
    | zero => omega
    | succ f =>
      have hi1 : (i + 1) % n < n := Nat.mod_lt _ hn0
      have hpass1 : ∀ d1, d1 < d →
          ∃ e, E[probe n ((i + 1) % n) d1]? = some e ∧ e.isEmpty = false ∧
            ¬ (e.key ≠ 0 ∧ stringAt m e.key = some (hash, chars)) := by
        intro d1 hd1
        have := hpass (d1 + 1) (by omega)
        rwa [probe_succ] at this
      have hstop1 : ∃ e, E[probe n ((i + 1) % n) d]? = some e ∧
          (e.isEmpty = true ∨ (e.key ≠ 0 ∧ stringAt m e.key = some (hash, chars))) := by
        rwa [probe_succ] at hstop
      obtain ⟨r, e1, hr, he1, hcase⟩ := ih f ((i + 1) % n) (by omega) hi1 hpass1 hstop1
      refine ⟨r, e1, ?_, by rw [probe_succ]; exact he1, hcase⟩
      simp only [tableFindStringLoop, he, mask_step hk hk32 i]
      by_cases hk0 : e.key = 0
      · have hnil : e.value.isNil = false := by
          simpa [Entry.isEmpty, hk0] using hne
        simp only [hk0, if_true, hnil]
        exact hr
      · obtain ⟨h1, c1, hs1⟩ := hvalid e (List.getElem?_mem he) hk0
        obtain ⟨f1, hr1⟩ := stringAt_read hs1
        rw [if_neg hk0]
        simp only [hr1]
        have hneq : ¬ (c1.length = chars.length ∧ h1 = hash ∧ c1 = chars) := by
          rintro ⟨_, hh, hc⟩
          exact hnm ⟨hk0, by rw [hs1, hh, hc]⟩
        rw [if_neg hneq]
        exact hr

/-- On a well-formed table `tableFindString` returns; it returns `NULL` when
no key of the table points to a string with the hash and the characters looked
for, and else a key of the table that does. -/
theorem tableFindString_wf {m : Mem} {t : Table} (chars : List Nat) (hash : Nat)
    (hwf : TableWF (hashAt m) t) :
    ∃ r, tableFindString m t chars hash = some r ∧
      (r = 0 ↔ ∀ e, e ∈ t.entries → e.key ≠ 0 → stringAt m e.key ≠ some (hash, chars)) ∧
      (r ≠ 0 → (∃ e, e ∈ t.entries ∧ e.key = r) ∧ stringAt m r = some (hash, chars)) := by
  unfold tableFindString
  by_cases hc : t.count = 0
  · rw [if_pos hc]
    have hcount := hwf.count_eq
    rw [hc] at hcount
    have hzero : t.entries.countP (fun e => !e.isEmpty) = 0 := by omega
    refine ⟨0, rfl, ⟨fun _ e he hk => ?_, fun _ => rfl⟩, fun h0 => absurd rfl h0⟩
    have := List.countP_eq_zero.mp hzero e he
    simp [Entry.isEmpty, hk] at this
  · rw [if_neg hc]
    have hn := length_pos_of_count hwf hc
    obtain ⟨k, _, hk32, hkn⟩ := hwf.pow2 hn
    have hs : hash % t.entries.length < t.entries.length := Nat.mod_lt _ hn
    have hvalid : ∀ e, e ∈ t.entries → e.key ≠ 0 → ∃ h c, stringAt m e.key = some (h, c) := by
      intro e he hk
      obtain ⟨i, hi, hget⟩ := List.getElem_of_mem he
      obtain ⟨h, _, hh, _⟩ := hwf.reach i e (by rw [List.getElem?_eq_getElem hi, hget]) hk
      obtain ⟨c, hc1⟩ := stringAt_of_hashAt hh
      exact ⟨h, c, hc1⟩
    obtain ⟨d, hd, hstop, hpass⟩ :=
      exists_first_stop_of (fun e => e.key ≠ 0 ∧ stringAt m e.key = some (hash, chars))
        t.entries t.entries.length (hash % t.entries.length) rfl hs (hwf.not_full hn)
    obtain ⟨r, e, hr, he, hcase⟩ :=
      tableFindStringLoop_spec m t.entries chars hash t.entries.length k hkn hk32 hvalid d
        (t.entries.length + 1) (hash % t.entries.length) (by omega) hs hpass hstop
    rw [hwf.mask hn, mask_start hkn, hr]
    refine ⟨r, rfl, ?_, ?_⟩
    · constructor
      · intro hr0 e1 he1 hk1 hs1
        rcases hcase with ⟨hemp, _⟩ | ⟨hk0, _, hrk⟩
        · obtain ⟨i, hi, hget⟩ := List.getElem_of_mem he1
          have hi1 : t.entries[i]? = some e1 := by rw [List.getElem?_eq_getElem hi, hget]
          obtain ⟨h1, d1, hh1, hd1, hid1, hpath1⟩ := hwf.reach i e1 hi1 hk1
          rw [hashAt_of_stringAt hs1] at hh1
          cases hh1
          rcases Nat.lt_trichotomy d1 d with hlt | heq | hgt
          · obtain ⟨e2, he2, _, hnm⟩ := hpass d1 hlt
            rw [← hid1, hi1] at he2
            cases he2
            exact hnm ⟨hk1, hs1⟩
          · rw [heq] at hid1
            rw [← hid1, hi1] at he
            cases he
            simp [Entry.isEmpty, hk1] at hemp
          · obtain ⟨e2, he2, hne2⟩ := hpath1 d hgt
            rw [he] at he2
            cases he2
            rw [hemp] at hne2
            cases hne2
        · exact hk0 (by rw [← hrk]; exact hr0)
      · intro hall
        rcases hcase with ⟨_, hr0⟩ | ⟨hk0, hs1, _⟩
        · exact hr0
        · exact absurd hs1 (hall e (List.getElem?_mem he) hk0)
    · intro hr0
      rcases hcase with ⟨_, hr1⟩ | ⟨hk0, hs1, hrk⟩
      · exact absurd hr1 hr0
      · exact ⟨⟨e, List.getElem?_mem he, hrk.symm⟩, by rw [hrk]; exact hs1⟩

/-! ## `tableRemoveWhite` on a well-formed table -/

theorem read_of_hashAt {m : Mem} {key h : Nat} (hh : hashAt m key = some h) :
    ∃ o, m.read key = some o := by
  unfold hashAt at hh
  split at hh
  · rename_i f hash chars hr
    exact ⟨_, hr⟩
  · cases hh

/-- The loop of `tableRemoveWhite` from slot `i`: it returns a well-formed
table with the same `count` in which the slots before `i` are as they were,
the slots from `i` on that held an unmarked key hold a tombstone, and the
other slots from `i` on are as they were. -/
theorem tableRemoveWhiteLoop_spec (m : Mem) :
    ∀ (n i : Nat) (t : Table), TableWF (hashAt m) t → i + n = t.entries.length →
      ∃ t1, tableRemoveWhiteLoop m n i t = some t1 ∧ TableWF (hashAt m) t1 ∧
        t1.count = t.count ∧ t1.entries.length = t.entries.length ∧
        (∀ (j : Nat), j < i → t1.entries[j]? = t.entries[j]?) ∧
        (∀ (j : Nat) (e : Entry), i ≤ j → t1.entries[j]? = some e → e.key ≠ 0 →
          Marked m e.key ∧ t.entries[j]? = some e) ∧
        (∀ (j : Nat) (e : Entry), t.entries[j]? = some e → e.key ≠ 0 → Marked m e.key →
          t1.entries[j]? = some e) ∧
        (∀ (j : Nat) (e : Entry), t1.entries[j]? = some e → e.key ≠ 0 →
          t.entries[j]? = some e) := by
  intro n
  induction n with
  | zero =>
    intro i t hwf hi
    refine ⟨t, rfl, hwf, rfl, rfl, fun _ _ => rfl, ?_, fun _ _ h _ _ => h, fun _ _ h _ => h⟩
    intro j e hj he _
    have := (List.getElem?_eq_some_iff.mp he).1
    omega
  | succ n ih =>
    intro i t hwf hi
    have hilt : i < t.entries.length := by omega
    have hei : t.entries[i]? = some t.entries[i] := List.getElem?_eq_getElem hilt
    simp only [tableRemoveWhiteLoop, hei]
    by_cases hk : (t.entries[i]).key = 0
    · simp only [hk, ne_eq, not_true_eq_false, if_false]
      obtain ⟨t1, hrun, hwf1, hc1, hl1, hbefore, hafter, hkeep, horig⟩ :=
        ih (i + 1) t hwf (by omega)
      refine ⟨t1, hrun, hwf1, hc1, hl1, fun j hj => hbefore j (by omega), ?_, hkeep, horig⟩
      intro j e hj he hke
      by_cases hji : j = i
      · subst hji
        rw [hbefore j (by omega), hei] at he
        cases he
        exact absurd hk hke
      · exact hafter j e (by omega) he hke
    · obtain ⟨h, d, hh, _⟩ := hwf.reach i _ hei hk
      obtain ⟨o, ho⟩ := read_of_hashAt hh
      simp only [ne_eq, hk, not_false_eq_true, if_true, ho]
      by_cases hw : o.forwardingAddress = 0
      · rw [if_pos hw]
        obtain ⟨t2, b, hdel, hwf2, hb, _, htomb, _⟩ := tableDelete_spec hwf hh
        have hbt : b = true := by
          cases b with
          | true => rfl
          | false =>
            have := hb.mp rfl
            rw [lookup_of_slot hwf hei rfl hk] at this
            cases this
        subst hbt
        obtain ⟨p, e1, hp, hk1, ht2⟩ := htomb rfl
        have hpi : p = i := hwf.distinct p i e1 _ hp hei (by rw [hk1]; exact hk) hk1
        subst hpi
        have hslot : ∀ q, t2.entries[q]? =
            if q = p then some { key := 0, value := .bool true } else t.entries[q]? := by
          intro q
          rw [ht2]
          exact getElem?_set_slot _ _ _ _ hilt
        have hlen2 : t2.entries.length = t.entries.length := by rw [ht2]; simp
        have hcount2 : t2.count = t.count := by rw [ht2]
        rw [hdel]
        simp only
        obtain ⟨t1, hrun, hwf1, hc1, hl1, hbefore, hafter, hkeep, horig⟩ :=
          ih (p + 1) t2 hwf2 (by rw [hlen2]; omega)
        refine ⟨t1, hrun, hwf1, by rw [hc1, hcount2], by rw [hl1, hlen2], ?_, ?_, ?_, ?_⟩
        · intro j hj
          rw [hbefore j (by omega), hslot j, if_neg (by omega)]
        · intro j e hj he hke
          by_cases hjp : j = p
          · subst hjp
            rw [hbefore j (by omega), hslot j, if_pos rfl] at he
            cases he
            exact absurd rfl hke
          · obtain ⟨hm, he2⟩ := hafter j e (by omega) he hke
            rw [hslot j, if_neg hjp] at he2
            exact ⟨hm, he2⟩
        · intro j e he hke hm
          have hjp : j ≠ p := by
            intro hjp
            subst hjp
            rw [hei] at he
            cases he
            obtain ⟨o1, ho1, hf1⟩ := hm
            rw [ho] at ho1
            cases ho1
            exact hf1 hw
          exact hkeep j e (by rw [hslot j, if_neg hjp]; exact he) hke hm
        · intro j e he hke
          have h2 := horig j e he hke
          by_cases hjp : j = p
          · subst hjp
            rw [hslot j, if_pos rfl] at h2
            cases h2
            exact absurd rfl hke
          · rw [hslot j, if_neg hjp] at h2
            exact h2
      · rw [if_neg hw]
        obtain ⟨t1, hrun, hwf1, hc1, hl1, hbefore, hafter, hkeep, horig⟩ :=
          ih (i + 1) t hwf (by omega)
        refine ⟨t1, hrun, hwf1, hc1, hl1, fun j hj => hbefore j (by omega), ?_, hkeep, horig⟩
        intro j e hj he hke
        by_cases hji : j = i
        · subst hji
          rw [hbefore j (by omega), hei] at he
          cases he
          exact ⟨⟨o, ho, hw⟩, hei⟩
        · exact hafter j e (by omega) he hke

/-! ## The tables that the calls of `table.c` lead to -/

theorem wf_initTable (H : Nat → Option Nat) : TableWF H initTable := by
  refine ⟨Or.inl rfl, by simp [initTable], by simp [initTable], ?_, ?_⟩
  · intro i j ei ej hi
    simp [initTable] at hi
  · intro i e hi
    simp [initTable] at hi

theorem keysBelow_initTable (n : Nat) : KeysBelow initTable n := by
  intro e he
  simp [initTable] at he

theorem count_live_tombstones (E : List Entry) :
    E.countP (fun e => !e.isEmpty) = liveCount E + tombstoneCount E := by
  induction E with
  | nil => rfl
  | cons e rest ih =>
    simp only [liveCount, tombstoneCount, List.countP_cons] at ih ⊢
    rw [ih]
    by_cases hk : e.key = 0
    · cases hn : e.value.isNil with
      | true => simp [Entry.isEmpty, hk, hn]
      | false => simp [Entry.isEmpty, hk, hn]; omega
    · simp [Entry.isEmpty, hk]
      omega

theorem tableSet_inv {sz : Sizes} {stress : Bool} {vm vm1 : VM} {ref : TableRef}
    {key h : Nat} {value : Value} {b : Bool} {t : Table} (hinv : TableInv sz ref vm t)
    (hh : hashAt vm.mem key = some h) (hkey : key < vm.next)
    (hrun : tableSet sz stress 0 vm ref key value = .ok (vm1, b)) :
    ∃ t1, TableInv sz ref vm1 t1 ∧ SetFrame vm vm1 ∧
      (∀ src, src ≠ ref → src.Below vm.next → getTable vm1 src = getTable vm src) := by
  have hruns := tableSet_zero_runs hrun hinv.get
  obtain ⟨vm2, t1, b2, hrun2, hcore, hget1, hframe, hlen, _, hother⟩ :=
    tableSet_forward 0 value hinv.get hinv.wf hinv.keys hinv.below hh hkey hinv.arena hruns
  rw [hrun] at hrun2
  cases hrun2
  obtain ⟨t2, b3, hcore2, hwf2, _, _, _⟩ := tableSetCore_spec value hinv.wf hh hlen
  have hkeys1 := tableSetCore_keysBelow hinv.wf hh hlen hinv.keys hkey hcore
  rw [hcore] at hcore2
  cases hcore2
  exact ⟨t1, ⟨hget1, hwf2.congr (fun e he hk => hframe.hash e.key (hkeys1 e he hk)),
    hkeys1.mono hframe.next_le, TableRef.below_mono hinv.below hframe.next_le,
    hinv.arena.frame hframe⟩, hframe, hother⟩

theorem store_inv {sz : Sizes} {vm vm1 : VM} {ref : TableRef} {t t1 : Table}
    (hinv : TableInv sz ref vm t) (hwf1 : TableWF (hashAt vm.mem) t1)
    (hkeys1 : KeysBelow t1 vm.next) (hset : setTable vm ref t1 = some vm1) :
    TableInv sz ref vm1 t1 := by
  obtain ⟨hget1, hheap, hcap, hnext, _, _, hhash⟩ := setTable_spec hset
  refine ⟨hget1, hwf1.congr (fun e _ _ => hhash e.key), by rw [hnext]; exact hkeys1,
    by rw [hnext]; exact hinv.below, ?_⟩
  have := hinv.arena
  unfold ArenaSmall at this ⊢
  rw [hheap, hcap]
  exact this

theorem tableAddAllLoop_inv {sz : Sizes} {stress : Bool} {ref src : TableRef} {ts : Table}
    (hne : src ≠ ref) :
    ∀ (n i : Nat) (vm vm1 : VM) (t : Table), TableInv sz ref vm t → src.Below vm.next →
      getTable vm src = some ts → ValidKeys vm ts →
      tableAddAllLoop sz stress 0 src ref n i vm = .ok vm1 →
      ∃ t1, TableInv sz ref vm1 t1 := by
  intro n
  induction n with
  | zero =>
    intro i vm vm1 t hinv _ _ _ hrun
    simp only [tableAddAllLoop] at hrun
    cases hrun
    exact ⟨t, hinv⟩
  | succ n ih =>
    intro i vm vm1 t hinv hbelow hsrc hvalid hrun
    simp only [tableAddAllLoop, hsrc] at hrun
    split at hrun
    · cases hrun
    · rename_i entry hentry
      by_cases hk : entry.key = 0
      · simp only [hk, ne_eq, not_true_eq_false, if_false] at hrun
        exact ih (i + 1) vm vm1 t hinv hbelow hsrc hvalid hrun
      · simp only [ne_eq, hk, not_false_eq_true, if_true] at hrun
        split at hrun
        · cases hrun
        · cases hrun
        · rename_i vm2 b hset
          obtain ⟨hlt, h, hh⟩ := hvalid entry (List.getElem?_mem hentry) hk
          obtain ⟨t2, hinv2, hframe, hother⟩ := tableSet_inv hinv hh hlt hset
          refine ih (i + 1) vm2 vm1 t2 hinv2 (TableRef.below_mono hbelow hframe.next_le)
            (by rw [hother src hne hbelow]; exact hsrc) ?_ hrun
          intro e he hke
          obtain ⟨hlt1, h1, hh1⟩ := hvalid e he hke
          exact ⟨Nat.lt_of_lt_of_le hlt1 hframe.next_le, h1, by rw [hframe.hash e.key hlt1]; exact hh1⟩

/-- Every state that the calls lead to from a state with the table
initialised holds a well-formed table. -/
theorem tableRun_inv {sz : Sizes} {stress : Bool} {ref : TableRef} {vm0 vm : VM}
    (h0 : getTable vm0 ref = some initTable) (href : ref.Below vm0.next)
    (harena : ArenaSmall sz vm0) (hrun : TableRun sz stress ref vm0 vm) :
    ∃ t, TableInv sz ref vm t := by
  induction hrun with
  | start => exact ⟨initTable, h0, wf_initTable _, keysBelow_initTable _, href, harena⟩
  | set vm vm1 key h value b _ hh hkey hset ih =>
    obtain ⟨t, hinv⟩ := ih
    obtain ⟨t1, hinv1, _, _⟩ := tableSet_inv hinv hh hkey hset
    exact ⟨t1, hinv1⟩
  | delete vm vm1 t t1 key h b _ hh hget hdel hset ih =>
    obtain ⟨t0, hinv⟩ := ih
    have ht : t0 = t := Option.some.inj (hinv.get.symm.trans hget)
    subst ht
    obtain ⟨t2, b2, hdel2, hwf2, _, _, _, hlook⟩ := tableDelete_spec hinv.wf hh
    rw [hdel] at hdel2
    cases hdel2
    refine ⟨t1, store_inv hinv hwf2 ?_ hset⟩
    apply keysBelow_of_lookup hwf2
    intro k v hk hv
    rw [hlook k hk] at hv
    by_cases hkk : k = key
    · rw [if_pos hkk] at hv; cases hv
    · rw [if_neg hkk] at hv
      exact lookup_below hinv.wf hinv.keys hk hv
  | addAll vm vm1 src ts _ hne hbelow hsrc hvalid hadd ih =>
    obtain ⟨t, hinv⟩ := ih
    simp only [tableAddAll, hsrc] at hadd
    exact tableAddAllLoop_inv hne _ _ vm vm1 t hinv hbelow hsrc hvalid hadd
  | removeWhite vm vm1 t t1 _ hget hrem hset ih =>
    obtain ⟨t0, hinv⟩ := ih
    have ht : t0 = t := Option.some.inj (hinv.get.symm.trans hget)
    subst ht
    obtain ⟨t2, hrem2, hwf2, _, _, _, _, _, horig⟩ :=
      tableRemoveWhiteLoop_spec vm.mem t0.entries.length 0 t0 hinv.wf (by omega)
    unfold tableRemoveWhite at hrem
    rw [hrem] at hrem2
    cases hrem2
    refine ⟨t1, store_inv hinv hwf2 ?_ hset⟩
    intro e he hk
    obtain ⟨j, hj, hgetj⟩ := List.getElem_of_mem he
    have := horig j e (by rw [List.getElem?_eq_getElem hj, hgetj]) hk
    exact hinv.keys e (List.getElem?_mem this) hk
  | other vm vm1 _ hsame hframe ih =>
    obtain ⟨t, hinv⟩ := ih
    exact ⟨t, by rw [hsame]; exact hinv.get,
      hinv.wf.congr (fun e he hk => hframe.hash e.key (hinv.keys e he hk)),
      hinv.keys.mono hframe.next_le, TableRef.below_mono hinv.below hframe.next_le,
      hinv.arena.frame hframe⟩

/-! ## Interning the same characters twice -/

/-- With no fuel for the collector, a call of `allocateObject` that returns
has taken the block at `next` and written the header there. -/
theorem allocateObject_zero {sz : Sizes} {stress : Bool} {vm vmA : VM} {size s : Nat}
    {type : ObjType} (h : allocateObject sz stress 0 vm size type = .ok (vmA, s)) :
    s = vm.next ∧ 0 < vm.next ∧ 0 < size ∧
      vmA = { vm with
              bytesAllocated := accountBytes vm.bytesAllocated 0 size,
              next := vm.next + size,
              mem := vm.mem.write vm.next { forwardingAddress := 0, body := .blank type } } := by
  unfold allocateObject at h
  split at h
  · cases h
  · cases h
  · rename_i vm1 object hR
    have hno := reallocate_zero_no_trigger hR
    rw [reallocate_eq_of_no_collection sz stress 0 vm 0 0 size hno] at hR
    split at h
    · cases h
    · rename_i hobj
      split at hR
      · cases hR
        exact absurd rfl hobj
      · rename_i hsize
        split at hR
        · cases hR
        · cases hR
          cases h
          exact ⟨rfl, by omega, by omega, rfl⟩

theorem stringAt_congr {m m1 : Mem} {a : Nat} (h : m1.read a = m.read a) :
    stringAt m1 a = stringAt m a := by
  simp only [stringAt, h]

theorem hashAt_congr {m m1 : Mem} {a : Nat} (h : m1.read a = m.read a) :
    hashAt m1 a = hashAt m a := by
  simp only [hashAt, h]

theorem mem_keys_of_lookup {H : Nat → Option Nat} {t : Table} {key : Nat} {v : Value}
    (hwf : TableWF H t) (hkey : key ≠ 0) (h : t.lookup key = some v) :
    ∃ e, e ∈ t.entries ∧ e.key = key := by
  obtain ⟨p, e, hp, hk, _⟩ := (lookup_some_iff hwf hkey).mp h
  exact ⟨e, List.getElem?_mem hp, hk⟩

theorem lookup_of_mem {H : Nat → Option Nat} {t : Table} {e : Entry}
    (hwf : TableWF H t) (he : e ∈ t.entries) (hk : e.key ≠ 0) :
    t.lookup e.key = some e.value := by
  obtain ⟨i, hi, hget⟩ := List.getElem_of_mem he
  exact lookup_of_slot hwf (by rw [List.getElem?_eq_getElem hi, hget]) rfl hk

/-- After `tableSet` has stored a string as a key of the intern set in which
no key held its characters, `tableFindString` finds that string. -/
theorem intern_after_set {sz : Sizes} {stress : Bool} {vm vm3 : VM} {chars : List Nat}
    {hash s : Nat} {b : Bool}
    (hT : tableSet sz stress 0 vm .strings s .nil = .ok (vm3, b))
    (hwf : TableWF (hashAt vm.mem) vm.strings) (hkeys : KeysBelow vm.strings s)
    (hs : s < vm.next) (harena : ArenaSmall sz vm)
    (hstr : stringAt vm.mem s = some (hash, chars))
    (hnomatch : ∀ e, e ∈ vm.strings.entries → e.key ≠ 0 →
      stringAt vm.mem e.key ≠ some (hash, chars)) :
    tableFindString vm3.mem vm3.strings chars hash = some s := by
  have hsz : s ≠ 0 := hashAt_ne_zero (hashAt_of_stringAt hstr)
  have hruns := tableSet_zero_runs hT rfl
  obtain ⟨vm4, t1, b4, hT4, hget4, hwf4, _, hframe, _, _, hlook, _⟩ :=
    tableSet_spec 0 Value.nil (show getTable vm .strings = some vm.strings from rfl) hwf
      (hkeys.mono (Nat.le_of_lt hs)) trivial
      (hashAt_of_stringAt hstr) hs harena hruns
  rw [hT] at hT4
  cases hT4
  simp only [getTable] at hget4
  cases hget4
  have hkeep := fun a ha => tableSet_strings_mem hT a ha
  have hstrS : stringAt vm3.mem s = some (hash, chars) := by
    rw [stringAt_congr (hkeep s hs)]
    exact hstr
  obtain ⟨r2, hfind2, hr20, hr2ne⟩ := tableFindString_wf chars hash hwf4
  have hmem : ∃ e, e ∈ vm3.strings.entries ∧ e.key = s :=
    mem_keys_of_lookup hwf4 hsz (by rw [hlook _ hsz, if_pos rfl])
  have hr2 : r2 ≠ 0 := by
    intro h0
    obtain ⟨e, he, hk⟩ := hmem
    exact hr20.mp h0 e he (by rw [hk]; exact hsz) (by rw [hk]; exact hstrS)
  obtain ⟨⟨e2, he2, hk2⟩, hstr2⟩ := hr2ne hr2
  have hr2s : r2 = s := by
    by_contra hne
    have hl := lookup_of_mem hwf4 he2 (by rw [hk2]; exact hr2)
    rw [hk2, hlook r2 hr2, if_neg hne] at hl
    obtain ⟨e3, he3, hk3⟩ := mem_keys_of_lookup hwf hr2 hl
    have hlt : r2 < s := by rw [← hk3]; exact hkeys e3 he3 (by rw [hk3]; exact hr2)
    rw [stringAt_congr (hkeep r2 (by omega))] at hstr2
    exact hnomatch e3 he3 (by rw [hk3]; exact hr2) (by rw [hk3]; exact hstr2)
  rw [hfind2, hr2s]

/-- Two calls of `copyString` on the same characters in a row: when the first
returns without a collection, the second returns the same pointer and leaves
the state as the first left it. -/
theorem copyString_again {sz : Sizes} {stress : Bool} {vm vm1 : VM} {chars : List Nat}
    {p : Nat} (fuel : Nat) (hwf : TableWF (hashAt vm.mem) vm.strings)
    (hkeys : KeysBelow vm.strings vm.next) (harena : ArenaSmall sz vm)
    (h1 : copyString sz stress 0 vm chars = .ok (vm1, p)) :
    copyString sz stress fuel vm1 chars = .ok (vm1, p) := by
  unfold copyString allocateString at h1 ⊢
  obtain ⟨r, hfind, hr0, hrne⟩ := tableFindString_wf chars (hashString chars) hwf
  rw [hfind] at h1
  simp only at h1
  by_cases hr : r = 0
  · subst hr
    simp only [ne_eq, not_true_eq_false, if_false] at h1
    have hnomatch := hr0.mp rfl
    split at h1
    · cases h1
    · cases h1
    · rename_i vmA s hA
      obtain ⟨hs, hnext, hsize, hvmA⟩ := allocateObject_zero hA
      subst hs
      have hsz : vm.next ≠ 0 := by omega
      subst hvmA
      simp only [setBody, Mem.read_write_same _ _ _ hsz] at h1
      split at h1
      · cases h1
      · cases h1
      · rename_i vm3 b hT
        cases h1
        have hreadP : ∀ a, a < vm.next →
            ((vm.mem.write vm.next
                { forwardingAddress := 0, body := .blank .OBJ_STRING }).write vm.next
              { forwardingAddress := 0, body := .string (hashString chars) chars }).read a =
            vm.mem.read a := by
          intro a ha
          rw [Mem.read_write_ne _ _ _ _ (by omega), Mem.read_write_ne _ _ _ _ (by omega)]
        have hreadS : ((vm.mem.write vm.next
                { forwardingAddress := 0, body := .blank .OBJ_STRING }).write vm.next
              { forwardingAddress := 0, body := .string (hashString chars) chars }).read
              vm.next =
            some { forwardingAddress := 0, body := .string (hashString chars) chars } :=
          Mem.read_write_same _ _ _ hsz
        have hfind3 : tableFindString vm3.mem vm3.strings chars (hashString chars) =
            some vm.next :=
          intern_after_set hT
            (hwf.congr (fun e he hk => hashAt_congr (hreadP e.key (hkeys e he hk))))
            hkeys (by simp only [push]; omega)
            (by unfold ArenaSmall at harena ⊢; exact harena)
            (by simp only [stringAt, push, hreadS])
            (fun e he hk hx => hnomatch e he hk
              ((stringAt_congr (hreadP e.key (hkeys e he hk))).symm.trans hx))
        simp only [pop]
        rw [hfind3]
        simp only [hsz, ne_eq, not_false_eq_true, if_true]
  · have hne : r ≠ 0 := hr
    simp only [hne, ne_eq, not_false_eq_true, if_true] at h1
    cases h1
    rw [hfind]
    simp only [hne, ne_eq, not_false_eq_true, if_true]

/-! ## The address computation and the slide, object by object -/

theorem walkFrom_of_heapObjects (sz : Sizes) (next : Nat) :
    ∀ (fuel : Nat) (m : Mem) (frm : Nat) (os : List Obj),
      heapObjects sz fuel next m frm = some os → WalkFrom sz m frm os := by
  intro fuel
  induction fuel with
  | zero => intro m frm os h; simp [heapObjects] at h
  | succ n ih =>
    intro m frm os h
    simp only [heapObjects] at h
    split at h
    · cases hr : m.read frm with
      | none => simp [hr] at h
      | some o =>
        simp only [hr] at h
        cases hrest : heapObjects sz n next m (frm + sizeOfObject sz o) with
        | none => simp [hrest] at h
        | some rest =>
          simp only [hrest, Option.some.injEq] at h
          subst h
          exact ⟨hr, ih m _ rest hrest⟩
    · cases h
      trivial

theorem walkFrom_get (sz : Sizes) (m : Mem) :
    ∀ (os : List Obj) (a i : Nat) (o : Obj), WalkFrom sz m a os → os[i]? = some o →
      m.read (a + sizeSum sz (os.take i)) = some o := by
  intro os
  induction os with
  | nil => intro a i o _ h; simp at h
  | cons x rest ih =>
    intro a i o hw h
    simp only [WalkFrom] at hw
    cases i with
    | zero =>
      simp only [List.getElem?_cons_zero, Option.some.injEq] at h
      subst h
      simpa [sizeSum] using hw.1
    | succ j =>
      simp only [List.getElem?_cons_succ] at h
      have := ih (a + sizeOfObject sz x) j o hw.2 h
      simpa [sizeSum, Nat.add_assoc] using this

/-- The address computation on a walkable heap: it returns, and the objects
walked afterwards are those walked before with the forwarding addresses that
the specification assigns from `dest`. -/
theorem calculateNewLocationsLoop_assign (sz : Sizes) (hsz : sz.Pos) (next : Nat) :
    ∀ (fuel : Nat) (m : Mem) (dest frm : Nat) (os : List Obj), dest ≠ 0 →
      heapObjects sz fuel next m frm = some os →
      ∃ m1,
        calculateNewLocationsLoop sz fuel next m dest frm =
          some (m1, dest + liveSizeSum sz os) ∧
        heapObjects sz fuel next m1 frm = some (specAssignForwarding sz dest os) ∧
        (∀ a, a < frm → m1.read a = m.read a) := by
  intro fuel
  induction fuel with
  | zero => intro m dest frm os _ h; simp [heapObjects] at h
  | succ n ih =>
    intro m dest frm os hd h
    simp only [heapObjects] at h
    simp only [calculateNewLocationsLoop, heapObjects]
    by_cases hlt : frm < next
    · rw [if_pos hlt] at h
      simp only [if_pos hlt]
      cases hr : m.read frm with
      | none => simp [hr] at h
      | some o =>
        simp only [hr] at h
        cases hrest : heapObjects sz n next m (frm + sizeOfObject sz o) with
        | none => simp [hrest] at h
        | some rest =>
          simp only [hrest, Option.some.injEq] at h
          subst h
          have hpos := sizeOfObject_pos hsz o
          have hfrm := Mem.read_ne_zero hr
          by_cases hlive : o.forwardingAddress ≠ 0
          · simp only [if_pos hlive, liveSizeSum, specAssignForwarding]
            have hcongr : heapObjects sz n next
                (m.write frm { o with forwardingAddress := dest }) (frm + sizeOfObject sz o) =
                some rest := by
              rw [← hrest]
              exact heapObjects_congr sz next n _ _ _
                (fun a ha => Mem.read_write_ne _ _ _ _ (by omega))
            obtain ⟨m1, h1, h2, h4⟩ :=
              ih (m.write frm { o with forwardingAddress := dest }) (dest + sizeOfObject sz o)
                (frm + sizeOfObject sz o) rest (by omega) hcongr
            have hrd : m1.read frm = some { o with forwardingAddress := dest } := by
              rw [h4 frm (by omega), Mem.read_write_same _ _ _ hfrm]
            refine ⟨m1, ?_, ?_, ?_⟩
            · rw [h1]; simp [Nat.add_assoc]
            · simp only [hrd, sizeOfObject_setForwarding, h2]
            · intro a ha
              rw [h4 a (by omega), Mem.read_write_ne _ _ _ _ (by omega)]
          · simp only [if_neg hlive, liveSizeSum, specAssignForwarding]
            obtain ⟨m1, h1, h2, h4⟩ := ih m dest (frm + sizeOfObject sz o) rest hd hrest
            have hrd : m1.read frm = some o := by rw [h4 frm (by omega), hr]
            refine ⟨m1, h1, ?_, fun a ha => h4 a (by omega)⟩
            simp only [hrd, h2]
    · rw [if_neg hlt] at h
      simp only [if_neg hlt]
      cases h
      exact ⟨m, rfl, rfl, fun _ _ => rfl⟩

theorem sizeSum_specAssign (sz : Sizes) :
    ∀ (os : List Obj) (dest i : Nat),
      sizeSum sz ((specAssignForwarding sz dest os).take i) = sizeSum sz (os.take i) := by
  intro os
  induction os with
  | nil => intro dest i; simp [specAssignForwarding]
  | cons o rest ih =>
    intro dest i
    cases i with
    | zero => simp [sizeSum]
    | succ j =>
      simp only [specAssignForwarding]
      split
      · simp only [List.take_succ_cons, sizeSum, sizeOfObject_setForwarding, ih]
      · simp only [List.take_succ_cons, sizeSum, ih]

/-- The object at index `i` after the address computation: a dead object is
the object before, and a live one is the object before with the forwarding
address `dest` plus the sizes of the live objects that precede it. -/
theorem specAssign_get (sz : Sizes) :
    ∀ (os : List Obj) (dest i : Nat) (o : Obj), os[i]? = some o →
      (specAssignForwarding sz dest os)[i]? =
        some (if o.forwardingAddress ≠ 0
          then { o with forwardingAddress := dest + liveSizeSum sz (os.take i) } else o) := by
  intro os
  induction os with
  | nil => intro dest i o h; simp at h
  | cons x rest ih =>
    intro dest i o h
    cases i with
    | zero =>
      simp only [List.getElem?_cons_zero, Option.some.injEq] at h
      subst h
      simp only [specAssignForwarding]
      split <;> simp [liveSizeSum]
    | succ j =>
      simp only [List.getElem?_cons_succ] at h
      simp only [specAssignForwarding]
      by_cases hx : x.forwardingAddress ≠ 0
      · simp only [if_pos hx, List.getElem?_cons_succ, List.take_succ_cons, liveSizeSum]
        rw [ih (dest + sizeOfObject sz x) j o h, Nat.add_assoc]
      · simp only [if_neg hx, List.getElem?_cons_succ, List.take_succ_cons, liveSizeSum]
        rw [ih dest j o h]

theorem liveSizeSum_take_succ (sz : Sizes) :
    ∀ (os : List Obj) (i : Nat) (o : Obj), os[i]? = some o →
      liveSizeSum sz (os.take (i + 1)) =
        liveSizeSum sz (os.take i) +
          (if o.forwardingAddress ≠ 0 then sizeOfObject sz o else 0) := by
  intro os
  induction os with
  | nil => intro i o h; simp at h
  | cons x rest ih =>
    intro i o h
    cases i with
    | zero =>
      simp only [List.getElem?_cons_zero, Option.some.injEq] at h
      subst h
      simp only [List.take_succ_cons, List.take_zero, liveSizeSum]
      split <;> simp
    | succ j =>
      simp only [List.getElem?_cons_succ] at h
      simp only [List.take_succ_cons, liveSizeSum]
      rw [ih j o h]
      split <;> omega

theorem liveSizeSum_take_mono (sz : Sizes) (os : List Obj) :
    ∀ (i j : Nat), i ≤ j → liveSizeSum sz (os.take i) ≤ liveSizeSum sz (os.take j) := by
  intro i j hij
  induction j with
  | zero =>
    have : i = 0 := by omega
    subst this
    exact Nat.le_refl _
  | succ k ih =>
    by_cases hik : i = k + 1
    · subst hik; exact Nat.le_refl _
    · have h1 := ih (by omega)
      by_cases hk : k < os.length
      · have := liveSizeSum_take_succ sz os k os[k] (List.getElem?_eq_getElem hk)
        omega
      · have e1 : os.take (k + 1) = os := List.take_of_length_le (by omega)
        have e2 : os.take k = os := List.take_of_length_le (by omega)
        rw [e1]
        rw [e2] at h1
        exact h1

theorem sizeSum_slidObjects (sz : Sizes) (os : List Obj) :
    sizeSum sz (slidObjects os) = liveSizeSum sz os := by
  induction os with
  | nil => rfl
  | cons o rest ih =>
    simp only [slidObjects, liveSizeSum]
    split
    · simp only [sizeSum, sizeOfObject_setForwarding, ih]
    · exact ih

/-- The slide on a walkable heap that carries assigned addresses: it returns,
and the objects moved so far, followed by the live objects still to come with
their forwarding addresses cleared, lie one after the other from `base`. -/
theorem compactHeapLoop_slides (sz : Sizes) (hsz : sz.Pos) (next base : Nat) :
    ∀ (fuel : Nat) (m : Mem) (dest frm : Nat) (os : List Obj) (stop : Nat) (moved : List Obj),
      heapObjects sz fuel next m frm = some os →
      AssignedTo sz dest os stop →
      dest ≤ frm →
      WalkFrom sz m base moved → base + sizeSum sz moved = dest →
      ∃ m1, compactHeapLoop sz fuel next m frm = some m1 ∧
        WalkFrom sz m1 base (moved ++ slidObjects os) := by
  intro fuel
  induction fuel with
  | zero => intro m dest frm os stop moved h; simp [heapObjects] at h
  | succ n ih =>
    intro m dest frm os stop moved h hassigned hle hwalk hend
    simp only [heapObjects] at h
    simp only [compactHeapLoop]
    by_cases hlt : frm < next
    · rw [if_pos hlt] at h
      simp only [if_pos hlt]
      cases hr : m.read frm with
      | none => simp [hr] at h
      | some o =>
        simp only [hr] at h
        cases hrest : heapObjects sz n next m (frm + sizeOfObject sz o) with
        | none => simp [hrest] at h
        | some rest =>
          simp only [hrest, Option.some.injEq] at h
          subst h
          have hpos := sizeOfObject_pos hsz o
          simp only [AssignedTo] at hassigned
          rcases hassigned with ⟨hdead, hrec⟩ | ⟨hlive, hfwd, hrec⟩
          · simp only [hdead, ne_eq, not_true_eq_false, if_false, slidObjects]
            exact ih m dest (frm + sizeOfObject sz o) rest stop moved hrest hrec (by omega)
              hwalk hend
          · have hd : dest ≠ 0 := hfwd ▸ hlive
            simp only [slidObjects, if_pos hlive]
            simp only [hfwd, if_pos hd]
            have hm1 : ∃ m1 : Mem,
                (if dest ≠ frm then memmove sz m dest frm (sizeOfObject sz o) else m) = m1 ∧
                m1.read dest = some o ∧
                (∀ x o1, x ≠ dest → m.read x = some o1 → x + sizeOfObject sz o1 ≤ dest →
                  m1.read x = some o1) ∧
                (∀ a, dest + sizeOfObject sz o ≤ a → m1.read a = m.read a) := by
              by_cases hsame : dest = frm
              · refine ⟨m, by simp [hsame], by rw [hsame]; exact hr, fun x o1 _ h1 _ => h1,
                  fun _ _ => rfl⟩
              · refine ⟨_, rfl, ?_, ?_, ?_⟩
                · rw [if_pos hsame]; exact memmove_read_dest sz hd hr
                · intro x o1 hx h1 h2
                  rw [if_pos hsame]; exact memmove_read_below sz hx h1 h2
                · intro a ha
                  rw [if_pos hsame]; exact memmove_read_above sz m (by omega) ha
            obtain ⟨m1, hm1eq, hm1dest, hm1below, hm1above⟩ := hm1
            simp only [hm1eq, hm1dest]
            have hsuffix : heapObjects sz n next
                (m1.write dest { o with forwardingAddress := 0 }) (frm + sizeOfObject sz o) =
                some rest := by
              rw [← hrest]
              refine heapObjects_congr sz next n _ _ _ (fun a ha => ?_)
              rw [Mem.read_write_ne _ _ _ _ (by omega), hm1above a (by omega)]
            have hmoved : WalkFrom sz (m1.write dest { o with forwardingAddress := 0 }) base
                (moved ++ [{ o with forwardingAddress := 0 }]) := by
              rw [walkFrom_append]
              refine ⟨walkFrom_of_keeps_below sz ?_ moved base hwalk (Nat.le_of_eq hend), ?_⟩
              · intro x o1 h1 h2
                have hx : x ≠ dest := by
                  have := sizeOfObject_pos hsz o1
                  omega
                rw [Mem.read_write_ne _ _ _ _ hx]
                exact hm1below x o1 hx h1 h2
              · simp only [WalkFrom, hend, and_true]
                exact Mem.read_write_same _ _ _ hd
            obtain ⟨m2, hrun, hw2⟩ := ih _ (dest + sizeOfObject sz o) (frm + sizeOfObject sz o)
              rest stop (moved ++ [{ o with forwardingAddress := 0 }]) hsuffix hrec (by omega)
              hmoved (by
                rw [sizeSum_append]
                simp only [sizeSum, sizeOfObject_setForwarding]
                omega)
            refine ⟨m2, hrun, ?_⟩
            rw [List.append_assoc] at hw2
            exact hw2
    · rw [if_neg hlt] at h
      simp only [if_neg hlt]
      cases h
      exact ⟨m, rfl, by simpa [slidObjects] using hwalk⟩

/-- In a run of slid objects from `dest`, every live object of the list is
found with a cleared forwarding address at the address assigned to it. -/
theorem slid_read (sz : Sizes) (m : Mem) :
    ∀ (os : List Obj) (dest stop : Nat), AssignedTo sz dest os stop →
      WalkFrom sz m dest (slidObjects os) →
      ∀ o, o ∈ os → o.forwardingAddress ≠ 0 →
        m.read o.forwardingAddress = some { o with forwardingAddress := 0 } := by
  intro os
  induction os with
  | nil => intro dest stop _ _ o ho; simp at ho
  | cons x rest ih =>
    intro dest stop ha hw o ho hlive
    simp only [AssignedTo] at ha
    rcases ha with ⟨hdead, hrec⟩ | ⟨hl, hfwd, hrec⟩
    · simp only [slidObjects, hdead, ne_eq, not_true_eq_false, if_false] at hw
      rcases List.mem_cons.mp ho with h | h
      · subst h; exact absurd hdead hlive
      · exact ih dest stop hrec hw o h hlive
    · simp only [slidObjects, if_pos hl, WalkFrom, sizeOfObject_setForwarding] at hw
      rcases List.mem_cons.mp ho with h | h
      · subst h; rw [hfwd]; exact hw.1
      · exact ih _ stop hrec hw.2 o h hlive

theorem assignedTo_specAssign (sz : Sizes) :
    ∀ (os : List Obj) (dest : Nat), dest ≠ 0 →
      AssignedTo sz dest (specAssignForwarding sz dest os) (dest + liveSizeSum sz os) := by
  intro os
  induction os with
  | nil => intro dest _; simp [specAssignForwarding, AssignedTo, liveSizeSum]
  | cons o rest ih =>
    intro dest hd
    simp only [specAssignForwarding, liveSizeSum]
    by_cases hl : o.forwardingAddress ≠ 0
    · rw [if_pos hl, if_pos hl]
      have := ih (dest + sizeOfObject sz o) (by omega)
      rw [Nat.add_assoc] at this
      exact Or.inr ⟨hd, rfl, this⟩
    · rw [if_neg hl, if_neg hl]
      exact Or.inl ⟨by simpa using hl, ih dest hd⟩

/-! ## Sample tables are well formed -/

theorem wf_of_tableSetCore {m : Mem} {t t1 : Table} {key h : Nat} {value : Value} {b : Bool}
    (hwf : TableWF (hashAt m) t) (hh : hashAt m key = some h)
    (hlen : t.entries.length < 1073741824)
    (hrun : tableSetCore m t key value = some (t1, b)) : TableWF (hashAt m) t1 := by
  obtain ⟨t2, b2, hrun2, hwf2, _⟩ := tableSetCore_spec value hwf hh (fun _ => hlen)
  rw [hrun] at hrun2
  cases hrun2
  exact hwf2

theorem wf_of_tableDelete {m : Mem} {t t1 : Table} {key h : Nat} {b : Bool}
    (hwf : TableWF (hashAt m) t) (hh : hashAt m key = some h)
    (hrun : tableDelete m t key = some (t1, b)) : TableWF (hashAt m) t1 := by
  obtain ⟨t2, b2, hrun2, hwf2, _⟩ := tableDelete_spec hwf hh
  rw [hrun] at hrun2
  cases hrun2
  exact hwf2

theorem wf_internedFirst : TableWF (hashAt internedVM.mem) internedFirst :=
  wf_of_tableSetCore (wf_initTable _) (show hashAt internedVM.mem 4096 = some _ from rfl)
    (by decide) (show tableSetCore internedVM.mem initTable 4096 .nil = some (_, true) from rfl)

theorem wf_interned : TableWF (hashAt internedVM.mem) internedVM.strings :=
  wf_of_tableSetCore wf_internedFirst (show hashAt internedVM.mem 4138 = some _ from rfl)
    (by decide)
    (show tableSetCore internedVM.mem internedFirst 4138 .nil = some (_, true) from rfl)

theorem wf_colliding : TableWF (hashAt collidingMem) collidingTable :=
  wf_of_tableSetCore
    (wf_of_tableSetCore (wf_initTable _) (show hashAt collidingMem 4096 = some _ from rfl)
      (by decide)
      (show tableSetCore collidingMem initTable 4096 (.number 1) = some (_, true) from rfl))
    (show hashAt collidingMem 4138 = some _ from rfl) (by decide)
    (show tableSetCore collidingMem _ 4138 (.number 2) = some (collidingTable, true) from rfl)

theorem wf_tombstone : TableWF (hashAt collidingMem) tombstoneTable :=
  wf_of_tableDelete wf_colliding (show hashAt collidingMem 4096 = some _ from rfl)
    (show tableDelete collidingMem collidingTable 4096 = some (tombstoneTable, true) from rfl)

/-! ## Interning: the round trip -/

/-- C11: two calls of `copyString` in a row on the same characters, from a
state whose intern set is well formed: when the first call returns without a
collection and without running out of memory (it returns with no fuel for the
collector), the second call returns the same pointer and allocates nothing:
it leaves `next`, `bytesAllocated`, the memory and the intern set as the first
call left them. -/
theorem copyString_round_trip (sz : Sizes) (stress : Bool) (fuel : Nat) (vm vm1 : VM)
    (chars : List Nat) (p : Nat) (hwf : TableWF (hashAt vm.mem) vm.strings)
    (hkeys : KeysBelow vm.strings vm.next) (harena : ArenaSmall sz vm)
    (h1 : copyString sz stress 0 vm chars = .ok (vm1, p)) :
    ∃ vm2 q, copyString sz stress fuel vm1 chars = .ok (vm2, q) ∧ q = p ∧
      vm2.next = vm1.next ∧ vm2.bytesAllocated = vm1.bytesAllocated ∧
      vm2.mem = vm1.mem ∧ vm2.strings = vm1.strings :=
  ⟨vm1, p, copyString_again fuel hwf hkeys harena h1, rfl, rfl, rfl, rfl, rfl⟩

theorem copyString_round_trip_witness :
    ∃ vm1, copyString sizes64 false 0 (initVM 4096 1048576 1048576) [97] = .ok (vm1, 4096) ∧
      vm1.next = 4330 ∧
      ∃ vm2 q, copyString sizes64 false 1 vm1 [97] = .ok (vm2, q) ∧ q = 4096 ∧
        vm2.next = vm1.next ∧ vm2.bytesAllocated = vm1.bytesAllocated ∧
        vm2.mem = vm1.mem ∧ vm2.strings = vm1.strings :=
  ⟨_, rfl, rfl,
    copyString_round_trip sizes64 false 1 (initVM 4096 1048576 1048576) _ [97] 4096
      (wf_initTable _) (keysBelow_initTable _) (by decide) rfl⟩

/-! ## The contract of the hash table -/

/-- C12: `tableSet` on a well-formed table whose keys are strings below
`next`, with a key that is such a string, in a call that runs no collection
and finds room for the array it may allocate (`SetRuns`): the call returns,
also when it grows and rehashes the table, and afterwards `tableGet` of the
key returns `true` with the value set, and `tableGet` of every other string
returns what it returned before the call. -/
theorem tableGet_after_tableSet (sz : Sizes) (stress : Bool) (fuel : Nat) (vm : VM)
    (ref : TableRef) (key h : Nat) (value : Value) (t : Table)
    (hget : getTable vm ref = some t) (hwf : TableWF (hashAt vm.mem) t)
    (hkeys : KeysBelow t vm.next) (href : ref.Below vm.next)
    (hh : hashAt vm.mem key = some h) (hkey : key < vm.next)
    (harena : ArenaSmall sz vm) (hruns : SetRuns sz stress vm t) :
    ∃ vm1 t1 b, tableSet sz stress fuel vm ref key value = .ok (vm1, b) ∧
      getTable vm1 ref = some t1 ∧
      tableGet vm1.mem t1 key = some (some value) ∧
      ∀ k hk, k ≠ key → k < vm.next → hashAt vm.mem k = some hk →
        tableGet vm1.mem t1 k = tableGet vm.mem t k := by
  obtain ⟨vm1, t1, b, hrun, hget1, hwf1, _, hframe, _, _, hlook, _⟩ :=
    tableSet_spec fuel value hget hwf hkeys href hh hkey harena hruns
  refine ⟨vm1, t1, b, hrun, hget1, ?_, ?_⟩
  · rw [tableGet_eq_lookup hwf1 (by rw [hframe.hash key hkey]; exact hh),
      hlook key (hashAt_ne_zero hh), if_pos rfl]
  · intro k hk hne hlt hhk
    rw [tableGet_eq_lookup hwf1 (by rw [hframe.hash k hlt]; exact hhk),
      tableGet_eq_lookup hwf hhk, hlook k (hashAt_ne_zero hhk), if_neg hne]

theorem tableGet_after_tableSet_witness :
    ∃ vm1 t1 b,
      tableSet sizes64 false 1 rootedStringVM .globals 4096 (.number 1) = .ok (vm1, b) ∧
      getTable vm1 .globals = some t1 ∧
      tableGet vm1.mem t1 4096 = some (some (.number 1)) ∧
      ∀ k hk, k ≠ 4096 → k < rootedStringVM.next → hashAt rootedStringVM.mem k = some hk →
        tableGet vm1.mem t1 k = tableGet rootedStringVM.mem initTable k :=
  tableGet_after_tableSet sizes64 false 1 rootedStringVM .globals 4096 (hashString [97])
    (.number 1) initTable rfl (wf_initTable _) (keysBelow_initTable _) trivial rfl
    (by decide) (by decide) (by decide)

/-- C13: `tableSet` on a well-formed table, in a call that runs no collection
and finds room: the call returns `true` exactly when `tableGet` of the key
returned `false` before the call, and `false` exactly when the key was present
with some value, which it overwrites. -/
theorem tableSet_returns_isNewKey (sz : Sizes) (stress : Bool) (fuel : Nat) (vm : VM)
    (ref : TableRef) (key h : Nat) (value : Value) (t : Table)
    (hget : getTable vm ref = some t) (hwf : TableWF (hashAt vm.mem) t)
    (hkeys : KeysBelow t vm.next) (href : ref.Below vm.next)
    (hh : hashAt vm.mem key = some h) (hkey : key < vm.next)
    (harena : ArenaSmall sz vm) (hruns : SetRuns sz stress vm t) :
    ∃ vm1 b, tableSet sz stress fuel vm ref key value = .ok (vm1, b) ∧
      (b = true ↔ tableGet vm.mem t key = some none) ∧
      (b = false ↔ ∃ v, tableGet vm.mem t key = some (some v)) := by
  obtain ⟨vm1, t1, b, hrun, _, _, _, _, hb, _⟩ :=
    tableSet_spec fuel value hget hwf hkeys href hh hkey harena hruns
  refine ⟨vm1, b, hrun, ?_, ?_⟩
  · rw [tableGet_eq_lookup hwf hh, hb]
    constructor
    · intro hn; rw [hn]
    · intro hn; exact Option.some.inj hn
  · rw [tableGet_eq_lookup hwf hh]
    constructor
    · intro hf
      cases hl : t.lookup key with
      | none => rw [hb.mpr hl] at hf; cases hf
      | some v => exact ⟨v, rfl⟩
    · rintro ⟨v, hv⟩
      cases hbb : b with
      | false => rfl
      | true =>
        rw [hb.mp hbb] at hv
        cases hv

theorem tableSet_returns_isNewKey_witness :
    ∃ vm1 b,
      tableSet sizes64 false 1 internedVM .strings 4138 (.number 3) = .ok (vm1, b) ∧
      (b = true ↔ tableGet internedVM.mem internedVM.strings 4138 = some none) ∧
      (b = false ↔ ∃ v, tableGet internedVM.mem internedVM.strings 4138 = some (some v)) :=
  tableSet_returns_isNewKey sizes64 false 1 internedVM .strings 4138 (hashString [98])
    (.number 3) internedVM.strings rfl wf_interned (by decide) trivial rfl (by decide)
    (by decide) (by decide)

/-- C14: `tableDelete` on a well-formed table with a key that is a string: the
call returns; it returns `false` and leaves the table as it is exactly when
`tableGet` of the key returns `false` (the empty table included); otherwise it
returns `true` and puts a tombstone (null key, value `true`) in the slot of the
key.  Afterwards `tableGet` of the key returns `false`, and `tableGet` of every
other string returns what it returned before. -/
theorem tableDelete_contract (m : Mem) (t : Table) (key h : Nat)
    (hwf : TableWF (hashAt m) t) (hh : hashAt m key = some h) :
    ∃ t1 b, tableDelete m t key = some (t1, b) ∧
      ((b = false ∧ t1 = t) ↔ tableGet m t key = some none) ∧
      (b = true ↔ ∃ v, tableGet m t key = some (some v)) ∧
      (b = true → ∃ (p : Nat) (e : Entry), t.entries[p]? = some e ∧ e.key = key ∧
        t1 = { count := t.count,
               entries := t.entries.set p { key := 0, value := .bool true } }) ∧
      tableGet m t1 key = some none ∧
      ∀ k hk, k ≠ key → hashAt m k = some hk → tableGet m t1 k = tableGet m t k := by
  obtain ⟨t1, b, hdel, hwf1, hb, hsame, htomb, hlook⟩ := tableDelete_spec hwf hh
  refine ⟨t1, b, hdel, ?_, ?_, htomb, ?_, ?_⟩
  · rw [tableGet_eq_lookup hwf hh]
    constructor
    · rintro ⟨hf, _⟩
      rw [hb.mp hf]
    · intro hn
      have hf := hb.mpr (Option.some.inj hn)
      exact ⟨hf, hsame hf⟩
  · rw [tableGet_eq_lookup hwf hh]
    constructor
    · intro ht
      cases hl : t.lookup key with
      | none => rw [hb.mpr hl] at ht; cases ht
      | some v => exact ⟨v, rfl⟩
    · rintro ⟨v, hv⟩
      cases hbb : b with
      | true => rfl
      | false =>
        rw [hb.mp hbb] at hv
        cases hv
  · rw [tableGet_eq_lookup hwf1 hh, hlook key (hashAt_ne_zero hh), if_pos rfl]
  · intro k hk hne hhk
    rw [tableGet_eq_lookup hwf1 hhk, tableGet_eq_lookup hwf hhk,
      hlook k (hashAt_ne_zero hhk), if_neg hne]

theorem tableDelete_contract_witness :
    ∃ t1 b, tableDelete collidingMem collidingTable 4096 = some (t1, b) ∧
      ((b = false ∧ t1 = collidingTable) ↔
        tableGet collidingMem collidingTable 4096 = some none) ∧
      (b = true ↔ ∃ v, tableGet collidingMem collidingTable 4096 = some (some v)) ∧
      (b = true → ∃ (p : Nat) (e : Entry), collidingTable.entries[p]? = some e ∧
        e.key = 4096 ∧
        t1 = { count := collidingTable.count,
               entries := collidingTable.entries.set p { key := 0, value := .bool true } }) ∧
      tableGet collidingMem t1 4096 = some none ∧
      ∀ k hk, k ≠ 4096 → hashAt collidingMem k = some hk →
        tableGet collidingMem t1 k = tableGet collidingMem collidingTable k :=
  tableDelete_contract collidingMem collidingTable 4096 (hashString [97]) wf_colliding rfl

/-- C15: on a well-formed table that does not hold the key, with room in the
arena for one growth of the table that triggers no collection, `n` rounds of
`tableSet` of the key followed by its `tableDelete` return, for every `n`;
afterwards `tableGet` returns for every string, the key included, what it
returned on the table at the start, and the capacity is at least the capacity
at the start. -/
theorem tombstone_neutrality (sz : Sizes) (stress : Bool) (fuel : Nat) (vm : VM)
    (ref : TableRef) (key h : Nat) (value : Value) (t : Table) (n : Nat)
    (hget : getTable vm ref = some t) (hwf : TableWF (hashAt vm.mem) t)
    (hkeys : KeysBelow t vm.next) (href : ref.Below vm.next)
    (hh : hashAt vm.mem key = some h) (hkey : key < vm.next)
    (harena : ArenaSmall sz vm) (habsent : tableGet vm.mem t key = some none)
    (hroom : GrowRuns sz stress vm (GROW_CAPACITY (t.capacityMask + 1))) :
    ∃ vm1 t1, setDeleteTimes sz stress fuel ref key value n vm = .ok vm1 ∧
      getTable vm1 ref = some t1 ∧
      tableGet vm1.mem t1 key = some none ∧
      (∀ k hk, hashAt vm.mem k = some hk → k < vm.next →
        tableGet vm1.mem t1 k = tableGet vm.mem t k) ∧
      t.capacityMask + 1 ≤ t1.capacityMask + 1 := by
  have hnone : t.lookup key = none := by
    rw [tableGet_eq_lookup hwf hh] at habsent
    exact Option.some.inj habsent
  obtain ⟨vm1, t1, hrun, hinv⟩ :=
    setDeleteTimes_inv fuel value href hh hkey harena hnone hroom n vm t
      ⟨hget, hwf, hkeys, SetFrame.refl vm, fun _ _ => rfl, Nat.le_refl _,
        Or.inl ⟨rfl, rfl, rfl, rfl⟩⟩
  have hget_eq : ∀ k hk, hashAt vm.mem k = some hk → k < vm.next →
      tableGet vm1.mem t1 k = tableGet vm.mem t k := by
    intro k hk hhk hlt
    rw [tableGet_eq_lookup hinv.wf (by rw [hinv.frame.hash k hlt]; exact hhk),
      tableGet_eq_lookup hwf hhk, hinv.look k (hashAt_ne_zero hhk)]
  refine ⟨vm1, t1, hrun, hinv.get, ?_, hget_eq, ?_⟩
  · rw [hget_eq key h hh hkey]
    exact habsent
  · have := hinv.len
    simp only [Table.capacityMask]
    omega

theorem tombstone_neutrality_witness :
    ∃ vm1 t1,
      setDeleteTimes sizes64 false 1 .globals 4096 (.number 1) 3 rootedStringVM = .ok vm1 ∧
      getTable vm1 .globals = some t1 ∧
      tableGet vm1.mem t1 4096 = some none ∧
      (∀ k hk, hashAt rootedStringVM.mem k = some hk → k < rootedStringVM.next →
        tableGet vm1.mem t1 k = tableGet rootedStringVM.mem initTable k) ∧
      initTable.capacityMask + 1 ≤ t1.capacityMask + 1 :=
  tombstone_neutrality sizes64 false 1 rootedStringVM .globals 4096 (hashString [97])
    (.number 1) initTable 3 rfl (wf_initTable _) (keysBelow_initTable _) trivial rfl
    (by decide) (by decide) rfl (by decide)

/-- C16: `tableFindString` on a well-formed table (every key is found from the
hash stored in its string, with tombstones anywhere on the probe paths): the
call returns; it returns `NULL` exactly when no key of the table points to a
string with the hash and the characters (hence the length) looked for, and
otherwise it returns a key of the table that points to such a string. -/
theorem tableFindString_finds (m : Mem) (t : Table) (chars : List Nat) (hash : Nat)
    (hwf : TableWF (hashAt m) t) :
    ∃ r, tableFindString m t chars hash = some r ∧
      (r = 0 ↔ ∀ e, e ∈ t.entries → e.key ≠ 0 → stringAt m e.key ≠ some (hash, chars)) ∧
      (r ≠ 0 → (∃ e, e ∈ t.entries ∧ e.key = r) ∧ stringAt m r = some (hash, chars)) :=
  tableFindString_wf chars hash hwf

theorem tableFindString_finds_witness :
    tableFindString collidingMem tombstoneTable [105] (hashString [105]) = some 4138 ∧
    tombstoneTable.entries[(hashString [105]) % 8]? = some ⟨0, .bool true⟩ ∧
    ∃ r, tableFindString collidingMem tombstoneTable [105] (hashString [105]) = some r ∧
      (r = 0 ↔ ∀ e, e ∈ tombstoneTable.entries → e.key ≠ 0 →
        stringAt collidingMem e.key ≠ some (hashString [105], [105])) ∧
      (r ≠ 0 → (∃ e, e ∈ tombstoneTable.entries ∧ e.key = r) ∧
        stringAt collidingMem r = some (hashString [105], [105])) :=
  ⟨rfl, rfl,
    tableFindString_finds collidingMem tombstoneTable [105] (hashString [105]) wf_tombstone⟩

/-! ## The slide and the address computation -/

/-- The slide after the address computation, on a walkable heap at a non-null
address: both return, and the live object at index `i` of the walk is found,
with its fields as they were and a null forwarding address, at `heap` plus the
sizes of the live objects before it. -/
theorem slide_after_assign (sz : Sizes) (hsz : sz.Pos) (vm : VM) (os : List Obj)
    (hheap : vm.heap ≠ 0)
    (hwalk : heapObjects sz (walkFuel vm) vm.next vm.mem vm.heap = some os) :
    ∃ vmA vm2, calculateNewLocations sz vm = some (vmA, liveSizeSum sz os) ∧
      compactHeap sz vmA = some vm2 ∧
      ∀ (i : Nat) (o : Obj), os[i]? = some o → o.forwardingAddress ≠ 0 →
        vm2.mem.read (vm.heap + liveSizeSum sz (os.take i)) =
          some { o with forwardingAddress := 0 } := by
  obtain ⟨m1, hrun, hwalk1, _⟩ :=
    calculateNewLocationsLoop_assign sz hsz vm.next (walkFuel vm) vm.mem vm.heap vm.heap os
      hheap hwalk
  have hassigned := assignedTo_specAssign sz os vm.heap hheap
  obtain ⟨m2, hrun2, hw⟩ :=
    compactHeapLoop_slides sz hsz vm.next vm.heap (walkFuel vm) m1 vm.heap vm.heap
      (specAssignForwarding sz vm.heap os) (vm.heap + liveSizeSum sz os) [] hwalk1 hassigned
      (Nat.le_refl _) trivial (by simp [sizeSum])
  refine ⟨{ vm with mem := m1 }, { vm with mem := m2 }, ?_, ?_, ?_⟩
  · simp only [calculateNewLocations, hrun]
    rw [Nat.add_sub_cancel_left]
  · have hfuel : walkFuel { vm with mem := m1 } = walkFuel vm := rfl
    simp only [compactHeap, hfuel, hrun2]
  · intro i o hi hlive
    have hget := specAssign_get sz os vm.heap i o hi
    rw [if_pos hlive] at hget
    have := slid_read sz m2 _ vm.heap _ hassigned (by simpa using hw) _
      (List.getElem?_mem hget) (by simp only [ne_eq]; omega)
    exact this

/-- The slide on the blocks of a walkable heap.  When the objects carry
forwarding addresses that an address computation from `heap` assigns, the
slide returns, and the block of every live object of the walk is found at its
forwarding address, with the kind, the fields that `Obj` holds and the array
that trails the struct as they were, and the forwarding address cleared: no
move destroys a live block that has not been moved yet, also when the blocks
of a move overlap.  In particular, when the heap is at a non-null address,
`calculateNewLocations` followed by `compactHeap` returns, and the block of the
live object at index `i` of the walk is found at `heap` plus the sizes of the
live objects before it.  Nothing is said here of the pointers `chars` and
`upvalues` of a moved object. -/
theorem compactHeap_moves_blocks (sz : Sizes) (hsz : sz.Pos) (vm : VM) (os : List Obj)
    (hwalk : heapObjects sz (walkFuel vm) vm.next vm.mem vm.heap = some os) :
    (∀ stop, AssignedTo sz vm.heap os stop →
      ∃ vm1, compactHeap sz vm = some vm1 ∧
        ∀ o, o ∈ os → o.forwardingAddress ≠ 0 →
          vm1.mem.read o.forwardingAddress = some { o with forwardingAddress := 0 }) ∧
    (vm.heap ≠ 0 →
      ∃ vmA vm2, calculateNewLocations sz vm = some (vmA, liveSizeSum sz os) ∧
        compactHeap sz vmA = some vm2 ∧
        ∀ (i : Nat) (o : Obj), os[i]? = some o → o.forwardingAddress ≠ 0 →
          vm2.mem.read (vm.heap + liveSizeSum sz (os.take i)) =
            some { o with forwardingAddress := 0 }) := by
  refine ⟨?_, fun hheap => slide_after_assign sz hsz vm os hheap hwalk⟩
  intro stop hassigned
  obtain ⟨m1, hrun, hw⟩ :=
    compactHeapLoop_slides sz hsz vm.next vm.heap (walkFuel vm) vm.mem vm.heap vm.heap os stop
      [] hwalk hassigned (Nat.le_refl _) trivial (by simp [sizeSum])
  refine ⟨{ vm with mem := m1 }, by simp only [compactHeap, hrun], ?_⟩
  intro o ho hlive
  exact slid_read sz m1 os vm.heap stop hassigned (by simpa using hw) o ho hlive

/-- The slide moves the blocks as `compactHeap` of the memory does. -/
theorem rawCompactHeapLoop_mem (sz : Sizes) (fuel next : Nat) (h : Raw.Heap) (frm : Nat) :
    (Raw.compactHeapLoop sz fuel next h frm).map (fun r => r.mem) =
      compactHeapLoop sz fuel next h.mem frm := by
  induction fuel generalizing h frm with
  | zero => rfl
  | succ fuel ih =>
    unfold Raw.compactHeapLoop compactHeapLoop
    by_cases hlt : frm < next
    · simp only [if_pos hlt]
      cases hr : h.mem.read frm with
      | none => rfl
      | some o =>
        simp only []
        by_cases hlive : o.forwardingAddress ≠ 0
        · simp only [if_pos hlive]
          by_cases hmove : o.forwardingAddress ≠ frm
          · simp only [if_pos hmove, Raw.memmove]
            cases hm : (memmove sz h.mem o.forwardingAddress frm (sizeOfObject sz o)).read
                o.forwardingAddress with
            | none => rfl
            | some moved => simp only []; rw [ih]
          · simp only [if_neg hmove]
            cases hm : h.mem.read o.forwardingAddress with
            | none => rfl
            | some moved => simp only []; rw [ih]
        · simp only [if_neg hlive]
          rw [ih]
    · simp only [if_neg hlt]
      rfl

theorem rawCompactHeap_mem (sz : Sizes) (vm : VM) (interior : Nat → Nat) :
    (Raw.compactHeap sz vm interior).map (fun r => r.1) = compactHeap sz vm := by
  have h := rawCompactHeapLoop_mem sz (walkFuel vm) vm.next
    { mem := vm.mem, interior := interior } vm.heap
  unfold Raw.compactHeap compactHeap
  cases hr : Raw.compactHeapLoop sz (walkFuel vm) vm.next
      { mem := vm.mem, interior := interior } vm.heap with
  | none => rw [hr] at h; simp only [Option.map] at h; rw [← h]; rfl
  | some r => rw [hr] at h; simp only [Option.map] at h; rw [← h]; rfl

/-- The phases after the mark loop treat the state as `collectAfterMark`
does. -/
theorem rawCollectAfterMark_fst (sz : Sizes) (fuel : Nat) (vm : VM) (interior : Nat → Nat) :
    (Raw.collectAfterMark sz fuel vm interior).map (fun r => r.1) =
      collectAfterMark sz fuel vm := by
  unfold Raw.collectAfterMark collectAfterMark
  cases tableRemoveWhite vm.mem vm.strings with
  | none => rfl
  | some strings1 =>
    simp only []
    cases calculateNewLocations sz { vm with strings := strings1 } with
    | none => rfl
    | some r1 =>
      obtain ⟨vm1, liveSize⟩ := r1
      simp only []
      cases updatePointers sz fuel vm1 with
      | none => rfl
      | some vm2 =>
        simp only []
        have h := rawCompactHeap_mem sz vm2 interior
        cases hr : Raw.compactHeap sz vm2 interior with
        | none => rw [hr] at h; simp only [Option.map] at h; rw [← h]; rfl
        | some r3 =>
          obtain ⟨vm3, interior3⟩ := r3
          rw [hr] at h; simp only [Option.map] at h; rw [← h]; rfl

/-- C18: `calculateNewLocations` on a walkable heap at a non-null address: the
call returns the size of the live objects; afterwards the object at index `i`
of the walk has the fields it had, a null forwarding address when it was dead,
and otherwise the forwarding address `heap` plus the sizes of the live objects
before it.  That target is at most the address of the object; the target
blocks of two live objects do not overlap; and each target block ends where
the targets of the objects up to it end, so that the blocks lie one after the
other from `heap`. -/
theorem calculateNewLocations_assigns (sz : Sizes) (hsz : sz.Pos) (vm : VM) (os : List Obj)
    (hheap : vm.heap ≠ 0)
    (hwalk : heapObjects sz (walkFuel vm) vm.next vm.mem vm.heap = some os) :
    ∃ vm1, calculateNewLocations sz vm = some (vm1, liveSizeSum sz os) ∧
      heapObjects sz (walkFuel vm) vm.next vm1.mem vm.heap =
        some (specAssignForwarding sz vm.heap os) ∧
      (∀ (i : Nat) (o : Obj), os[i]? = some o →
        ∃ o1, vm1.mem.read (vm.heap + sizeSum sz (os.take i)) = some o1 ∧
          o1.body = o.body ∧
          (o.forwardingAddress = 0 → o1.forwardingAddress = 0) ∧
          (o.forwardingAddress ≠ 0 →
            o1.forwardingAddress = vm.heap + liveSizeSum sz (os.take i) ∧
            o1.forwardingAddress ≤ vm.heap + sizeSum sz (os.take i) ∧
            o1.forwardingAddress + sizeOfObject sz o1 =
              vm.heap + liveSizeSum sz (os.take (i + 1)))) ∧
      (∀ (i j : Nat) (oi oj : Obj), i < j → os[i]? = some oi → os[j]? = some oj →
        oi.forwardingAddress ≠ 0 → oj.forwardingAddress ≠ 0 →
        vm.heap + liveSizeSum sz (os.take i) + sizeOfObject sz oi ≤
          vm.heap + liveSizeSum sz (os.take j)) := by
  obtain ⟨m1, hrun, hwalk1, _⟩ :=
    calculateNewLocationsLoop_assign sz hsz vm.next (walkFuel vm) vm.mem vm.heap vm.heap os
      hheap hwalk
  refine ⟨{ vm with mem := m1 }, ?_, hwalk1, ?_, ?_⟩
  · simp only [calculateNewLocations, hrun]
    rw [Nat.add_sub_cancel_left]
  · intro i o hi
    have hw := walkFrom_of_heapObjects sz vm.next _ _ _ _ hwalk1
    have hget := specAssign_get sz os vm.heap i o hi
    have hread := walkFrom_get sz m1 _ vm.heap i _ hw hget
    rw [sizeSum_specAssign] at hread
    refine ⟨_, hread, ?_, ?_, ?_⟩
    · split <;> rfl
    · intro h0
      rw [if_neg (by simpa using h0)]
      exact h0
    · intro hl
      rw [if_pos hl]
      refine ⟨rfl, ?_, ?_⟩
      · have := liveSizeSum_le_sizeSum sz (os.take i)
        simp only
        omega
      · rw [liveSizeSum_take_succ sz os i o hi, if_pos hl, sizeOfObject_setForwarding]
        simp only
        omega
  · intro i j oi oj hij hi hj hli _
    have h1 := liveSizeSum_take_succ sz os i oi hi
    rw [if_pos hli] at h1
    have h2 := liveSizeSum_take_mono sz os (i + 1) j (by omega)
    omega

theorem calculateNewLocations_assigns_witness :
    ∃ os, heapObjects sizes64 (walkFuel internedVM) internedVM.next internedVM.mem
        internedVM.heap = some os ∧
      os.map (fun o => o.forwardingAddress) = [0, 4138] ∧
      ∃ vm1, calculateNewLocations sizes64 internedVM = some (vm1, liveSizeSum sizes64 os) ∧
        heapObjects sizes64 (walkFuel internedVM) internedVM.next vm1.mem internedVM.heap =
          some (specAssignForwarding sizes64 internedVM.heap os) ∧
        (∀ (i : Nat) (o : Obj), os[i]? = some o →
          ∃ o1, vm1.mem.read (internedVM.heap + sizeSum sizes64 (os.take i)) = some o1 ∧
            o1.body = o.body ∧
            (o.forwardingAddress = 0 → o1.forwardingAddress = 0) ∧
            (o.forwardingAddress ≠ 0 →
              o1.forwardingAddress = internedVM.heap + liveSizeSum sizes64 (os.take i) ∧
              o1.forwardingAddress ≤ internedVM.heap + sizeSum sizes64 (os.take i) ∧
              o1.forwardingAddress + sizeOfObject sizes64 o1 =
                internedVM.heap + liveSizeSum sizes64 (os.take (i + 1)))) ∧
        (∀ (i j : Nat) (oi oj : Obj), i < j → os[i]? = some oi → os[j]? = some oj →
          oi.forwardingAddress ≠ 0 → oj.forwardingAddress ≠ 0 →
          internedVM.heap + liveSizeSum sizes64 (os.take i) + sizeOfObject sizes64 oi ≤
            internedVM.heap + liveSizeSum sizes64 (os.take j)) :=
  ⟨_, rfl, rfl,
    calculateNewLocations_assigns sizes64 (by decide) internedVM _ (by decide) rfl⟩

/-! ## Pruning the intern set -/

/-- C19: `tableRemoveWhite` on a well-formed table, whatever the marks in the
memory: the call returns a well-formed table in which every key is marked (its
forwarding address is not null), `count` is what it was, and `tableGet` of
every marked string returns what it returned before, so that the entries with
a marked key are present with the same value. -/
theorem tableRemoveWhite_prunes (m : Mem) (t : Table) (hwf : TableWF (hashAt m) t) :
    ∃ t1, tableRemoveWhite m t = some t1 ∧ TableWF (hashAt m) t1 ∧
      t1.count = t.count ∧ t1.entries.length = t.entries.length ∧
      (∀ e, e ∈ t1.entries → e.key ≠ 0 → Marked m e.key) ∧
      (∀ key h, hashAt m key = some h → Marked m key →
        tableGet m t1 key = tableGet m t key) ∧
      (∀ key h, hashAt m key = some h → ¬ Marked m key → tableGet m t1 key = some none) := by
  obtain ⟨t1, hrun, hwf1, hcount, hlen, _, hafter, hkeep, horig⟩ :=
    tableRemoveWhiteLoop_spec m t.entries.length 0 t hwf (by omega)
  have hmarked : ∀ e, e ∈ t1.entries → e.key ≠ 0 → Marked m e.key := by
    intro e he hk
    obtain ⟨j, hj, hget⟩ := List.getElem_of_mem he
    exact (hafter j e (Nat.zero_le _) (by rw [List.getElem?_eq_getElem hj, hget]) hk).1
  refine ⟨t1, hrun, hwf1, hcount, hlen, hmarked, ?_, ?_⟩
  · intro key h hh hm
    have hkey := hashAt_ne_zero hh
    rw [tableGet_eq_lookup hwf1 hh, tableGet_eq_lookup hwf hh]
    cases hl : t.lookup key with
    | some v =>
      obtain ⟨p, e, hp, hk, hv⟩ := (lookup_some_iff hwf hkey).mp hl
      have := hkeep p e hp (by rw [hk]; exact hkey) (by rw [hk]; exact hm)
      rw [(lookup_some_iff hwf1 hkey).mpr ⟨p, e, this, hk, hv⟩]
    | none =>
      cases hl1 : t1.lookup key with
      | none => rfl
      | some v =>
        obtain ⟨p, e, hp, hk, hv⟩ := (lookup_some_iff hwf1 hkey).mp hl1
        have := horig p e hp (by rw [hk]; exact hkey)
        rw [lookup_of_slot hwf this hk hkey] at hl
        cases hl
  · intro key h hh hm
    have hkey := hashAt_ne_zero hh
    rw [tableGet_eq_lookup hwf1 hh]
    cases hl1 : t1.lookup key with
    | none => rfl
    | some v =>
      obtain ⟨e, he, hk⟩ := mem_keys_of_lookup hwf1 hkey hl1
      exact absurd (by rw [← hk]; exact hmarked e he (by rw [hk]; exact hkey)) hm

theorem tableRemoveWhite_prunes_witness :
    tableRemoveWhite internedVM.mem internedVM.strings =
      some { count := 2,
             entries :=
               [⟨0, .nil⟩, ⟨0, .nil⟩, ⟨0, .nil⟩, ⟨0, .nil⟩, ⟨0, .bool true⟩, ⟨4138, .nil⟩,
                ⟨0, .nil⟩, ⟨0, .nil⟩] } ∧
    ∃ t1, tableRemoveWhite internedVM.mem internedVM.strings = some t1 ∧
      TableWF (hashAt internedVM.mem) t1 ∧
      t1.count = internedVM.strings.count ∧
      t1.entries.length = internedVM.strings.entries.length ∧
      (∀ e, e ∈ t1.entries → e.key ≠ 0 → Marked internedVM.mem e.key) ∧
      (∀ key h, hashAt internedVM.mem key = some h → Marked internedVM.mem key →
        tableGet internedVM.mem t1 key = tableGet internedVM.mem internedVM.strings key) ∧
      (∀ key h, hashAt internedVM.mem key = some h → ¬ Marked internedVM.mem key →
        tableGet internedVM.mem t1 key = some none) :=
  ⟨rfl, tableRemoveWhite_prunes internedVM.mem internedVM.strings wf_interned⟩

/-! ## The load invariant of the tables -/

theorem tableDelete_count {m : Mem} {t t1 : Table} {key : Nat} {b : Bool}
    (h : tableDelete m t key = some (t1, b)) : t1.count = t.count := by
  unfold tableDelete at h
  split at h
  · cases h; rfl
  · split at h
    · cases h
    · split at h
      · cases h
      · split at h
        · cases h; rfl
        · cases h; rfl

theorem tombstoneCount_of_noTombstone {E : List Entry} (h : NoTombstone E) :
    tombstoneCount E = 0 := by
  unfold tombstoneCount
  rw [List.countP_eq_zero]
  intro e he
  by_cases hk : e.key = 0
  · have := h e he hk
    simp only [Entry.isEmpty, hk, decide_True, Bool.true_and] at this
    simp [hk, this]
  · simp [hk]

/-- C20: every state that calls of `tableSet`, `tableDelete`, `tableAddAll`
(with the table as destination) and `tableRemoveWhite` lead to, from a state
in which the table is initialised, holds a table in which `count` is the
number of keys plus the number of tombstones and is at most 0.75 times the
capacity.  A table with slots has an empty slot, `findEntry` returns a slot
for every string, and `tableFindString` returns.  A `tableDelete` leaves
`count` as it is, a `tableSet` without growth that stops on a tombstone leaves
`count` as it is, and the rehash of a growth returns an array without
tombstone and the number of keys as `count`. -/
theorem table_load_invariant (sz : Sizes) (stress : Bool) (ref : TableRef) (vm0 vm : VM)
    (h0 : getTable vm0 ref = some initTable) (href : ref.Below vm0.next)
    (harena : ArenaSmall sz vm0) (hrun : TableRun sz stress ref vm0 vm) :
    ∃ t, getTable vm ref = some t ∧
      t.count = ((liveCount t.entries + tombstoneCount t.entries : Nat) : Int) ∧
      4 * t.count ≤ 3 * (t.capacityMask + 1) ∧
      (0 < t.capacityMask + 1 → ∃ e, e ∈ t.entries ∧ e.isEmpty = true) ∧
      (0 < t.capacityMask + 1 → ∀ key h, hashAt vm.mem key = some h →
        ∃ (i : Nat) (e : Entry), findEntry vm.mem t.entries t.capacityMask key = some i ∧
          t.entries[i]? = some e) ∧
      (∀ chars hash, ∃ r, tableFindString vm.mem t chars hash = some r) ∧
      (∀ key t1 b, tableDelete vm.mem t key = some (t1, b) → t1.count = t.count) ∧
      (∀ key h value vm1 b t1, hashAt vm.mem key = some h → key < vm.next →
        tableSet sz stress 0 vm ref key value = .ok (vm1, b) → getTable vm1 ref = some t1 →
        ¬ 4 * (t.count + 1) > 3 * (t.capacityMask + 1) → TombFirst vm.mem t key →
        t1.count = t.count) ∧
      (t.entries.length < 1073741824 →
        ∃ E c, rehash vm.mem (GROW_CAPACITY (t.capacityMask + 1)) t.entries
            (List.replicate (GROW_CAPACITY (t.capacityMask + 1)).toNat
              { key := 0, value := .nil }) 0 = some (E, c) ∧
          c = (liveCount t.entries : Int) ∧ liveCount E = liveCount t.entries ∧
          tombstoneCount E = 0) := by
  obtain ⟨t, hinv⟩ := tableRun_inv h0 href harena hrun
  have hwf := hinv.wf
  have hmask : t.capacityMask + 1 = (t.entries.length : Int) := by
    simp [Table.capacityMask]
  refine ⟨t, hinv.get, ?_, ?_, ?_, ?_, ?_, ?_, ?_, ?_⟩
  · rw [hwf.count_eq, count_live_tombstones]
  · rw [hmask]; exact hwf.load
  · intro hn
    obtain ⟨i, e, hi, he⟩ :=
      exists_isEmpty_of_countP_lt t.entries (hwf.not_full (by omega))
    exact ⟨e, List.getElem?_mem hi, he⟩
  · intro hn key h hh
    have hlen : 0 < t.entries.length := by omega
    by_cases hex : ∃ (p : Nat) (e : Entry), t.entries[p]? = some e ∧ e.key = key
    · obtain ⟨p, e, hp, hk⟩ := hex
      exact ⟨p, e, findEntry_present hwf hp hk (hashAt_ne_zero hh), hp⟩
    · obtain ⟨r, e, d, hr, her, _⟩ :=
        findEntry_absent hwf hlen hh (fun i e hi hk => hex ⟨i, e, hi, hk⟩)
      exact ⟨r, e, hr, her⟩
  · intro chars hash
    obtain ⟨r, hr, _⟩ := tableFindString_wf chars hash hwf
    exact ⟨r, hr⟩
  · intro key t1 b hdel
    exact tableDelete_count hdel
  · intro key h value vm1 b t1 hh hkey hset hget1 hng htomb
    have hruns := tableSet_zero_runs hset hinv.get
    obtain ⟨vm2, t2, b2, hset2, hcore, hget2, _⟩ :=
      tableSet_forward 0 value hinv.get hwf hinv.keys hinv.below hh hkey hinv.arena hruns
    rw [hset] at hset2
    cases hset2
    rw [hget1] at hget2
    cases hget2
    unfold tableSetCore at hcore
    rw [if_neg hng] at hcore
    obtain ⟨i, entry, hfind, hentry, _, ht1⟩ := tableInsert_slot hcore
    obtain ⟨r, e, hfr, her, _, hnil⟩ := htomb
    rw [hfind] at hfr
    cases hfr
    rw [hentry] at her
    cases her
    rw [ht1]
    simp [hnil]
  · intro hlen
    obtain ⟨tg, hgrow, hwfg, hnt, _, _, hcount, _, _⟩ := tableGrow_spec hwf hlen
    refine ⟨tg.entries, tg.count, tableGrow_rehash hgrow, hcount, ?_,
      tombstoneCount_of_noTombstone hnt⟩
    have h1 := hwfg.count_eq
    rw [liveCount_eq_of_noTombstone hnt, hcount] at h1
    omega

theorem table_load_invariant_witness :
    ∃ vm, TableRun sizes64 false .globals rootedStringVM vm ∧
    ∃ t, getTable vm .globals = some t ∧
      t.count = ((liveCount t.entries + tombstoneCount t.entries : Nat) : Int) ∧
      4 * t.count ≤ 3 * (t.capacityMask + 1) ∧
      (0 < t.capacityMask + 1 → ∃ e, e ∈ t.entries ∧ e.isEmpty = true) ∧
      (0 < t.capacityMask + 1 → ∀ key h, hashAt vm.mem key = some h →
        ∃ (i : Nat) (e : Entry), findEntry vm.mem t.entries t.capacityMask key = some i ∧
          t.entries[i]? = some e) ∧
      (∀ chars hash, ∃ r, tableFindString vm.mem t chars hash = some r) ∧
      (∀ key t1 b, tableDelete vm.mem t key = some (t1, b) → t1.count = t.count) ∧
      (∀ key h value vm1 b t1, hashAt vm.mem key = some h → key < vm.next →
        tableSet sizes64 false 0 vm .globals key value = .ok (vm1, b) →
        getTable vm1 .globals = some t1 →
        ¬ 4 * (t.count + 1) > 3 * (t.capacityMask + 1) → TombFirst vm.mem t key →
        t1.count = t.count) ∧
      (t.entries.length < 1073741824 →
        ∃ E c, rehash vm.mem (GROW_CAPACITY (t.capacityMask + 1)) t.entries
            (List.replicate (GROW_CAPACITY (t.capacityMask + 1)).toNat
              { key := 0, value := .nil }) 0 = some (E, c) ∧
          c = (liveCount t.entries : Int) ∧ liveCount E = liveCount t.entries ∧
          tombstoneCount E = 0) :=
  ⟨_,
    TableRun.delete _ _ _ _ 4096 (hashString [97]) true
      (TableRun.set rootedStringVM _ 4096 (hashString [97]) (.number 1) true TableRun.start
        rfl (by decide) rfl)
      rfl rfl rfl rfl,
    table_load_invariant sizes64 false .globals rootedStringVM _ rfl trivial (by decide)
      (TableRun.delete _ _ _ _ 4096 (hashString [97]) true
        (TableRun.set rootedStringVM _ 4096 (hashString [97]) (.number 1) true TableRun.start
          rfl (by decide) rfl)
        rfl rfl rfl rfl)⟩

end Bolt
